import Mathlib

/-!
pear: argument rewriting, classification and scrubbing.

A shallow embedding of the argument pipeline of `pear` (`command.go`,
`environment.go`, `config.go`) together with theorems about it.

Modelling conventions.

* A Go `string` is a `List Char` (`Str`); one `Char` stands for one rune of
  a valid UTF-8 string.  Every literal the program compares against is
  ASCII, so byte offsets such as `m[2 : len(m)-1]` coincide with rune
  offsets at the places they are used.
* The regular expressions of the program are compiled by
  `regexp.MustCompile`, i.e. RE2 syntax with the Perl flag set: `.` matches
  every rune except the line feed, a negated class such as `[^-]` does
  match the line feed, and `^`/`$` match only at the two ends of the text.
  Each expression is embedded as a matcher that tries its alternatives in
  the order they are written and returns the capture groups the program
  reads.
* What the program obtains from the operating system (working directory,
  the opening and reading of files, the digest, the result of writing a log
  file and of the child process) is collected in the structure `Host`.
* `readRspFile` opens a file and does not close it, so the scrub holds open
  every response file it has opened.  The embedding follows the number of
  files held open: `os.Open` fails once the process can open no more, which
  bounds the depth of the calls of `scrubCmdlineRtags` on response files
  that refer to one another.
-/

namespace Pear

/-- Go `string`, as the list of its runes. -/
abbrev Str := List Char

/-- A string literal of the program. -/
def lit (s : String) : Str := s.toList

/-! ## `path/filepath` on Unix -/

/-- `filepath.IsAbs` on Unix: the path starts with a slash. -/
def filepathIsAbs : Str → Bool
  | '/' :: _ => true
  | _ => false

/-- `strings.Split(path, "/")`: the elements between the separators. -/
def splitSlash : Str → List Str
  | [] => [[]]
  | c :: cs =>
    if c = '/' then [] :: splitSlash cs
    else
      match splitSlash cs with
      | [] => [[c]]
      | e :: es => (c :: e) :: es

/-- One element of the loop of `filepath.Clean`.  The output buffer is kept
as the list of elements written so far, `dotdot` counts the leading `..`
elements that can not be backtracked over. -/
def cleanStep (rooted : Bool) (st : Nat × List Str) (elem : Str) : Nat × List Str :=
  if elem = [] then st
  else if elem = ['.'] then st
  else if elem = ['.', '.'] then
    if st.1 < st.2.length then (st.1, st.2.dropLast)
    else if !rooted then (st.1 + 1, st.2 ++ [elem])
    else st
  else (st.1, st.2 ++ [elem])

/-- `filepath.Clean` on Unix. -/
def filepathClean (path : Str) : Str :=
  if path = [] then ['.']
  else
    let rooted := filepathIsAbs path
    let out := ((splitSlash path).foldl (cleanStep rooted) (0, [])).2
    if rooted then '/' :: ['/'].intercalate out
    else if out = [] then ['.']
    else ['/'].intercalate out

/-- `filepath.Join(a, b)`: the first non-empty element onwards, joined by
slashes and cleaned; the empty string when both are empty. -/
def filepathJoin (a b : Str) : Str :=
  if a ≠ [] then filepathClean (a ++ '/' :: b)
  else if b ≠ [] then filepathClean b
  else []

/-- `filepath.Abs`: `none` stands for the error of `os.Getwd`. -/
def filepathAbs (getwd : Option Str) (path : Str) : Option Str :=
  if filepathIsAbs path then some (filepathClean path)
  else
    match getwd with
    | none => none
    | some wd => some (filepathJoin wd path)

/-! ## The host environment -/

/-- What the program obtains from the operating system. -/
structure Host where
  /-- The result of `os.Getwd`, `none` when it fails. -/
  getwd : Option Str
  /-- The number of files the process can still open when the scrub starts. -/
  openLimit : Nat
  /-- The error text of `os.Open` when the process can open no more files. -/
  openLimitError : Str → Str
  /-- The error text of `os.Open` on a file while the process can still open
  files, `none` when the file is opened. -/
  openFile : Str → Option Str
  /-- The result of `ioutil.ReadAll` on an opened file: its content, or the
  text of the error. -/
  readAll : Str → Except Str Str
  /-- The hex encoding of the SHA-1 digest of a byte string. -/
  sha1Hex : Str → Str
  /-- The error text of `writeLogfile filename logentry`, `none` on success. -/
  writeFile : Str → Str → Option Str
  /-- The result of `os.Environ`. -/
  environ : List Str
  /-- The error text of running the child process, `none` on success. -/
  runChild : Str → List Str → List Str → Option Str

/-- `makeAbsolutePath` (command.go:281). -/
def makeAbsolutePath (h : Host) (basedir path : Str) : Str :=
  if !filepathIsAbs path then
    match filepathAbs h.getwd (filepathJoin basedir path) with
    | some s => s
    | none => path
  else path

/-! ## `filterOut` -/

/-- The loop of `filterOut` (command.go:341-349).  The slice `args` of the
program is `seen ++ rest`, the range loop stands at index `seen.length`.
On a match `tmp` grows by `args[:i]`, `args` becomes `args[i+1:]` and the
loop restarts; when the range is exhausted the result is
`append(tmp, args...)`. -/
def filterOutLoop (patterns : List Str) : List Str → List Str → List Str → List Str
  | tmp, seen, [] => tmp ++ seen
  | tmp, seen, v :: rest =>
    if v ∈ patterns then filterOutLoop patterns (tmp ++ seen) [] rest
    else filterOutLoop patterns tmp (seen ++ [v]) rest

/-- `filterOut` (command.go:335). -/
def filterOut (args patterns : List Str) : List Str :=
  filterOutLoop patterns [] [] args

/-! ## Environment (environment.go) -/

/-- Go `map[string]string` read through index expressions only: an absent
key reads as the empty string. -/
abbrev Environment := Str → Str

/-- `Environment.Get` (environment.go:28). -/
def Environment.Get (env : Environment) (name : Str) : Str := env name

/-- `Environment.Set` (environment.go:32). -/
def Environment.Set (env : Environment) (name value : Str) : Environment :=
  fun k => if k = name then value else env k

/-- The tail `.+?\)` of `envExpandRegexp` after its first rune: the
shortest run of runes other than the line feed that is followed by a
closing parenthesis.  Returns the run and the text after the parenthesis. -/
def matchEnvRefClose : Str → Option (Str × Str)
  | [] => none
  | c :: rest =>
    if c = ')' then some ([], rest)
    else if c = '\n' then none
    else
      match matchEnvRefClose rest with
      | some (body, after) => some (c :: body, after)
      | none => none

/-- A match of `envExpandRegexp`, the expression `[\$@]\(.+?\)`, at the
start of the text: the matched text and the text after it. -/
def matchEnvRef : Str → Option (Str × Str)
  | sigil :: '(' :: c :: rest =>
    if (sigil = '$' ∨ sigil = '@') ∧ c ≠ '\n' then
      match matchEnvRefClose rest with
      | some (body, after) => some (sigil :: '(' :: c :: (body ++ [')']), after)
      | none => none
    else none
  | _ => none

/-- `envExpandRegexp.ReplaceAllStringFunc(s, f)`: the leftmost matches, not
overlapping, are replaced by `f` of the match.  The first argument bounds
the number of steps; each step consumes at least one rune. -/
def replaceAllEnvRefs (f : Str → Str) : Nat → Str → Str
  | 0, s => s
  | _ + 1, [] => []
  | n + 1, c :: cs =>
    match matchEnvRef (c :: cs) with
    | some (m, after) => f m ++ replaceAllEnvRefs f n after
    | none => c :: replaceAllEnvRefs f n cs

/-- The closure `f` of `Environment.Expand` (environment.go:12-24). -/
def expandRef (h : Host) (env : Environment) (m : Str) : Str :=
  let k := (m.drop 2).take (m.length - 1 - 2)
  let v := env.Get k
  if v = [] then m
  else if m.head? = some '@' ∧ filepathIsAbs v = false then
    match filepathAbs h.getwd (filepathJoin (env.Get (lit ".cdir")) v) with
    | some t => t
    | none => v
  else v

/-- `Environment.Expand` (environment.go:11). -/
def Environment.Expand (h : Host) (env : Environment) (s : Str) : Str :=
  replaceAllEnvRefs (expandRef h env) s.length s

/-! ## The command model (config.go) -/

/-- The struct `Command` (config.go:19). -/
structure Command where
  name : Str
  exec : Str
  logfile : Str
  rtags_logfile : Str
  append : List Str
  prepend : List Str
  filterOut : List Str
  deriving DecidableEq, Repr

/-! ## The classifier `getCmdlineInputOutput` -/

/-- The source extensions `c|i|ii|cc|cp|cxx|cpp|c\+\+|C|f|F|r|s|S`. -/
def sourceExts : List Str :=
  [lit "c", lit "i", lit "ii", lit "cc", lit "cp", lit "cxx",
   lit "cpp", lit "c++", lit "C", lit "f", lit "F", lit "r",
   lit "s", lit "S"]

/-- Whether `.*` or `.+` can consume every rune of the text: no line feed. -/
def dotMatchesAll (s : Str) : Bool := s.all (fun c => c ≠ '\n')

/-- The text after the literal `p` when `s` starts with it. -/
def afterLiteral : Str → Str → Option Str
  | [], s => some s
  | _ :: _, [] => none
  | p :: ps, c :: cs => if p = c then afterLiteral ps cs else none

/-- Anchored match of `.*\.(c|i|...)$`: `.*` consumes runes other than the
line feed up to a dot that is followed by exactly one of the extensions. -/
def matchStarDotExt : Str → Bool
  | [] => false
  | c :: rest =>
    (c = '.' ∧ rest ∈ sourceExts) || (c ≠ '\n' && matchStarDotExt rest)

/-- Anchored match of the file alternative `[^-].*\.(c|i|...)`. -/
def matchFileArg : Str → Bool
  | [] => false
  | c :: rest => c ≠ '-' && matchStarDotExt rest

/-- The capture groups of the expression of `getCmdlineInputOutput` that the
program reads: `outputGroup = 2` and `sourceGroup = 3`.  A group that did
not take part in the match is the empty string. -/
structure InputOutputMatch where
  outputGroup : Str
  sourceGroup : Str

/-- The expression `^(-o(.+)|([^-].*\.(c|i|...)))$` of
`getCmdlineInputOutput` (command.go:92), `none` when it does not match. -/
def inputOutputRegexp (arg : Str) : Option InputOutputMatch :=
  match afterLiteral (lit "-o") arg with
  | some t =>
    if t ≠ [] ∧ dotMatchesAll t = true then some ⟨t, []⟩
    else if matchFileArg arg then some ⟨[], arg⟩ else none
  | none => if matchFileArg arg then some ⟨[], arg⟩ else none

/-- The states of the scan of `getCmdlineInputOutput` (command.go:100). -/
inductive ClassifierState where
  | stateInitial
  | stateOutputArg
  deriving DecidableEq, Repr

/-- The variables of the loop of `getCmdlineInputOutput`. -/
structure ClassifierVars where
  state : ClassifierState
  output : Str
  sources : List Str
  hasCompileFlag : Bool

/-- One iteration of the loop of `getCmdlineInputOutput` (command.go:107-134). -/
def classifierStep (s : ClassifierVars) (arg : Str) : ClassifierVars :=
  if s.state = ClassifierState.stateOutputArg then
    ⟨ClassifierState.stateInitial, arg, s.sources, s.hasCompileFlag⟩
  else if arg = lit "-o" then
    ⟨ClassifierState.stateOutputArg, s.output, s.sources, s.hasCompileFlag⟩
  else if arg = lit "-c" then
    ⟨s.state, s.output, s.sources, true⟩
  else
    match inputOutputRegexp arg with
    | none => s
    | some m =>
      let output := if m.outputGroup ≠ [] then m.outputGroup else s.output
      let sources := if m.sourceGroup ≠ [] then s.sources ++ [m.sourceGroup] else s.sources
      ⟨s.state, output, sources, s.hasCompileFlag⟩

/-- `getCmdlineInputOutput` (command.go:88): the pair `(input, output)`. -/
def getCmdlineInputOutput (args : List Str) : Str × Str :=
  let s := args.foldl classifierStep ⟨ClassifierState.stateInitial, [], [], false⟩
  let input := match s.sources with
    | [src] => src
    | _ => []
  let output :=
    if s.output = [] ∧ s.hasCompileFlag = true ∧ input ≠ [] then input ++ (lit ".o")
    else s.output
  (input, output)

/-! ## The scrubber `scrubCmdlineRtags` -/

/-- The prefixes of `rtagsFilterRegexp` (command.go:150). -/
def rtagsFilterPrefixes : List Str :=
  [lit "-fvar-tracking-assignments", lit "-fdebug-prefix-map",
   lit "-falign-functions"]

/-- `rtagsFilterRegexp.MatchString`: the expression
`^-(fvar-tracking-assignments|fdebug-prefix-map|falign-functions)` is
anchored at the start only. -/
def rtagsFilterRegexp (arg : Str) : Bool :=
  rtagsFilterPrefixes.any (fun p => (afterLiteral p arg).isSome)

/-- The flags of `singleArgExpr` (command.go:156), in the order written. -/
def singleArgFlags : List Str :=
  [lit "--sysroot", lit "-isystem", lit "-o", lit "-I", lit "-M",
   lit "-MD", lit "-MG", lit "-MM", lit "-MMD", lit "-MP",
   lit "-MF", lit "-MQ", lit "-MT"]

/-- The flags of `compundArgExpr` (command.go:157), in the order written. -/
def compoundArgFlags : List Str :=
  [lit "--sysroot=", lit "-o", lit "-I", lit "-MF", lit "-MQ",
   lit "-MT"]

/-- Anchored match of `(-(-sysroot=|o|I|MF|MQ|MT))(.+)` over the listed
flags: the first flag the text starts with such that a non-empty rest
without line feed follows.  Returns the flag and the rest. -/
def matchCompoundArg : List Str → Str → Option (Str × Str)
  | [], _ => none
  | f :: fs, arg =>
    match afterLiteral f arg with
    | some t =>
      if t ≠ [] ∧ dotMatchesAll t = true then some (f, t)
      else matchCompoundArg fs arg
    | none => matchCompoundArg fs arg

/-- Anchored match of `.*\.rsp$`. -/
def matchStarDotRsp : Str → Bool
  | [] => false
  | c :: rest =>
    (c = '.' ∧ rest = lit "rsp") || (c ≠ '\n' && matchStarDotRsp rest)

/-- Anchored match of `(@(.*\.rsp))`: the text after the `@`. -/
def matchRspFileArg : Str → Option Str
  | '@' :: rest => if matchStarDotRsp rest then some rest else none
  | _ => none

/-- The capture groups of `rtagsScrubRegexp` that `scrubCmdlineRtags`
reads (command.go:200-207).  A group that did not take part in the match
is the empty string. -/
structure ScrubMatch where
  singleArgGroup : Str
  compoundArgGroup1 : Str
  compoundArgGroup2 : Str
  fileArgGroup : Str
  rspFileArgGroup2 : Str
  deriving DecidableEq, Repr

/-- The expression `rtagsScrubRegexp` (command.go:155-162):
`^(singleArgExpr|compundArgExpr|fileArgExpr|rspFileArgExpr)$`, `none` when
it does not match. -/
def rtagsScrubRegexp (arg : Str) : Option ScrubMatch :=
  if arg ∈ singleArgFlags then some ⟨arg, [], [], [], []⟩
  else
    match matchCompoundArg compoundArgFlags arg with
    | some (f, t) => some ⟨[], f, t, [], []⟩
    | none =>
      if matchFileArg arg then some ⟨[], [], [], arg, []⟩
      else
        match matchRspFileArg arg with
        | some path => some ⟨[], [], [], [], path⟩
        | none => none

/-- `unicode.IsSpace`: the runes with the Unicode property White_Space. -/
def isSpace (c : Char) : Bool :=
  c.toNat ∈ [0x09, 0x0A, 0x0B, 0x0C, 0x0D, 0x20, 0x85, 0xA0, 0x1680, 0x2028, 0x2029,
    0x202F, 0x205F, 0x3000] ∨ (0x2000 ≤ c.toNat ∧ c.toNat ≤ 0x200A)

/-- `bytes.Fields`: the maximal runs of runes that are not white space.
The first argument is the field being read. -/
def fieldsLoop : Str → Str → List Str
  | cur, [] => if cur = [] then [] else [cur]
  | cur, c :: cs =>
    if isSpace c then
      if cur = [] then fieldsLoop [] cs else cur :: fieldsLoop [] cs
    else fieldsLoop (cur ++ [c]) cs

/-- `readRspFile` (command.go:303): the fields of the file, or the error.
The function never closes the file it opens, so every file opened stays
open for the rest of the scrub: `held` is the number of files the scrub
holds open before the call, and the second component is that number after
it.  `os.Open` fails once the process can open no more files. -/
def readRspFile (h : Host) (held : Nat) (filename : Str) : Except Str (List Str) × Nat :=
  if h.openLimit ≤ held then (.error (h.openLimitError filename), held)
  else
    match h.openFile filename with
    | some err => (.error err, held)
    | none =>
      match h.readAll filename with
      | .ok b => (.ok (fieldsLoop [] b), held + 1)
      | .error err => (.error err, held + 1)

/-- The states of the scan of `scrubCmdlineRtags` (command.go:193-197). -/
inductive ScrubState where
  | stateInitial
  | stateDropNextArg
  | stateMakeNextArgRelative
  deriving DecidableEq, Repr

/-- A Go `[]string` result: the `nil` slice or a slice with elements. -/
inductive Slice where
  | nil
  | mk (elems : List Str)
  deriving DecidableEq, Repr

/-- The elements of a slice, none for `nil`. -/
def Slice.elems : Slice → List Str
  | .nil => []
  | .mk l => l

/-- The token `fmt.Sprintf("-rtags-scrub-error \"%s\"", err)`. -/
def scrubErrorToken (err : Str) : Str :=
  (lit "-rtags-scrub-error \"") ++ err ++ (lit "\"")

/-- The flag dispatch of `scrubCmdlineRtags` (command.go:248-271): the new
value of `scrubbed` and of `state`. -/
def scrubFlag (h : Host) (wdir : Str) (m : ScrubMatch) (scrubbed : List Str) :
    List Str × ScrubState :=
  let flagArg := m.compoundArgGroup2
  let flag := if m.singleArgGroup = [] then m.compoundArgGroup1 else m.singleArgGroup
  if flag = lit "-I" ∨ flag = lit "-isystem" then
    if flagArg = [] then (scrubbed ++ [flag], ScrubState.stateMakeNextArgRelative)
    else (scrubbed ++ [flag ++ makeAbsolutePath h wdir flagArg], ScrubState.stateInitial)
  else if flag = lit "-o" ∨ flag = lit "-MF" ∨ flag = lit "-MQ" ∨
      flag = lit "-MT" then
    if flagArg = [] then (scrubbed, ScrubState.stateDropNextArg)
    else (scrubbed, ScrubState.stateInitial)
  else if flag = lit "--sysroot=" then
    (scrubbed ++ [lit "-isysroot", makeAbsolutePath h wdir flagArg],
      ScrubState.stateInitial)
  else if flag = lit "--sysroot" then
    (scrubbed ++ [lit "-isysroot"], ScrubState.stateInitial)
  else (scrubbed, ScrubState.stateInitial)

/-- The loop of `scrubCmdlineRtags` (command.go:211-273) from the given
`state` and `scrubbed`, with `held` files held open.  `recur` is the
recursive call on the arguments of a response file; it gives `none` when
the bound on the depth of the calls does not suffice.  The result is the
slice returned and the number of files held open then. -/
def scrubLoop (h : Host) (recur : Nat → List Str → Option (Slice × Nat)) (wdir : Str) :
    ScrubState → List Str → Nat → List Str → Option (Slice × Nat)
  | _, scrubbed, held, [] => some (Slice.mk scrubbed, held)
  | state, scrubbed, held, arg :: args =>
    if state = ScrubState.stateMakeNextArgRelative then
      scrubLoop h recur wdir ScrubState.stateInitial
        (scrubbed ++ [makeAbsolutePath h wdir arg]) held args
    else if state ≠ ScrubState.stateInitial then
      scrubLoop h recur wdir ScrubState.stateInitial scrubbed held args
    else if arg = lit "-E" then some (Slice.nil, held)
    else
      match rtagsScrubRegexp arg with
      | none =>
        if !rtagsFilterRegexp arg then
          scrubLoop h recur wdir ScrubState.stateInitial (scrubbed ++ [arg]) held args
        else scrubLoop h recur wdir ScrubState.stateInitial scrubbed held args
      | some m =>
        if m.fileArgGroup ≠ [] then
          scrubLoop h recur wdir ScrubState.stateInitial
            (scrubbed ++ [makeAbsolutePath h wdir m.fileArgGroup]) held args
        else if m.rspFileArgGroup2 ≠ [] then
          match readRspFile h held m.rspFileArgGroup2 with
          | (.error err, held1) =>
            scrubLoop h recur wdir (scrubFlag h wdir m (scrubbed ++ [scrubErrorToken err])).2
              (scrubFlag h wdir m (scrubbed ++ [scrubErrorToken err])).1 held1 args
          | (.ok rspArgs, held1) =>
            match recur held1 rspArgs with
            | none => none
            | some r =>
              scrubLoop h recur wdir ScrubState.stateInitial (scrubbed ++ r.1.elems) r.2 args
        else
          scrubLoop h recur wdir (scrubFlag h wdir m scrubbed).2
            (scrubFlag h wdir m scrubbed).1 held args

/-- `scrubCmdlineRtags` (command.go:191) called while `held` files are held
open: the slice returned and the number of files held open then.  The
program recurses into response files, so the embedding carries a bound on
the depth of the calls: `none` when the bound does not suffice.  A bound
above `h.openLimit` always suffices (`scrubCmdlineRtagsFrom_returns`). -/
def scrubCmdlineRtagsFrom (h : Host) (wdir : Str) :
    Nat → Nat → List Str → Option (Slice × Nat)
  | 0, _, _ => none
  | fuel + 1, held, args =>
    scrubLoop h (scrubCmdlineRtagsFrom h wdir fuel) wdir ScrubState.stateInitial [] held args

/-- `scrubCmdlineRtags` (command.go:191) as `buildRtagsLogentry` calls it,
before any response file is opened; `none` when the bound on the depth of
the calls does not suffice. -/
def scrubCmdlineRtags (h : Host) (wdir : Str) (fuel : Nat) (args : List Str) : Option Slice :=
  (scrubCmdlineRtagsFrom h wdir fuel 0 args).map Prod.fst

/-! ## Log entries -/

/-- `buildLogentry` (command.go:145). -/
def buildLogentry (execName : Str) (args : List Str) : Str :=
  execName ++ (lit " ") ++ (lit " ").intercalate args ++ (lit "\n")

/-- `bytes.Replace(b, []byte("\\\""), []byte("\""), -1)`: every occurrence of
a backslash followed by a double quote, left to right and not overlapping,
becomes a double quote. -/
def unescapeQuotes : Str → Str
  | [] => []
  | [c] => [c]
  | c :: d :: rest =>
    if c = '\\' ∧ d = '"' then '"' :: unescapeQuotes rest
    else c :: unescapeQuotes (d :: rest)

/-- `buildRtagsLogentry` (command.go:276); `none` when the bound `fuel` on
the depth of the calls of the scrub does not suffice. -/
def buildRtagsLogentry (h : Host) (fuel : Nat) (wdir execName : Str) (args : List Str) :
    Option Str :=
  match scrubCmdlineRtags h wdir fuel args with
  | none => none
  | some r => some (unescapeQuotes (buildLogentry execName r.elems))

/-- `makeInputOutputPath` (command.go:67). -/
def makeInputOutputPath (h : Host) (basedir path fallback : Str) : Str :=
  if path = [] then fallback else makeAbsolutePath h basedir path

/-- `updateLogfileEnv` (command.go:76): the environment after the call. -/
def updateLogfileEnv (h : Host) (env : Environment) (args : List Str) (logentry : Str) :
    Environment :=
  let sha1SumHex := h.sha1Hex logentry
  let env := env.Set (lit ".sha1") sha1SumHex
  let io := getCmdlineInputOutput args
  let wdir := env.Get (lit ".wdir")
  let env := env.Set (lit ".input") (makeInputOutputPath h wdir io.1 sha1SumHex)
  env.Set (lit ".output") (makeInputOutputPath h wdir io.2 sha1SumHex)

/-- `prependEnvPath` (command.go:319). -/
def prependEnvPath : List Str → Str → List Str
  | [], path => [(lit "PATH=") ++ path]
  | v :: env, path =>
    match afterLiteral (lit "PATH=") v with
    | some tail =>
      if tail ≠ [] then ((lit "PATH=") ++ (path ++ (lit ":") ++ tail)) :: env
      else ((lit "PATH=") ++ path) :: env
    | none => v :: prependEnvPath env path

/-! ## The dispatcher `Command.Run` -/

/-- The built-in `copy(dst, src)`: the new content of `dst`. -/
def goCopy (dst src : List Str) : List Str :=
  src.take dst.length ++ dst.drop src.length

/-- The argument vector built by `Command.Run` (command.go:22-32). -/
def runArgs (h : Host) (cmd : Command) (env : Environment) (args : List Str) : List Str :=
  let args := cmd.append.foldl (fun a s => a ++ [env.Expand h s]) args
  let t := List.replicate (args.length + cmd.prepend.length) ([] : Str)
  let t := t.take cmd.prepend.length ++ goCopy (t.drop cmd.prepend.length) args
  let args := t
  let args := cmd.prepend.enum.foldl (fun a is => a.set is.1 (env.Expand h is.2)) args
  filterOut args cmd.filterOut

/-- The errors `Command.Run` returns. -/
inductive RunError where
  /-- The error `executable name missing for command ...`. -/
  | execNameMissing (name : Str)
  /-- The error of `writeLogfile`. -/
  | logfile (text : Str)
  /-- The error of running the child process. -/
  | child (text : Str)
  deriving DecidableEq, Repr

/-- What `Command.Run` does to the outside, in order. -/
inductive Effect where
  /-- The call `writeLogfile(filename, logentry)`. -/
  | writeLogfile (filename logentry : Str)
  /-- The child process `exec.Command(execName, args...)` with its `Env`. -/
  | execCommand (execName : Str) (args : List Str) (env : List Str)
  deriving DecidableEq, Repr

/-- The outcome of `Command.Run`: its effects and the error it returns. -/
structure RunResult where
  effects : List Effect
  err : Option RunError
  deriving DecidableEq, Repr

/-- The last step of `Command.Run` (command.go:54-64). -/
def runChildStep (h : Host) (env : Environment) (execName : Str) (args : List Str)
    (effects : List Effect) : RunResult :=
  let osEnv := prependEnvPath h.environ (env.Get (lit ".cdir"))
  ⟨effects ++ [Effect.execCommand execName args osEnv],
    (h.runChild execName args osEnv).map RunError.child⟩

/-- The rtags logging step of `Command.Run` (command.go:43-52) and what
follows it; `none` when the bound `fuel` on the depth of the calls of the
scrub does not suffice. -/
def runRtagsStep (h : Host) (fuel : Nat) (cmd : Command) (env : Environment)
    (execName : Str) (args : List Str) (effects : List Effect) : Option RunResult :=
  if cmd.rtags_logfile ≠ [] then
    match buildRtagsLogentry h fuel (env.Get (lit ".wdir")) execName args with
    | none => none
    | some logentry =>
      if 0 < logentry.length then
        let env := updateLogfileEnv h env args logentry
        let filename := env.Expand h cmd.rtags_logfile
        match h.writeFile filename logentry with
        | some err => some ⟨effects ++ [Effect.writeLogfile filename logentry],
            some (RunError.logfile err)⟩
        | none => some (runChildStep h env execName args
            (effects ++ [Effect.writeLogfile filename logentry]))
      else some (runChildStep h env execName args effects)
  else some (runChildStep h env execName args effects)

/-- `Command.Run` (command.go:16); `none` when the bound `fuel` on the depth
of the calls of the scrub does not suffice. -/
def Command.Run (h : Host) (fuel : Nat) (cmd : Command) (env : Environment)
    (args : List Str) : Option RunResult :=
  let execName := env.Expand h cmd.exec
  if execName = [] then some ⟨[], some (RunError.execNameMissing cmd.name)⟩
  else
    let args := runArgs h cmd env args
    if cmd.logfile ≠ [] then
      let logentry := buildLogentry execName args
      let env := updateLogfileEnv h env args logentry
      let filename := env.Expand h cmd.logfile
      match h.writeFile filename logentry with
      | some err => some ⟨[Effect.writeLogfile filename logentry], some (RunError.logfile err)⟩
      | none => runRtagsStep h fuel cmd env execName args [Effect.writeLogfile filename logentry]
    else runRtagsStep h fuel cmd env execName args []

/-! ## Notions used to state the behaviour of the classifier -/

/-- The tokens the scan of `getCmdlineInputOutput` meets in its initial
state: every token except the one consumed as the value of a bare `-o`. -/
def scannedTokens : List Str → List Str
  | [] => []
  | [t] => [t]
  | t :: v :: rest =>
    if t = lit "-o" then t :: scannedTokens rest
    else t :: scannedTokens (v :: rest)

/-- The output paths captured by the scan, in order, given what a compound
token captures: the token after a bare `-o`, whatever it is, and the path
of a compound token met in the initial state. -/
def outputCapturesWith (compound : Str → Option Str) : List Str → List Str
  | [] => []
  | [t] => if t = lit "-o" then [] else (compound t).toList
  | t :: v :: rest =>
    if t = lit "-o" then v :: outputCapturesWith compound rest
    else (compound t).toList ++ outputCapturesWith compound (v :: rest)

/-- The path captured from a compound token `-o<path>`: the path is not
empty and holds no line feed. -/
def compoundOutput (t : Str) : Option Str :=
  match afterLiteral (lit "-o") t with
  | some path => if path ≠ [] ∧ dotMatchesAll path = true then some path else none
  | none => none

/-- The output paths captured by the scan of `getCmdlineInputOutput`. -/
def outputCaptures (args : List Str) : List Str :=
  outputCapturesWith compoundOutput args

/-- A source candidate in the words of the specification: the token does
not start with `-` and ends in a dot followed by one of the extensions,
with at least one character before that dot. -/
def claimedSourceCandidate (tok : Str) : Bool :=
  decide (tok.head? ≠ some '-') &&
    sourceExts.any (fun e => ('.' :: e).isSuffixOf tok && decide (e.length + 1 < tok.length))

/-- The path of a compound token in the words of the specification: what
follows `-o`, when something does. -/
def claimedCompoundOutput (t : Str) : Option Str :=
  match afterLiteral (lit "-o") t with
  | some path => if path ≠ [] then some path else none
  | none => none

/-! ## Notions used to state the behaviour of the scrubber -/

/-- The split-form flags that are dropped together with the token after
them. -/
def dropValueFlags : List Str := [lit "-o", lit "-MF", lit "-MQ", lit "-MT"]

/-- The split-form flags that are kept and whose next token is made
absolute. -/
def absValueFlags : List Str := [lit "-I", lit "-isystem"]

/-- Whether a token met in the initial state takes the next token as its
value: a split-form `-o`, `-MF`, `-MQ`, `-MT`, `-I` or `-isystem`. -/
def takesValue (t : Str) : Bool := decide (t ∈ dropValueFlags ++ absValueFlags)

/-- Whether the token after the given ones is met in the initial state, i.e.
is not consumed as the value of a split-form flag before it. -/
def endsInInitial : List Str → Bool
  | [] => true
  | [t] => !takesValue t
  | t :: v :: rest =>
    if takesValue t then endsInInitial rest else endsInInitial (v :: rest)

/-- Whether the token is a response-file reference, the alternative
`@(.*\.rsp)` of `rtagsScrubRegexp`. -/
def isRspReference (t : Str) : Bool := (matchRspFileArg t).isSome

/-- What one iteration of the loop of `scrubCmdlineRtags` does: it returns
`nil`, or the bound on the depth of the calls does not suffice, or it goes
on in a new state after appending tokens to `scrubbed`, with a new number
of files held open. -/
inductive ScrubStep where
  | abort
  | diverge
  | next (state : ScrubState) (emitted : List Str) (held : Nat)
  deriving DecidableEq, Repr

/-- One iteration of the loop of `scrubCmdlineRtags` on `arg`, as a function
of the state and of the number of files held open (see `scrubLoop_cons`). -/
def scrubStep (h : Host) (recur : Nat → List Str → Option (Slice × Nat)) (wdir : Str)
    (state : ScrubState) (held : Nat) (arg : Str) : ScrubStep :=
  if state = ScrubState.stateMakeNextArgRelative then
    ScrubStep.next ScrubState.stateInitial [makeAbsolutePath h wdir arg] held
  else if state ≠ ScrubState.stateInitial then ScrubStep.next ScrubState.stateInitial [] held
  else if arg = lit "-E" then ScrubStep.abort
  else
    match rtagsScrubRegexp arg with
    | none =>
      if !rtagsFilterRegexp arg then ScrubStep.next ScrubState.stateInitial [arg] held
      else ScrubStep.next ScrubState.stateInitial [] held
    | some m =>
      if m.fileArgGroup ≠ [] then
        ScrubStep.next ScrubState.stateInitial [makeAbsolutePath h wdir m.fileArgGroup] held
      else if m.rspFileArgGroup2 ≠ [] then
        match readRspFile h held m.rspFileArgGroup2 with
        | (.error err, held1) =>
          ScrubStep.next (scrubFlag h wdir m []).2
            (scrubErrorToken err :: (scrubFlag h wdir m []).1) held1
        | (.ok rspArgs, held1) =>
          match recur held1 rspArgs with
          | none => ScrubStep.diverge
          | some r => ScrubStep.next ScrubState.stateInitial r.1.elems r.2
      else ScrubStep.next (scrubFlag h wdir m []).2 (scrubFlag h wdir m []).1 held

/-- The slice with the given tokens put in front; `nil` stays `nil`. -/
def Slice.prepend (acc : List Str) : Slice → Slice
  | .nil => .nil
  | .mk l => .mk (acc ++ l)

/-- A result of the scan with the given tokens put in front of its slice. -/
def prependHeld (acc : List Str) (r : Slice × Nat) : Slice × Nat :=
  (Slice.prepend acc r.1, r.2)

/-! ## Hosts and inputs used in the examples -/

/-- A host whose working directory is `/cwd` and that has no response files. -/
def exampleHost : Host :=
  ⟨some (lit "/cwd"), 1024, fun p => lit "open " ++ p ++ lit ": too many open files",
    fun _ => some (lit "no such file"), fun _ => .error (lit "no such file"),
    fun _ => (lit "da39a3ee"), fun _ _ => none, [lit "HOME=/home/u", lit "PATH=/usr/bin"],
    fun _ _ _ => none⟩

/-- An environment as `main` sets it up: working directory `/wd`, wrapper
directory `/opt/pear`. -/
def exampleEnv : Environment := fun k =>
  if k = lit ".wdir" then (lit "/wd")
  else if k = lit ".cdir" then (lit "/opt/pear")
  else if k = lit "CC" then (lit "/usr/bin/gcc")
  else []

/-- A command with an rtags log file only; its executable is `$(CC)`. -/
def exampleCmd : Command :=
  ⟨lit "gcc", lit "$(CC)", [], lit "/log/$(.sha1)", [], [], []⟩

/-- The standalone dependency-generation flags of `singleArgExpr` that the
flag dispatch of `scrubCmdlineRtags` has no case for. -/
def dependencyFlags : List Str :=
  [lit "-M", lit "-MD", lit "-MG", lit "-MM", lit "-MMD", lit "-MP"]

/-! ## The merge step of `parseCommand` (config.go) -/

/-- The closure `setString` of `parseCommand` (config.go:202): the new value
of `*a`. -/
def setString (a b : Str) : Str := if b ≠ [] then b else a

/-- The assignments of the merge loop of `parseCommand` (config.go:217-222)
to the command `cmd`, from the parsed fields `cmdTmp` of the entry. -/
def mergeCommand (cmd cmdTmp : Command) : Command :=
  ⟨cmd.name, setString cmd.exec cmdTmp.exec, setString cmd.logfile cmdTmp.logfile,
    setString cmd.rtags_logfile cmdTmp.rtags_logfile, cmd.append ++ cmdTmp.append,
    cmd.prepend ++ cmdTmp.prepend, cmd.filterOut ++ cmdTmp.filterOut⟩

/-- The map `config.cmd`, a Go `map[string]*Command`. -/
abbrev CommandTable := Str → Option Command

/-- The map `config.cmd` made by `NewConfig` (config.go:30). -/
def emptyCommandTable : CommandTable := fun _ => none

/-- The command `&Command{name: name}` made for a name that is not in the map
yet (config.go:214). -/
def freshCommand (name : Str) : Command := ⟨name, [], [], [], [], [], []⟩

/-- The body of the merge loop of `parseCommand` (config.go:208-223) for one
of the names of the entry. -/
def mergeCommandEntry (h : Host) (env : Environment) (cmdTmp : Command)
    (table : CommandTable) (name : Str) : CommandTable :=
  let name := env.Expand h name
  let cmd := match table name with
    | some cmd => cmd
    | none => freshCommand name
  fun k => if k = name then some (mergeCommand cmd cmdTmp) else table k

/-- The merge loop of `parseCommand` (config.go:208-223) over the names
`cmdNames` of the entry. -/
def parseCommandMerge (h : Host) (env : Environment) (table : CommandTable)
    (cmdNames : List Str) (cmdTmp : Command) : CommandTable :=
  cmdNames.foldl (mergeCommandEntry h env cmdTmp) table

/-- What the scan of one command entry leaves for the merge step: the
environment of the configuration at that point, the names and the parsed
fields. -/
structure CommandEntry where
  env : Environment
  cmdNames : List Str
  cmdTmp : Command

/-- The merge steps of a sequence of command entries, in declaration order. -/
def mergeEntries (h : Host) (table : CommandTable) (entries : List CommandEntry) :
    CommandTable :=
  entries.foldl (fun t e => parseCommandMerge h e.env t e.cmdNames e.cmdTmp) table

/-- The parsed fields applied to the command name `n`, in order: one for
each name of each entry that expands to `n`. -/
def applicationsTo (h : Host) (n : Str) (entries : List CommandEntry) : List Command :=
  (entries.map (fun e =>
    (e.cmdNames.filter (fun raw => decide (e.env.Expand h raw = n))).map
      (fun _ => e.cmdTmp))).flatten

/-- One merge applied to the entry of a name in the map: the entry is made
when it is missing, then the fields are merged into it. -/
def mergeInto (n : Str) (o : Option Command) (cmdTmp : Command) : Option Command :=
  some (mergeCommand (o.getD (freshCommand n)) cmdTmp)

/-- The last non-empty string of a list, or `d` when there is none. -/
def lastNonEmptyOr (d : Str) (l : List Str) : Str :=
  ((l.filter (fun s => decide (s ≠ []))).getLast?).getD d

/-- The last non-empty string of a list, the empty string when there is
none. -/
def lastNonEmpty (l : List Str) : Str := lastNonEmptyOr [] l

/-- Two entries for `gcc`: the first sets `exec` and appends `-a`, the
second has an empty `exec` and appends `-b`. -/
def exampleEntries : List CommandEntry :=
  [⟨exampleEnv, [lit "gcc"], ⟨[], lit "/usr/bin/gcc", [], [], [lit "-a"], [], []⟩⟩,
   ⟨exampleEnv, [lit "gcc"], ⟨[], [], [], [], [lit "-b"], [], []⟩⟩]

/-- A host with some readable files: the response file `args.rsp`, the
response file `pre.rsp` that holds `-E`, the response file `loop.rsp` that
refers to itself, and the file `args.txt`; the directory `dir.rsp` can be
opened but not read.  The process can open four more files. -/
def rspHost : Host :=
  ⟨some (lit "/cwd"), 4, fun p => lit "open " ++ p ++ lit ": too many open files",
    fun p =>
      if p = lit "args.rsp" ∨ p = lit "pre.rsp" ∨ p = lit "loop.rsp" ∨ p = lit "args.txt" ∨
          p = lit "dir.rsp" then none
      else some (lit "open " ++ p ++ lit ": no such file or directory"),
    fun p =>
      if p = lit "args.rsp" then .ok (lit "-Ifoo  -DX=1\n")
      else if p = lit "pre.rsp" then .ok (lit "-E x.c")
      else if p = lit "loop.rsp" then .ok (lit "@loop.rsp")
      else if p = lit "args.txt" then .ok (lit "-DX=1")
      else .error (lit "read " ++ p ++ lit ": is a directory"),
    fun _ => lit "da39a3ee", fun _ _ => none, [lit "PATH=/usr/bin"], fun _ _ _ => none⟩

/-! ## Notions used to state the behaviour of `Expand` -/

/-- The name `m[2 : len(m)-1]` of a match `m` of `envExpandRegexp`. -/
def refName (m : Str) : Str := (m.drop 2).take (m.length - 1 - 2)

/-- The text as `ReplaceAllStringFunc` sees it: the matches of
`envExpandRegexp`, marked `true`, and the runes outside the matches, marked
`false`, in order.  The first argument bounds the number of steps. -/
def envRefPieces : Nat → Str → List (Bool × Str)
  | 0, _ => []
  | _ + 1, [] => []
  | n + 1, c :: cs =>
    match matchEnvRef (c :: cs) with
    | some (m, after) => (true, m) :: envRefPieces n after
    | none => (false, [c]) :: envRefPieces n cs

/-- An element that `filepath.Clean` keeps as it is: not empty, neither `.`
nor `..`, without separator. -/
def isRealElem (e : Str) : Prop := e ≠ [] ∧ e ≠ ['.'] ∧ e ≠ ['.', '.'] ∧ '/' ∉ e

/-- An environment in which `X` is the relative path `sub/dir` and `ABS` an
absolute one, with wrapper directory `/opt/pear`. -/
def examplePathEnv : Environment := fun k =>
  if k = lit "X" then lit "sub/dir"
  else if k = lit "ABS" then lit "/usr/lib"
  else if k = lit ".cdir" then lit "/opt/pear"
  else []

/-- A run of tokens that the scan of `scrubCmdlineRtags`, met in the initial
state, emits as it is and leaves in the initial state. -/
def isStableBlock (h : Host) (wdir : Str) (em : List Str) : Prop :=
  ∀ (recur : Nat → List Str → Option (Slice × Nat)) (acc : List Str) (held : Nat)
    (rest : List Str),
    scrubLoop h recur wdir ScrubState.stateInitial acc held (em ++ rest)
      = scrubLoop h recur wdir ScrubState.stateInitial (acc ++ em) held rest

/-! # Theorems -/

/-! ## `filterOut` and the argument vector of `Command.Run` -/

theorem filterOutLoop_eq (patterns : List Str) (rest tmp seen : List Str) :
    filterOutLoop patterns tmp seen rest
      = tmp ++ seen ++ rest.filter (fun a => decide (a ∉ patterns)) := by
  induction rest generalizing tmp seen with
  | nil => simp [filterOutLoop]
  | cons v rest ih =>
    by_cases hv : v ∈ patterns
    · simp [filterOutLoop, hv, ih]
    · simp [filterOutLoop, hv, ih]

/-- C2: `filterOut` is total and returns exactly the arguments that equal no
pattern, in their original order; every occurrence of a matching argument
is removed. -/
theorem filterOut_eq_filter :
    (∀ args patterns : List Str,
      filterOut args patterns = args.filter (fun a => decide (a ∉ patterns))) ∧
    filterOut [lit "-a", lit "-b", lit "-a"] [lit "-a"] = [lit "-b"] := by
  refine ⟨fun args patterns => ?_, by decide⟩
  simp [filterOut, filterOutLoop_eq]

theorem foldl_append_expand (f : Str → Str) (l args : List Str) :
    l.foldl (fun a s => a ++ [f s]) args = args ++ l.map f := by
  induction l generalizing args with
  | nil => simp
  | cons s l ih => simp [ih]

theorem goCopy_same_length (dst src : List Str) (hlen : dst.length = src.length) :
    goCopy dst src = src := by
  simp [goCopy, hlen]

theorem foldl_set_expand (f : Str → Str) (l done args : List Str) :
    (l.enumFrom done.length).foldl (fun a is => a.set is.1 (f is.2))
        (done ++ (List.replicate l.length ([] : Str) ++ args))
      = done ++ (l.map f ++ args) := by
  induction l generalizing done with
  | nil => simp
  | cons s l ih =>
    have hset : (done ++ (List.replicate (l.length + 1) ([] : Str) ++ args)).set done.length (f s)
        = (done ++ [f s]) ++ (List.replicate l.length ([] : Str) ++ args) := by
      simp [List.replicate_succ, List.set_append_right]
    have := ih (done ++ [f s])
    simp only [List.length_append, List.length_singleton] at this
    simp only [List.enumFrom_cons, List.foldl_cons, List.length_cons, hset, this]
    simp

theorem runArgs_eq (h : Host) (cmd : Command) (env : Environment) (args : List Str) :
    runArgs h cmd env args
      = filterOut (cmd.prepend.map (env.Expand h) ++ args ++ cmd.append.map (env.Expand h))
          cmd.filterOut := by
  unfold runArgs
  simp only [foldl_append_expand]
  congr 1
  have hrep : List.replicate ((args ++ cmd.append.map (env.Expand h)).length + cmd.prepend.length)
      ([] : Str) = List.replicate cmd.prepend.length [] ++
        List.replicate (args ++ cmd.append.map (env.Expand h)).length [] := by
    rw [Nat.add_comm, List.replicate_add]
  rw [hrep]
  have htake : (List.replicate cmd.prepend.length ([] : Str) ++
      List.replicate (args ++ cmd.append.map (env.Expand h)).length []).take cmd.prepend.length
        = List.replicate cmd.prepend.length [] := by
    simp [List.take_append_eq_append_take]
  have hdrop : (List.replicate cmd.prepend.length ([] : Str) ++
      List.replicate (args ++ cmd.append.map (env.Expand h)).length []).drop cmd.prepend.length
        = List.replicate (args ++ cmd.append.map (env.Expand h)).length [] := by
    simp [List.drop_append_eq_append_drop]
  rw [htake, hdrop, goCopy_same_length _ _ (by simp)]
  have := foldl_set_expand (env.Expand h) cmd.prepend []
    (args ++ cmd.append.map (env.Expand h))
  simp only [List.length_nil, List.nil_append] at this
  simpa [List.enum, List.append_assoc] using this

theorem updateLogfileEnv_wdir (h : Host) (env : Environment) (args : List Str) (e : Str) :
    (updateLogfileEnv h env args e).Get (lit ".wdir") = env.Get (lit ".wdir") := by
  have h1 : (lit ".wdir" = lit ".output") = False := eq_false (by decide)
  have h2 : (lit ".wdir" = lit ".input") = False := eq_false (by decide)
  have h3 : (lit ".wdir" = lit ".sha1") = False := eq_false (by decide)
  simp only [updateLogfileEnv, Environment.Set, Environment.Get, h1, h2, h3, if_false]

theorem runChildStep_effects (h : Host) (env : Environment) (execName : Str)
    (args : List Str) (effects : List Effect) :
    (runChildStep h env execName args effects).effects
      = effects ++ [Effect.execCommand execName args
          (prependEnvPath h.environ (env.Get (lit ".cdir")))] := rfl

/-- What `runRtagsStep` adds to the effects: possibly one write of the
scrubbed log entry, then possibly the child process. -/
theorem runRtagsStep_effects (h : Host) (fuel : Nat) (cmd : Command) (env : Environment)
    (execName : Str) (args : List Str) (effects : List Effect) (r : RunResult)
    (hr : runRtagsStep h fuel cmd env execName args effects = some r) :
    (∀ e ∈ r.effects, e ∈ effects ∨ (∃ osEnv, e = Effect.execCommand execName args osEnv) ∨
      ∃ file entry, e = Effect.writeLogfile file entry ∧
        buildRtagsLogentry h fuel (env.Get (lit ".wdir")) execName args = some entry) ∧
    (r.err = none → ∃ osEnv, Effect.execCommand execName args osEnv ∈ r.effects) := by
  unfold runRtagsStep at hr
  split at hr
  · split at hr
    · exact absurd hr (by simp)
    · rename_i logentry hlog
      split at hr
      · dsimp only at hr
        split at hr
        · cases hr
          refine ⟨fun e he => ?_, fun herr => by simp at herr⟩
          rcases List.mem_append.1 he with he | he
          · exact Or.inl he
          · exact Or.inr (Or.inr ⟨_, _, List.mem_singleton.1 he, hlog⟩)
        · cases hr
          refine ⟨fun e he => ?_, fun _ => ⟨_, by
            rw [runChildStep_effects]; exact List.mem_append_right _ (List.mem_singleton.2 rfl)⟩⟩
          rw [runChildStep_effects] at he
          rcases List.mem_append.1 he with he | he
          · rcases List.mem_append.1 he with he | he
            · exact Or.inl he
            · exact Or.inr (Or.inr ⟨_, _, List.mem_singleton.1 he, hlog⟩)
          · exact Or.inr (Or.inl ⟨_, List.mem_singleton.1 he⟩)
      · cases hr
        refine ⟨fun e he => ?_, fun _ => ⟨_, by
            rw [runChildStep_effects]; exact List.mem_append_right _ (List.mem_singleton.2 rfl)⟩⟩
        rw [runChildStep_effects] at he
        rcases List.mem_append.1 he with he | he
        · exact Or.inl he
        · exact Or.inr (Or.inl ⟨_, List.mem_singleton.1 he⟩)
  · cases hr
    refine ⟨fun e he => ?_, fun _ => ⟨_, by
            rw [runChildStep_effects]; exact List.mem_append_right _ (List.mem_singleton.2 rfl)⟩⟩
    rw [runChildStep_effects] at he
    rcases List.mem_append.1 he with he | he
    · exact Or.inl he
    · exact Or.inr (Or.inl ⟨_, List.mem_singleton.1 he⟩)

/-- C1: the argument vector built by `Command.Run` is the expanded prepend
templates, the caller arguments unchanged, then the expanded append
templates, filtered as a whole after expansion; the child process receives
exactly this vector, every log entry written is built from it (the plain
entry from the vector itself, the rtags entry from its scrub), and a run
that returns no error has started the child with it. -/
theorem run_argument_vector (h : Host) (fuel : Nat) (cmd : Command) (env : Environment)
    (args : List Str) :
    runArgs h cmd env args
      = filterOut (cmd.prepend.map (env.Expand h) ++ args ++ cmd.append.map (env.Expand h))
          cmd.filterOut ∧
    ∀ r, cmd.Run h fuel env args = some r →
      (∀ e ∈ r.effects,
        (∃ osEnv, e = Effect.execCommand (env.Expand h cmd.exec)
          (filterOut (cmd.prepend.map (env.Expand h) ++ args ++ cmd.append.map (env.Expand h))
            cmd.filterOut) osEnv) ∨
        ∃ file entry, e = Effect.writeLogfile file entry ∧
          (entry = buildLogentry (env.Expand h cmd.exec)
            (filterOut (cmd.prepend.map (env.Expand h) ++ args ++
              cmd.append.map (env.Expand h)) cmd.filterOut) ∨
           buildRtagsLogentry h fuel (env.Get (lit ".wdir")) (env.Expand h cmd.exec)
            (filterOut (cmd.prepend.map (env.Expand h) ++ args ++
              cmd.append.map (env.Expand h)) cmd.filterOut) = some entry)) ∧
      (r.err = none → ∃ osEnv, Effect.execCommand (env.Expand h cmd.exec)
          (filterOut (cmd.prepend.map (env.Expand h) ++ args ++ cmd.append.map (env.Expand h))
            cmd.filterOut) osEnv ∈ r.effects) := by
  refine ⟨runArgs_eq h cmd env args, fun r hr => ?_⟩
  unfold Command.Run at hr
  simp only [runArgs_eq] at hr
  split at hr
  · cases hr
    exact ⟨fun e he => by simp at he, fun herr => by simp at herr⟩
  · split at hr
    · split at hr
      · cases hr
        refine ⟨fun e he => ?_, fun herr => by simp at herr⟩
        exact Or.inr ⟨_, _, List.mem_singleton.1 he, Or.inl rfl⟩
      · obtain ⟨hall, hchild⟩ := runRtagsStep_effects _ _ _ _ _ _ _ _ hr
        refine ⟨fun e he => ?_, hchild⟩
        rcases hall e he with he | ⟨osEnv, he⟩ | ⟨file, entry, he, hentry⟩
        · exact Or.inr ⟨_, _, List.mem_singleton.1 he, Or.inl rfl⟩
        · exact Or.inl ⟨osEnv, he⟩
        · rw [updateLogfileEnv_wdir] at hentry
          exact Or.inr ⟨file, entry, he, Or.inr hentry⟩
    · obtain ⟨hall, hchild⟩ := runRtagsStep_effects _ _ _ _ _ _ _ _ hr
      refine ⟨fun e he => ?_, hchild⟩
      rcases hall e he with he | ⟨osEnv, he⟩ | ⟨file, entry, he, hentry⟩
      · simp at he
      · exact Or.inl ⟨osEnv, he⟩
      · exact Or.inr ⟨file, entry, he, Or.inr hentry⟩

/-! ## The classifier -/

theorem afterLiteral_eq_some (p s t : Str) : afterLiteral p s = some t ↔ s = p ++ t := by
  induction p generalizing s with
  | nil => simp [afterLiteral, eq_comm]
  | cons a p ih =>
    cases s with
    | nil => simp [afterLiteral]
    | cons c cs =>
      by_cases hac : a = c
      · simp [afterLiteral, hac, ih]
      · simp only [afterLiteral, hac, if_false, List.cons_append, List.cons.injEq]
        constructor
        · intro hno
          exact absurd hno (by simp)
        · rintro ⟨hca, -⟩
          exact absurd hca.symm hac

theorem dotMatchesAll_iff (s : Str) : dotMatchesAll s = true ↔ '\n' ∉ s := by
  simp only [dotMatchesAll, List.all_eq_true, decide_eq_true_eq]
  constructor
  · intro hall hmem
    exact hall _ hmem rfl
  · intro hnot c hc hcn
    exact hnot (hcn ▸ hc)

theorem compoundOutput_eq_some (tok path : Str) :
    compoundOutput tok = some path ↔ tok = lit "-o" ++ path ∧ path ≠ [] ∧ '\n' ∉ path := by
  unfold compoundOutput
  cases hlit : afterLiteral (lit "-o") tok with
  | none =>
    constructor
    · intro hno
      exact absurd hno (by simp)
    · rintro ⟨htok, -, -⟩
      rw [(afterLiteral_eq_some _ _ _).2 htok] at hlit
      exact absurd hlit (by simp)
  | some t =>
    have htok := (afterLiteral_eq_some _ _ _).1 hlit
    simp only [dotMatchesAll_iff]
    constructor
    · intro hsome
      split at hsome
      · rename_i hcond
        cases hsome
        exact ⟨htok, hcond.1, hcond.2⟩
      · exact absurd hsome (by simp)
    · rintro ⟨htok2, hne, hnl⟩
      have : t = path := by
        rw [htok] at htok2
        exact List.append_cancel_left htok2
      subst this
      simp [hne, hnl]

theorem matchFileArg_of_dash (s : Str) : matchFileArg ('-' :: s) = false := by
  simp [matchFileArg]

theorem matchFileArg_of_afterLiteral_o (t path : Str)
    (hlit : afterLiteral (lit "-o") t = some path) : matchFileArg t = false := by
  rw [(afterLiteral_eq_some _ _ _).1 hlit]
  exact matchFileArg_of_dash _

/-- One iteration of the scan in the initial state on a token other than a
bare `-o`. -/
theorem classifierStep_initial (s : ClassifierVars) (t : Str)
    (hs : s.state = ClassifierState.stateInitial) (ht : t ≠ (lit "-o")) :
    classifierStep s t = ⟨ClassifierState.stateInitial, (compoundOutput t).getD s.output,
      s.sources ++ (if matchFileArg t then [t] else []),
      s.hasCompileFlag || decide (t = lit "-c")⟩ := by
  obtain ⟨state, output, sources, flag⟩ := s
  simp only at hs
  subst hs
  have hinit : (ClassifierState.stateInitial = ClassifierState.stateOutputArg) = False := by
    simp
  by_cases hc : t = lit "-c"
  · subst hc
    have h1 : compoundOutput (lit "-c") = none := by decide
    have h2 : matchFileArg (lit "-c") = false := by decide
    unfold classifierStep
    simp only [hinit, if_false, ht, if_true, h1, h2, Option.getD_none, decide_True,
      Bool.or_true, List.append_nil, Bool.false_eq_true]
  · unfold classifierStep
    simp only [ht, hc, if_false, decide_False, Bool.or_false, hinit]
    unfold inputOutputRegexp compoundOutput
    cases hlit : afterLiteral (lit "-o") t with
    | none =>
      by_cases hfile : matchFileArg t = true
      · have hne : t ≠ [] := by
          intro h0
          rw [h0] at hfile
          simp [matchFileArg] at hfile
        simp [hfile, hne]
      · simp [hfile]
    | some path =>
      have hfile := matchFileArg_of_afterLiteral_o t path hlit
      by_cases hcond : path ≠ [] ∧ dotMatchesAll path = true
      · simp [hcond, hfile, hcond.1]
      · simp [hcond, hfile]

theorem classifierStep_bare_o (s : ClassifierVars)
    (hs : s.state = ClassifierState.stateInitial) :
    classifierStep s (lit "-o")
      = ⟨ClassifierState.stateOutputArg, s.output, s.sources, s.hasCompileFlag⟩ := by
  simp [classifierStep, hs]

theorem classifierStep_outputArg (s : ClassifierVars) (v : Str)
    (hs : s.state = ClassifierState.stateOutputArg) :
    classifierStep s v = ⟨ClassifierState.stateInitial, v, s.sources, s.hasCompileFlag⟩ := by
  simp [classifierStep, hs]

theorem c_mem_cons_o (l : List Str) : (lit "-c") ∈ (lit "-o") :: l ↔ (lit "-c") ∈ l := by
  have hne : (lit "-c") ≠ (lit "-o") := by decide
  simp [hne]

theorem getLast?_getD_cons (a d : Str) (l : List Str) :
    ((a :: l).getLast?).getD d = (l.getLast?).getD a := by
  cases l with
  | nil => simp
  | cons b l =>
    rw [List.getLast?_cons_cons]
    cases hlast : (b :: l).getLast? with
    | none => simp at hlast
    | some x => rfl

theorem getLast?_getD_toList_append (o : Option Str) (d : Str) (l : List Str) :
    ((o.toList ++ l).getLast?).getD d = (l.getLast?).getD (o.getD d) := by
  cases o with
  | none => simp
  | some a => simpa using getLast?_getD_cons a d l

/-- The variables of the scan after the whole vector, in terms of the
tokens met in the initial state and of the captured output paths. -/
theorem classifier_fold (args : List Str) :
    ∀ s : ClassifierVars, s.state = ClassifierState.stateInitial →
      (args.foldl classifierStep s).sources
          = s.sources ++ (scannedTokens args).filter matchFileArg ∧
      (args.foldl classifierStep s).hasCompileFlag
          = (s.hasCompileFlag || decide ((lit "-c") ∈ scannedTokens args)) ∧
      (args.foldl classifierStep s).output
          = ((outputCaptures args).getLast?).getD s.output := by
  have hfo : matchFileArg (lit "-o") = false := by decide
  induction args using scannedTokens.induct with
  | case1 => intro s _; simp [scannedTokens, outputCaptures, outputCapturesWith]
  | case2 t =>
    intro s hs
    by_cases ht : t = lit "-o"
    · subst ht
      rw [List.foldl_cons, List.foldl_nil, classifierStep_bare_o s hs]
      refine ⟨?_, ?_, ?_⟩
      · simp only [scannedTokens, List.filter, hfo, List.append_nil]
      · have hmem : decide (lit "-c" ∈ [lit "-o"]) = false := by decide
        simp only [scannedTokens, hmem, Bool.or_false]
      · simp [outputCaptures, outputCapturesWith]
    · rw [List.foldl_cons, List.foldl_nil, classifierStep_initial s t hs ht]
      refine ⟨?_, ?_, ?_⟩
      · by_cases hfile : matchFileArg t = true
        · simp [scannedTokens, List.filter, hfile]
        · simp [scannedTokens, List.filter, hfile]
      · simp [scannedTokens, eq_comm]
      · simp only [outputCaptures, outputCapturesWith, ht, if_false]
        cases compoundOutput t <;> simp
  | case3 v rest ih =>
    intro s hs
    have hstep : ((lit "-o") :: v :: rest).foldl classifierStep s
        = rest.foldl classifierStep
            ⟨ClassifierState.stateInitial, v, s.sources, s.hasCompileFlag⟩ := by
      rw [List.foldl_cons, List.foldl_cons, classifierStep_bare_o s hs,
        classifierStep_outputArg _ v rfl]
    obtain ⟨ih1, ih2, ih3⟩ :=
      ih ⟨ClassifierState.stateInitial, v, s.sources, s.hasCompileFlag⟩ rfl
    rw [hstep]
    refine ⟨?_, ?_, ?_⟩
    · rw [ih1]
      simp only [scannedTokens, if_true, List.filter, hfo]
    · rw [ih2]
      simp only [scannedTokens, if_true, c_mem_cons_o]
    · rw [ih3]
      simp only [outputCaptures, outputCapturesWith, if_true]
      exact (getLast?_getD_cons v s.output _).symm
  | case4 t v rest ht ih =>
    intro s hs
    have hstep : (t :: v :: rest).foldl classifierStep s
        = (v :: rest).foldl classifierStep
            ⟨ClassifierState.stateInitial, (compoundOutput t).getD s.output,
              s.sources ++ (if matchFileArg t then [t] else []),
              s.hasCompileFlag || decide (t = lit "-c")⟩ := by
      rw [List.foldl_cons, classifierStep_initial s t hs ht]
    obtain ⟨ih1, ih2, ih3⟩ := ih ⟨ClassifierState.stateInitial, (compoundOutput t).getD s.output,
              s.sources ++ (if matchFileArg t then [t] else []),
              s.hasCompileFlag || decide (t = lit "-c")⟩ rfl
    rw [hstep]
    refine ⟨?_, ?_, ?_⟩
    · rw [ih1]
      by_cases hfile : matchFileArg t = true
      · simp [scannedTokens, ht, List.filter, hfile]
      · simp [scannedTokens, ht, List.filter, hfile]
    · rw [ih2]
      simp only [scannedTokens, ht, if_false, List.mem_cons, Bool.decide_or, Bool.or_assoc]
      congr 2
      simp [eq_comm]
    · rw [ih3]
      simp only [outputCaptures, outputCapturesWith, ht, if_false]
      exact (getLast?_getD_toList_append _ _ _).symm

theorem matchStarDotExt_iff (s : Str) :
    matchStarDotExt s = true ↔ ∃ m e, s = m ++ '.' :: e ∧ '\n' ∉ m ∧ e ∈ sourceExts := by
  induction s with
  | nil => simp [matchStarDotExt]
  | cons c rest ih =>
    simp only [matchStarDotExt, Bool.or_eq_true, Bool.and_eq_true, decide_eq_true_eq, ih]
    constructor
    · rintro (⟨hc, hrest⟩ | ⟨hc, m, e, hs, hm, he⟩)
      · exact ⟨[], rest, by simp [hc], by simp, hrest⟩
      · refine ⟨c :: m, e, by simp [hs], ?_, he⟩
        simp only [List.mem_cons, not_or]
        exact ⟨fun hcn => hc hcn.symm, hm⟩
    · rintro ⟨m, e, hs, hm, he⟩
      cases m with
      | nil =>
        simp only [List.nil_append, List.cons.injEq] at hs
        exact Or.inl ⟨hs.1, hs.2 ▸ he⟩
      | cons x m =>
        simp only [List.cons_append, List.cons.injEq] at hs
        simp only [List.mem_cons, not_or] at hm
        exact Or.inr ⟨fun hcn => hm.1 (hs.1 ▸ hcn).symm, m, e, hs.2, hm.2, he⟩

theorem matchFileArg_iff (tok : Str) :
    matchFileArg tok = true ↔
      ∃ x m e, tok = x :: (m ++ '.' :: e) ∧ x ≠ '-' ∧ '\n' ∉ m ∧ e ∈ sourceExts := by
  cases tok with
  | nil => simp [matchFileArg]
  | cons c rest =>
    simp only [matchFileArg, Bool.and_eq_true, decide_eq_true_eq, matchStarDotExt_iff]
    constructor
    · rintro ⟨hc, m, e, hs, hm, he⟩
      exact ⟨c, m, e, by rw [hs], hc, hm, he⟩
    · rintro ⟨x, m, e, hs, hx, hm, he⟩
      simp only [List.cons.injEq] at hs
      exact ⟨hs.1 ▸ hx, m, e, hs.2, hm, he⟩

theorem getCmdlineInputOutput_input (args : List Str) :
    (getCmdlineInputOutput args).1 =
      match (scannedTokens args).filter matchFileArg with
      | [src] => src
      | _ => [] := by
  obtain ⟨h1, -, -⟩ := classifier_fold args ⟨ClassifierState.stateInitial, [], [], false⟩ rfl
  simp only [getCmdlineInputOutput, h1, List.nil_append]

theorem getCmdlineInputOutput_output (args : List Str) :
    (getCmdlineInputOutput args).2 =
      if ((outputCaptures args).getLast?).getD [] ≠ [] then
        ((outputCaptures args).getLast?).getD []
      else if lit "-c" ∈ scannedTokens args ∧ (getCmdlineInputOutput args).1 ≠ [] then
        (getCmdlineInputOutput args).1 ++ lit ".o"
      else [] := by
  obtain ⟨h1, h2, h3⟩ := classifier_fold args ⟨ClassifierState.stateInitial, [], [], false⟩ rfl
  simp only [getCmdlineInputOutput, h1, h2, h3, List.nil_append, Bool.false_or,
    decide_eq_true_eq]
  by_cases hcap : ((outputCaptures args).getLast?).getD [] = []
  · simp only [hcap, true_and, ne_eq, not_true_eq_false, if_false]
  · simp [hcap]

/-- C3, as the code has it: the input is the unique source candidate when
exactly one is met and the empty string when none or several are.  A source
candidate is a token met in the initial state of the scan (not consumed as
the value of a bare `-o`) that consists of a first character other than
`-`, then any characters other than the line feed, then a dot and one of
the extensions. -/
theorem classifier_input_unique_candidate :
    (∀ args : List Str,
      (∀ src, (scannedTokens args).filter matchFileArg = [src] →
        (getCmdlineInputOutput args).1 = src) ∧
      (((scannedTokens args).filter matchFileArg).length ≠ 1 →
        (getCmdlineInputOutput args).1 = [])) ∧
    (∀ tok : Str, matchFileArg tok = true ↔
      ∃ x m e, tok = x :: (m ++ '.' :: e) ∧ x ≠ '-' ∧ '\n' ∉ m ∧ e ∈ sourceExts) ∧
    (getCmdlineInputOutput [lit "-c", lit "foo.cpp"]).1 = lit "foo.cpp" ∧
    (getCmdlineInputOutput [lit "foo.cpp", lit "bar.cpp"]).1 = [] := by
  refine ⟨fun args => ⟨fun src hsrc => ?_, fun hlen => ?_⟩, matchFileArg_iff, by decide,
    by decide⟩
  · rw [getCmdlineInputOutput_input, hsrc]
  · rw [getCmdlineInputOutput_input]
    split
    · rename_i src hsrc
      rw [hsrc] at hlen
      exact absurd rfl hlen
    · rfl

/-- C3 as stated fails: the token `a⏎b.c` (with a line feed inside) does not
start with `-`, ends in `.c` with characters before the dot and follows no
`-o`, so it is the one source candidate of the claim, yet no input is
determined. -/
theorem classifier_input_counterexample :
    (scannedTokens [lit "a\nb.c"]).filter claimedSourceCandidate = [lit "a\nb.c"] ∧
    (getCmdlineInputOutput [lit "a\nb.c"]).1 = [] ∧
    (getCmdlineInputOutput [lit "a\nb.c"]).1 ≠ lit "a\nb.c" := by
  decide

/-- C4, as the code has it: the output is the last captured output path
when that path is not empty (the token after a bare `-o` taken verbatim, or
the non-empty path without line feed of a compound `-o<path>` token);
otherwise it is the input followed by `.o` exactly when a bare `-c` was met
in the initial state and an input was determined; otherwise it is empty. -/
theorem classifier_output :
    (∀ args : List Str,
      (getCmdlineInputOutput args).2 =
        if ((outputCaptures args).getLast?).getD [] ≠ [] then
          ((outputCaptures args).getLast?).getD []
        else if lit "-c" ∈ scannedTokens args ∧ (getCmdlineInputOutput args).1 ≠ [] then
          (getCmdlineInputOutput args).1 ++ lit ".o"
        else []) ∧
    (∀ tok path : Str, compoundOutput tok = some path ↔
      tok = lit "-o" ++ path ∧ path ≠ [] ∧ '\n' ∉ path) ∧
    getCmdlineInputOutput [lit "-c", lit "foo.cpp"] = (lit "foo.cpp", lit "foo.cpp.o") ∧
    getCmdlineInputOutput [lit "-c", lit "foo.cpp", lit "-o", lit "bar.o"]
      = (lit "foo.cpp", lit "bar.o") ∧
    getCmdlineInputOutput [lit "foo.cpp", lit "bar.cpp"] = ([], []) := by
  exact ⟨getCmdlineInputOutput_output, compoundOutput_eq_some, by decide, by decide, by decide⟩

/-- C4 as stated fails twice.  In `-c foo.c -o ""` the empty token
after the bare `-o` is captured as the output path, yet the output is
inferred as `foo.c.o`; and the compound token `-oa⏎b` (line feed in the
path) captures nothing. -/
theorem classifier_output_counterexample :
    outputCapturesWith claimedCompoundOutput [lit "-c", lit "foo.c", lit "-o", []] = [[]] ∧
    (getCmdlineInputOutput [lit "-c", lit "foo.c", lit "-o", []]).2 = lit "foo.c.o" ∧
    outputCapturesWith claimedCompoundOutput [lit "-oa\nb"] = [lit "a\nb"] ∧
    (getCmdlineInputOutput [lit "-oa\nb"]).2 = [] := by
  decide

/-! ## The scrubber -/

theorem scrubFlag_acc (h : Host) (wdir : Str) (m : ScrubMatch) (acc : List Str) :
    scrubFlag h wdir m acc = (acc ++ (scrubFlag h wdir m []).1, (scrubFlag h wdir m []).2) := by
  unfold scrubFlag
  simp only
  split_ifs <;> simp

/-- The loop of `scrubCmdlineRtags` on a non-empty vector, through
`scrubStep`. -/
theorem scrubLoop_cons (h : Host) (recur : Nat → List Str → Option (Slice × Nat)) (wdir : Str)
    (state : ScrubState) (acc : List Str) (held : Nat) (arg : Str) (args : List Str) :
    scrubLoop h recur wdir state acc held (arg :: args) =
      match scrubStep h recur wdir state held arg with
      | ScrubStep.abort => some (Slice.nil, held)
      | ScrubStep.diverge => none
      | ScrubStep.next st out held1 => scrubLoop h recur wdir st (acc ++ out) held1 args := by
  conv_lhs => unfold scrubLoop
  unfold scrubStep
  by_cases h1 : state = ScrubState.stateMakeNextArgRelative
  · simp [h1]
  · by_cases h2 : state = ScrubState.stateInitial
    · subst h2
      by_cases h3 : arg = lit "-E"
      · simp [h3]
      · cases hre : rtagsScrubRegexp arg with
        | none =>
          by_cases h4 : rtagsFilterRegexp arg = true
          · simp [h3, h4]
          · simp [h3, h4]
        | some m =>
          by_cases h5 : m.fileArgGroup = []
          · by_cases h6 : m.rspFileArgGroup2 = []
            · simp only [h3, h5, h6, if_false, ne_eq, not_true_eq_false,
                reduceCtorEq]
              rw [scrubFlag_acc h wdir m acc]
            · cases hread : readRspFile h held m.rspFileArgGroup2 with
              | mk res held1 =>
                cases res with
                | error err =>
                  simp only [h3, h5, h6, if_false, ne_eq, not_true_eq_false, not_false_eq_true,
                    if_true, reduceCtorEq, hread]
                  rw [scrubFlag_acc h wdir m (acc ++ [scrubErrorToken err])]
                  simp
                | ok rspArgs =>
                  cases hrec : recur held1 rspArgs with
                  | none => simp [h3, h5, h6, hrec, hread]
                  | some r => simp [h3, h5, h6, hrec, hread]
          · simp [h3, h5]
    · simp [h1, h2]

theorem Slice.prepend_prepend (a b : List Str) (r : Slice) :
    Slice.prepend a (Slice.prepend b r) = Slice.prepend (a ++ b) r := by
  cases r <;> simp [Slice.prepend]

theorem Slice.prepend_nil_list (r : Slice) : Slice.prepend [] r = r := by
  cases r <;> simp [Slice.prepend]

theorem prependHeld_prependHeld (a b : List Str) (r : Slice × Nat) :
    prependHeld a (prependHeld b r) = prependHeld (a ++ b) r := by
  simp [prependHeld, Slice.prepend_prepend]

theorem prependHeld_nil_list (r : Slice × Nat) : prependHeld [] r = r := by
  simp [prependHeld, Slice.prepend_nil_list]

/-- The slice of a result with tokens put in front. -/
theorem map_fst_prependHeld (em : List Str) (x : Option (Slice × Nat)) :
    (x.map (prependHeld em)).map Prod.fst = (x.map Prod.fst).map (Slice.prepend em) := by
  cases x <;> simp [prependHeld]

theorem scrubCmdlineRtags_zero (h : Host) (wdir : Str) (args : List Str) :
    scrubCmdlineRtags h wdir 0 args = none := rfl

theorem scrubCmdlineRtags_succ (h : Host) (wdir : Str) (fuel : Nat) (args : List Str) :
    scrubCmdlineRtags h wdir (fuel + 1) args
      = (scrubLoop h (scrubCmdlineRtagsFrom h wdir fuel) wdir ScrubState.stateInitial [] 0
          args).map Prod.fst := rfl

/-- The tokens already in `scrubbed` stay in front of what the rest of the
loop produces. -/
theorem scrubLoop_acc (h : Host) (recur : Nat → List Str → Option (Slice × Nat)) (wdir : Str)
    (args : List Str) :
    ∀ (state : ScrubState) (acc : List Str) (held : Nat),
      scrubLoop h recur wdir state acc held args
        = (scrubLoop h recur wdir state [] held args).map (prependHeld acc) := by
  induction args with
  | nil =>
    intro state acc held
    simp [scrubLoop, Slice.prepend, prependHeld]
  | cons arg args ih =>
    intro state acc held
    rw [scrubLoop_cons, scrubLoop_cons h recur wdir state []]
    cases scrubStep h recur wdir state held arg with
    | abort => simp [Slice.prepend, prependHeld]
    | diverge => simp
    | next st out held1 =>
      simp only [List.nil_append]
      rw [ih st (acc ++ out), ih st out, Option.map_map]
      congr 1
      funext r
      simp [prependHeld_prependHeld]

theorem scrubStep_dropNext (h : Host) (recur : Nat → List Str → Option (Slice × Nat))
    (wdir arg : Str) {held : Nat} :
    scrubStep h recur wdir ScrubState.stateDropNextArg held arg
      = ScrubStep.next ScrubState.stateInitial [] held := by
  simp [scrubStep]

theorem scrubStep_makeNext (h : Host) (recur : Nat → List Str → Option (Slice × Nat))
    (wdir arg : Str) {held : Nat} :
    scrubStep h recur wdir ScrubState.stateMakeNextArgRelative held arg
      = ScrubStep.next ScrubState.stateInitial [makeAbsolutePath h wdir arg] held := by
  simp [scrubStep]

theorem scrubStep_E (h : Host) (recur : Nat → List Str → Option (Slice × Nat)) (wdir : Str)
    {held : Nat} :
    scrubStep h recur wdir ScrubState.stateInitial held (lit "-E") = ScrubStep.abort := by
  simp [scrubStep]

/-- A compound token: one of the compound flags followed by a non-empty
value without line feed. -/
theorem rtagsScrubRegexp_compound (f v : Str) (hf : f ∈ compoundArgFlags) (hv : v ≠ [])
    (hnl : '\n' ∉ v) :
    rtagsScrubRegexp (f ++ v) = some ⟨[], f, v, [], []⟩ := by
  obtain ⟨c, w, rfl⟩ := List.exists_cons_of_ne_nil hv
  have hdot : dotMatchesAll (c :: w) = true := (dotMatchesAll_iff _).2 hnl
  simp only [compoundArgFlags, List.mem_cons, List.mem_singleton, List.not_mem_nil,
    or_false] at hf
  rcases hf with rfl | rfl | rfl | rfl | rfl | rfl <;>
    simp [rtagsScrubRegexp, singleArgFlags, compoundArgFlags, matchCompoundArg, afterLiteral,
      lit, hdot]

theorem compound_ne_E (f v : Str) (hf : f ∈ compoundArgFlags) : f ++ v ≠ lit "-E" := by
  simp only [compoundArgFlags, List.mem_cons, List.mem_singleton, List.not_mem_nil,
    or_false] at hf
  rcases hf with rfl | rfl | rfl | rfl | rfl | rfl <;> simp [lit]

theorem scrubStep_compound (h : Host) (recur : Nat → List Str → Option (Slice × Nat))
    (wdir f v : Str) (hf : f ∈ compoundArgFlags) (hv : v ≠ []) (hnl : '\n' ∉ v) {held : Nat} :
    scrubStep h recur wdir ScrubState.stateInitial held (f ++ v)
      = ScrubStep.next (scrubFlag h wdir ⟨[], f, v, [], []⟩ []).2
          (scrubFlag h wdir ⟨[], f, v, [], []⟩ []).1 held := by
  unfold scrubStep
  simp [compound_ne_E f v hf, rtagsScrubRegexp_compound f v hf hv hnl]

theorem scrubStep_dropFlag (h : Host) (recur : Nat → List Str → Option (Slice × Nat))
    (wdir f : Str) (hf : f ∈ dropValueFlags) {held : Nat} :
    scrubStep h recur wdir ScrubState.stateInitial held f
      = ScrubStep.next ScrubState.stateDropNextArg [] held := by
  simp only [dropValueFlags, List.mem_cons, List.mem_singleton, List.not_mem_nil,
    or_false] at hf
  rcases hf with rfl | rfl | rfl | rfl <;> rfl

theorem scrubStep_absFlag (h : Host) (recur : Nat → List Str → Option (Slice × Nat))
    (wdir f : Str) (hf : f ∈ absValueFlags) {held : Nat} :
    scrubStep h recur wdir ScrubState.stateInitial held f
      = ScrubStep.next ScrubState.stateMakeNextArgRelative [f] held := by
  simp only [absValueFlags, List.mem_cons, List.mem_singleton, List.not_mem_nil,
    or_false] at hf
  rcases hf with rfl | rfl <;> rfl

theorem scrubStep_compound_drop (h : Host) (recur : Nat → List Str → Option (Slice × Nat))
    (wdir f v : Str) (hf : f ∈ dropValueFlags) (hv : v ≠ []) (hnl : '\n' ∉ v) {held : Nat} :
    scrubStep h recur wdir ScrubState.stateInitial held (f ++ v)
      = ScrubStep.next ScrubState.stateInitial [] held := by
  have hc : f ∈ compoundArgFlags := by
    simp only [dropValueFlags, List.mem_cons, List.mem_singleton, List.not_mem_nil,
      or_false] at hf
    rcases hf with rfl | rfl | rfl | rfl <;> decide
  rw [scrubStep_compound h recur wdir f v hc hv hnl]
  simp only [dropValueFlags, List.mem_cons, List.mem_singleton, List.not_mem_nil,
    or_false] at hf
  rcases hf with rfl | rfl | rfl | rfl <;> simp [scrubFlag, lit, hv]

theorem scrubStep_compound_I (h : Host) (recur : Nat → List Str → Option (Slice × Nat))
    (wdir v : Str) (hv : v ≠ []) (hnl : '\n' ∉ v) {held : Nat} :
    scrubStep h recur wdir ScrubState.stateInitial held (lit "-I" ++ v)
      = ScrubStep.next ScrubState.stateInitial [lit "-I" ++ makeAbsolutePath h wdir v]
          held := by
  rw [scrubStep_compound h recur wdir (lit "-I") v (by decide) hv hnl]
  simp [scrubFlag, hv]

theorem scrubStep_compound_sysroot (h : Host) (recur : Nat → List Str → Option (Slice × Nat))
    (wdir v : Str) (hv : v ≠ []) (hnl : '\n' ∉ v) {held : Nat} :
    scrubStep h recur wdir ScrubState.stateInitial held (lit "--sysroot=" ++ v)
      = ScrubStep.next ScrubState.stateInitial
          [lit "-isysroot", makeAbsolutePath h wdir v] held := by
  rw [scrubStep_compound h recur wdir (lit "--sysroot=") v (by decide) hv hnl]
  have h1 : ¬ (lit "--sysroot=" = lit "-I" ∨ lit "--sysroot=" = lit "-isystem") := by decide
  have h2 : ¬ (lit "--sysroot=" = lit "-o" ∨ lit "--sysroot=" = lit "-MF" ∨
      lit "--sysroot=" = lit "-MQ" ∨ lit "--sysroot=" = lit "-MT") := by decide
  simp [scrubFlag, h1, h2]

/-- A token `-isystem<value>` matches none of the alternatives of
`rtagsScrubRegexp` nor the delete list, so it is passed through. -/
theorem scrubStep_compound_isystem (h : Host) (recur : Nat → List Str → Option (Slice × Nat))
    (wdir v : Str) (hv : v ≠ []) {held : Nat} :
    scrubStep h recur wdir ScrubState.stateInitial held (lit "-isystem" ++ v)
      = ScrubStep.next ScrubState.stateInitial [lit "-isystem" ++ v] held := by
  obtain ⟨c, w, rfl⟩ := List.exists_cons_of_ne_nil hv
  simp [scrubStep, rtagsScrubRegexp, singleArgFlags, compoundArgFlags, matchCompoundArg,
    afterLiteral, matchFileArg, matchRspFileArg, rtagsFilterRegexp, rtagsFilterPrefixes, lit]

theorem matchCompoundArg_value_ne_nil (fs : List Str) (t f v : Str)
    (hm : matchCompoundArg fs t = some (f, v)) : v ≠ [] := by
  induction fs with
  | nil => simp [matchCompoundArg] at hm
  | cons g fs ih =>
    unfold matchCompoundArg at hm
    split at hm
    · rename_i w hw
      split at hm
      · rename_i hcond
        simp only [Option.some.injEq, Prod.mk.injEq] at hm
        exact hm.2 ▸ hcond.1
      · exact ih hm
    · exact ih hm

theorem scrubFlag_state_of_value (h : Host) (wdir : Str) (m : ScrubMatch) (acc : List Str)
    (hv : m.compoundArgGroup2 ≠ []) :
    (scrubFlag h wdir m acc).2 = ScrubState.stateInitial := by
  unfold scrubFlag
  simp only [hv, if_false]
  split_ifs <;> rfl

theorem takesValue_eq_false_of_not_single (t : Str) (ht : t ∉ singleArgFlags) :
    takesValue t = false := by
  simp only [takesValue, decide_eq_false_iff_not]
  intro hmem
  apply ht
  simp only [dropValueFlags, absValueFlags, List.cons_append, List.nil_append, List.mem_cons,
    List.mem_singleton, List.not_mem_nil, or_false] at hmem
  rcases hmem with rfl | rfl | rfl | rfl | rfl | rfl <;> decide

/-- One iteration in the initial state on a token that is no response-file
reference: it returns `nil`, or it goes on, in the initial state exactly
when the token is no split-form flag that takes a value; no file is
opened. -/
theorem scrubStep_initial_cases (h : Host) (recur : Nat → List Str → Option (Slice × Nat))
    (wdir t : Str) (held : Nat) (hrsp : isRspReference t = false) :
    scrubStep h recur wdir ScrubState.stateInitial held t = ScrubStep.abort ∨
    ∃ st out, scrubStep h recur wdir ScrubState.stateInitial held t
        = ScrubStep.next st out held ∧
      (st = ScrubState.stateInitial ↔ takesValue t = false) := by
  by_cases hE : t = lit "-E"
  · subst hE
    exact Or.inl (scrubStep_E h recur wdir)
  · right
    by_cases hs : t ∈ singleArgFlags
    · simp only [singleArgFlags, List.mem_cons, List.mem_singleton, List.not_mem_nil,
        or_false] at hs
      rcases hs with rfl | rfl | rfl | rfl | rfl | rfl | rfl | rfl | rfl | rfl | rfl | rfl | rfl
      all_goals refine ⟨_, _, rfl, ?_⟩
      all_goals simp [scrubFlag, takesValue, dropValueFlags, absValueFlags, lit]
    · have htv := takesValue_eq_false_of_not_single t hs
      have hno : matchRspFileArg t = none := by
        simpa [isRspReference] using hrsp
      unfold scrubStep rtagsScrubRegexp
      simp only [hE, hs, if_false, htv, iff_true, ne_eq, not_true_eq_false,
        reduceCtorEq]
      cases hc : matchCompoundArg compoundArgFlags t with
      | some fv =>
        obtain ⟨f, v⟩ := fv
        have hv := matchCompoundArg_value_ne_nil _ _ _ _ hc
        simp only [ne_eq, not_true_eq_false, if_false]
        exact ⟨_, _, rfl, scrubFlag_state_of_value h wdir ⟨[], f, v, [], []⟩ [] hv⟩
      | none =>
        simp only
        by_cases hfile : matchFileArg t = true
        · have hne : t ≠ [] := by
            intro h0
            rw [h0] at hfile
            simp [matchFileArg] at hfile
          simp only [hfile, if_true, ne_eq, hne, not_false_eq_true]
          exact ⟨_, _, rfl, rfl⟩
        · simp only [hfile, hno]
          by_cases hfil : rtagsFilterRegexp t = true
          · simp only [hfil, Bool.not_true, Bool.false_eq_true, if_false]
            exact ⟨_, _, rfl, rfl⟩
          · simp only [Bool.not_eq_true] at hfil
            simp only [hfil, Bool.not_false, if_true]
            exact ⟨_, _, rfl, rfl⟩

theorem scrubLoop_E (h : Host) (recur : Nat → List Str → Option (Slice × Nat)) (wdir : Str)
    (acc : List Str) (held : Nat) (post : List Str) :
    scrubLoop h recur wdir ScrubState.stateInitial acc held (lit "-E" :: post)
      = some (Slice.nil, held) := by
  rw [scrubLoop_cons, scrubStep_E]

theorem scrubLoop_not_initial (h : Host) (recur : Nat → List Str → Option (Slice × Nat))
    (wdir : Str) (st : ScrubState) (hst : st ≠ ScrubState.stateInitial) (acc : List Str)
    (held : Nat) (v : Str) (rest : List Str) :
    ∃ acc2, scrubLoop h recur wdir st acc held (v :: rest)
      = scrubLoop h recur wdir ScrubState.stateInitial acc2 held rest := by
  cases st with
  | stateInitial => exact absurd rfl hst
  | stateDropNextArg => exact ⟨_, by rw [scrubLoop_cons, scrubStep_dropNext]⟩
  | stateMakeNextArgRelative => exact ⟨_, by rw [scrubLoop_cons, scrubStep_makeNext]⟩

/-- The scan returns `nil` when it meets `-E` in the initial state after
tokens that hold no response-file reference. -/
theorem scrubLoop_reaches_E (h : Host) (recur : Nat → List Str → Option (Slice × Nat))
    (wdir : Str) (held : Nat) (post : List Str) (pre : List Str) :
    (∀ a ∈ pre, isRspReference a = false) → endsInInitial pre = true →
      ∀ acc, scrubLoop h recur wdir ScrubState.stateInitial acc held (pre ++ lit "-E" :: post)
        = some (Slice.nil, held) := by
  induction pre using endsInInitial.induct with
  | case1 =>
    intro _ _ acc
    exact scrubLoop_E h recur wdir acc held post
  | case2 t =>
    intro hrsp hinit acc
    have ht : takesValue t = false := by simpa [endsInInitial] using hinit
    rw [List.singleton_append, scrubLoop_cons]
    rcases scrubStep_initial_cases h recur wdir t held (hrsp t (by simp)) with
      hab | ⟨st, out, hstep, hst⟩
    · rw [hab]
    · rw [hstep]
      simp only
      rw [hst.2 ht]
      exact scrubLoop_E h recur wdir _ held post
  | case3 t v rest htv ih =>
    intro hrsp hinit acc
    have hinit2 : endsInInitial rest = true := by simpa [endsInInitial, htv] using hinit
    rw [List.cons_append, scrubLoop_cons]
    rcases scrubStep_initial_cases h recur wdir t held (hrsp t (by simp)) with
      hab | ⟨st, out, hstep, hst⟩
    · rw [hab]
    · rw [hstep]
      simp only
      have hne : st ≠ ScrubState.stateInitial := by
        intro hinitial
        rw [hst.1 hinitial] at htv
        exact absurd htv (by simp)
      obtain ⟨acc2, hacc2⟩ := scrubLoop_not_initial h recur wdir st hne (acc ++ out) held v
        (rest ++ lit "-E" :: post)
      rw [List.cons_append, hacc2]
      exact ih (fun a ha => hrsp a (by simp [ha])) hinit2 acc2
  | case4 t v rest htv ih =>
    intro hrsp hinit acc
    have htv2 : takesValue t = false := by simpa using htv
    have hinit2 : endsInInitial (v :: rest) = true := by
      simpa [endsInInitial, htv2] using hinit
    rw [List.cons_append, scrubLoop_cons]
    rcases scrubStep_initial_cases h recur wdir t held (hrsp t (by simp)) with
      hab | ⟨st, out, hstep, hst⟩
    · rw [hab]
    · rw [hstep]
      simp only
      rw [hst.2 htv2]
      exact ih (fun a ha => hrsp a (by simp [ha])) hinit2 (acc ++ out)

/-- C5: when the scan of a vector reaches a literal `-E` in the initial
state (the tokens before it hold no response-file reference and none of
them takes the `-E` as its value), `scrubCmdlineRtags` returns the `nil`
sentinel, whatever comes before or after; `-E foo.c` is suppressed. -/
theorem scrub_suppressed_on_E (h : Host) (wdir : Str) (fuel : Nat) (pre post : List Str)
    (hrsp : ∀ a ∈ pre, isRspReference a = false) (hinit : endsInInitial pre = true) :
    scrubCmdlineRtags h wdir (fuel + 1) (pre ++ lit "-E" :: post) = some Slice.nil ∧
    scrubCmdlineRtags h wdir (fuel + 1) [lit "-E", lit "foo.c"] = some Slice.nil := by
  constructor
  · rw [scrubCmdlineRtags_succ, scrubLoop_reaches_E h _ wdir 0 post pre hrsp hinit []]
    rfl
  · rw [scrubCmdlineRtags_succ, scrubLoop_E]
    rfl

theorem scrub_suppressed_on_E_witness :
    (∀ a ∈ [lit "-Wall", lit "-o", lit "-E", lit "-I", lit "inc", lit "foo.c"],
      isRspReference a = false) ∧
    endsInInitial [lit "-Wall", lit "-o", lit "-E", lit "-I", lit "inc", lit "foo.c"] = true ∧
    scrubCmdlineRtags exampleHost (lit "/wd") 1
      ([lit "-Wall", lit "-o", lit "-E", lit "-I", lit "inc", lit "foo.c"] ++
        lit "-E" :: [lit "-DX"]) = some Slice.nil ∧
    scrubCmdlineRtags exampleHost (lit "/wd") 1 [lit "-E", lit "foo.c"] = some Slice.nil :=
  ⟨by decide, by decide,
    scrub_suppressed_on_E exampleHost (lit "/wd") 0
      [lit "-Wall", lit "-o", lit "-E", lit "-I", lit "inc", lit "foo.c"] [lit "-DX"]
      (by decide) (by decide)⟩

theorem scrub_example_output_flag (h : Host) (fuel : Nat) :
    scrubCmdlineRtags h (lit "/wd") (fuel + 1) [lit "-o", lit "out.o", lit "foo.c"]
      = some (Slice.mk [lit "/wd/foo.c"]) := rfl

/-- C7, as the code has it: a split-form `-o`, `-MF`, `-MQ` or `-MT` and the
one token after it are both dropped, whatever that token is; a compound
token made of one of these flags and a non-empty value that holds no line
feed is dropped as a single token.  With working directory `/wd` the vector
`-o out.o foo.c` gives `/wd/foo.c`. -/
theorem scrub_drops_output_flags (h : Host) (wdir : Str) (fuel : Nat) (f v w : Str)
    (rest : List Str) (hf : f ∈ dropValueFlags) (hw : w ≠ []) (hnl : '\n' ∉ w) :
    scrubCmdlineRtags h wdir fuel (f :: v :: rest) = scrubCmdlineRtags h wdir fuel rest ∧
    scrubCmdlineRtags h wdir fuel ((f ++ w) :: rest) = scrubCmdlineRtags h wdir fuel rest ∧
    scrubCmdlineRtags h (lit "/wd") (fuel + 1) [lit "-o", lit "out.o", lit "foo.c"]
      = some (Slice.mk [lit "/wd/foo.c"]) := by
  refine ⟨?_, ?_, scrub_example_output_flag h fuel⟩
  · cases fuel with
    | zero => rfl
    | succ n =>
      simp only [scrubCmdlineRtags_succ]
      rw [scrubLoop_cons, scrubStep_dropFlag _ _ _ _ hf]
      simp only [List.append_nil]
      rw [scrubLoop_cons, scrubStep_dropNext]
      rfl
  · cases fuel with
    | zero => rfl
    | succ n =>
      simp only [scrubCmdlineRtags_succ]
      rw [scrubLoop_cons, scrubStep_compound_drop _ _ _ _ _ hf hw hnl]
      rfl

theorem scrub_drops_output_flags_witness :
    lit "-MF" ∈ dropValueFlags ∧ lit "dep.d" ≠ [] ∧ '\n' ∉ lit "dep.d" ∧
    scrubCmdlineRtags exampleHost (lit "/wd") 1 [lit "-MF", lit "-E", lit "foo.c"]
      = scrubCmdlineRtags exampleHost (lit "/wd") 1 [lit "foo.c"] ∧
    scrubCmdlineRtags exampleHost (lit "/wd") 1 [lit "-MF" ++ lit "dep.d", lit "foo.c"]
      = scrubCmdlineRtags exampleHost (lit "/wd") 1 [lit "foo.c"] ∧
    scrubCmdlineRtags exampleHost (lit "/wd") (0 + 1) [lit "-o", lit "out.o", lit "foo.c"]
      = some (Slice.mk [lit "/wd/foo.c"]) :=
  ⟨by decide, by decide, by decide,
    scrub_drops_output_flags exampleHost (lit "/wd") 1 (lit "-MF") (lit "-E") (lit "dep.d")
      [lit "foo.c"] (by decide) (by decide) (by decide)⟩

/-- C7 as stated fails: the value of a compound token may hold a line feed,
and then the token matches neither the scrub grammar nor the delete list
and is passed through instead of being dropped. -/
theorem scrub_drops_output_flags_counterexample :
    lit "\n" ≠ [] ∧
    scrubCmdlineRtags exampleHost (lit "/wd") 1 [lit "-o" ++ lit "\n"]
      = some (Slice.mk [lit "-o\n"]) ∧
    scrubCmdlineRtags exampleHost (lit "/wd") 1 [] = some (Slice.mk []) ∧
    scrubCmdlineRtags exampleHost (lit "/wd") 1 [lit "-o" ++ lit "\n"]
      ≠ scrubCmdlineRtags exampleHost (lit "/wd") 1 [] := by
  decide

theorem filepathClean_rooted (p : Str) : filepathIsAbs (filepathClean ('/' :: p)) = true := by
  simp [filepathClean, filepathIsAbs]

theorem makeAbsolutePath_of_abs (h : Host) (wdir v : Str) (hv : filepathIsAbs v = true) :
    makeAbsolutePath h wdir v = v := by
  simp [makeAbsolutePath, hv]

theorem makeAbsolutePath_of_rel (h : Host) (wdir v : Str) (hv : filepathIsAbs v = false)
    (hwd : filepathIsAbs wdir = true) :
    makeAbsolutePath h wdir v = filepathClean (filepathJoin wdir v) := by
  cases wdir with
  | nil => simp [filepathIsAbs] at hwd
  | cons c w =>
    have hc : c = '/' := by
      by_contra hne
      simp [filepathIsAbs, hne] at hwd
    subst hc
    have hj : filepathJoin ('/' :: w) v = filepathClean ('/' :: (w ++ '/' :: v)) := by
      simp [filepathJoin]
    have habs : filepathIsAbs (filepathJoin ('/' :: w) v) = true := by
      rw [hj]
      exact filepathClean_rooted _
    simp [makeAbsolutePath, hv, filepathAbs, habs]

theorem scrub_example_include_flag (h : Host) (fuel : Nat) :
    scrubCmdlineRtags h (lit "/wd") (fuel + 1) [lit "-I", lit "foo"]
      = some (Slice.mk [lit "-I", lit "/wd/foo"]) := rfl

/-- C8: a split-form `-I` or `-isystem` is kept, the token after it is kept
and made absolute without being read as a flag, and the scan goes on in the
initial state: the result is the flag, the absolute value, then the scrub
of the rest (and `nil` when the scrub of the rest is `nil`).  The value is
unchanged when it is absolute already and joined against an absolute
working directory otherwise; `-I foo` gives `-I /wd/foo`. -/
theorem scrub_keeps_include_flags (h : Host) (wdir : Str) (fuel : Nat) (f v : Str)
    (rest : List Str) (hf : f ∈ absValueFlags) :
    scrubCmdlineRtags h wdir fuel (f :: v :: rest)
      = (scrubCmdlineRtags h wdir fuel rest).map
          (Slice.prepend [f, makeAbsolutePath h wdir v]) ∧
    (∀ out, scrubCmdlineRtags h wdir fuel rest = some (Slice.mk out) →
      scrubCmdlineRtags h wdir fuel (f :: v :: rest)
        = some (Slice.mk (f :: makeAbsolutePath h wdir v :: out))) ∧
    (filepathIsAbs v = true → makeAbsolutePath h wdir v = v) ∧
    (filepathIsAbs v = false → filepathIsAbs wdir = true →
      makeAbsolutePath h wdir v = filepathClean (filepathJoin wdir v)) ∧
    scrubCmdlineRtags h (lit "/wd") (fuel + 1) [lit "-I", lit "foo"]
      = some (Slice.mk [lit "-I", lit "/wd/foo"]) := by
  have hmain : scrubCmdlineRtags h wdir fuel (f :: v :: rest)
      = (scrubCmdlineRtags h wdir fuel rest).map
          (Slice.prepend [f, makeAbsolutePath h wdir v]) := by
    cases fuel with
    | zero => rfl
    | succ n =>
      simp only [scrubCmdlineRtags_succ]
      rw [scrubLoop_cons, scrubStep_absFlag _ _ _ _ hf]
      simp only [List.nil_append]
      rw [scrubLoop_cons, scrubStep_makeNext]
      simp only [List.singleton_append]
      rw [scrubLoop_acc h _ wdir rest ScrubState.stateInitial _, map_fst_prependHeld]
  refine ⟨hmain, fun out hout => ?_, makeAbsolutePath_of_abs h wdir v,
    makeAbsolutePath_of_rel h wdir v, scrub_example_include_flag h fuel⟩
  rw [hmain, hout]
  rfl

theorem scrub_keeps_include_flags_witness :
    lit "-isystem" ∈ absValueFlags ∧
    scrubCmdlineRtags exampleHost (lit "/wd") 1 [lit "-isystem", lit "-E", lit "-Wall"]
      = some (Slice.mk [lit "-isystem", lit "/wd/-E", lit "-Wall"]) :=
  ⟨by decide,
    (scrub_keeps_include_flags exampleHost (lit "/wd") 1 (lit "-isystem") (lit "-E")
      [lit "-Wall"] (by decide)).2.1 [lit "-Wall"] (by decide)⟩

theorem scrub_example_compound_include (h : Host) (fuel : Nat) :
    scrubCmdlineRtags h (lit "/wd") (fuel + 1) [lit "-Ifoo"]
      = some (Slice.mk [lit "-I/wd/foo"]) := rfl

/-- C9, as the code has it: a compound token `-I<value>` whose value is not
empty and holds no line feed is rewritten to the single token made of `-I`
and the absolute value; `-Ifoo` with working directory `/wd` gives
`-I/wd/foo`. -/
theorem scrub_compound_include (h : Host) (wdir : Str) (fuel : Nat) (v : Str)
    (hv : v ≠ []) (hnl : '\n' ∉ v) :
    scrubCmdlineRtags h wdir (fuel + 1) [lit "-I" ++ v]
      = some (Slice.mk [lit "-I" ++ makeAbsolutePath h wdir v]) ∧
    scrubCmdlineRtags h (lit "/wd") (fuel + 1) [lit "-Ifoo"]
      = some (Slice.mk [lit "-I/wd/foo"]) := by
  refine ⟨?_, scrub_example_compound_include h fuel⟩
  simp only [scrubCmdlineRtags_succ]
  rw [scrubLoop_cons, scrubStep_compound_I _ _ _ _ hv hnl]
  rfl

theorem scrub_compound_include_witness :
    lit "../inc" ≠ [] ∧ '\n' ∉ lit "../inc" ∧
    scrubCmdlineRtags exampleHost (lit "/wd/sub") 1 [lit "-I" ++ lit "../inc"]
      = some (Slice.mk [lit "-I" ++ makeAbsolutePath exampleHost (lit "/wd/sub") (lit "../inc")]) ∧
    makeAbsolutePath exampleHost (lit "/wd/sub") (lit "../inc") = lit "/wd/inc" :=
  ⟨by decide, by decide,
    (scrub_compound_include exampleHost (lit "/wd/sub") 0 (lit "../inc") (by decide)
      (by decide)).1, by decide⟩

/-- C9 as stated fails: `-isystem` is not among the compound flags of the
scrub grammar, so `-isystemfoo` is passed through unchanged instead of
becoming `-isystem/wd/foo`; and a value that holds a line feed keeps a
compound `-I` token from matching, so that it is passed through too. -/
theorem scrub_compound_include_counterexample :
    scrubCmdlineRtags exampleHost (lit "/wd") 1 [lit "-isystem" ++ lit "foo"]
      = some (Slice.mk [lit "-isystemfoo"]) ∧
    lit "-isystem" ++ makeAbsolutePath exampleHost (lit "/wd") (lit "foo")
      = lit "-isystem/wd/foo" ∧
    scrubCmdlineRtags exampleHost (lit "/wd") 1 [lit "-isystem" ++ lit "foo"]
      ≠ some (Slice.mk [lit "-isystem" ++ makeAbsolutePath exampleHost (lit "/wd") (lit "foo")]) ∧
    scrubCmdlineRtags exampleHost (lit "/wd") 1 [lit "-I" ++ lit "a\nb"]
      = some (Slice.mk [lit "-Ia\nb"]) ∧
    scrubCmdlineRtags exampleHost (lit "/wd") 1 [lit "-I" ++ lit "a\nb"]
      ≠ some (Slice.mk [lit "-I" ++ makeAbsolutePath exampleHost (lit "/wd") (lit "a\nb")]) := by
  decide

theorem scrub_example_sysroot (h : Host) (fuel : Nat) :
    scrubCmdlineRtags h (lit "/wd") (fuel + 1) [lit "--sysroot=/x"]
      = some (Slice.mk [lit "-isysroot", lit "/x"]) := rfl

/-- C10, as the code has it: a compound token `--sysroot=<value>` whose
value is not empty and holds no line feed is rewritten to the two tokens
`-isysroot` and the absolute value; `--sysroot=/x` gives `-isysroot /x`. -/
theorem scrub_compound_sysroot (h : Host) (wdir : Str) (fuel : Nat) (v : Str)
    (hv : v ≠ []) (hnl : '\n' ∉ v) :
    scrubCmdlineRtags h wdir (fuel + 1) [lit "--sysroot=" ++ v]
      = some (Slice.mk [lit "-isysroot", makeAbsolutePath h wdir v]) ∧
    scrubCmdlineRtags h (lit "/wd") (fuel + 1) [lit "--sysroot=/x"]
      = some (Slice.mk [lit "-isysroot", lit "/x"]) := by
  refine ⟨?_, scrub_example_sysroot h fuel⟩
  simp only [scrubCmdlineRtags_succ]
  rw [scrubLoop_cons, scrubStep_compound_sysroot _ _ _ _ hv hnl]
  rfl

theorem scrub_compound_sysroot_witness :
    lit "sdk/root" ≠ [] ∧ '\n' ∉ lit "sdk/root" ∧
    scrubCmdlineRtags exampleHost (lit "/wd") 1 [lit "--sysroot=" ++ lit "sdk/root"]
      = some (Slice.mk [lit "-isysroot", makeAbsolutePath exampleHost (lit "/wd") (lit "sdk/root")]) ∧
    makeAbsolutePath exampleHost (lit "/wd") (lit "sdk/root") = lit "/wd/sdk/root" :=
  ⟨by decide, by decide,
    (scrub_compound_sysroot exampleHost (lit "/wd") 0 (lit "sdk/root") (by decide)
      (by decide)).1, by decide⟩

/-- C10 as stated fails: a value that holds a line feed keeps the token from
matching the scrub grammar, and the token is passed through as it is. -/
theorem scrub_compound_sysroot_counterexample :
    lit "a\nb" ≠ [] ∧
    scrubCmdlineRtags exampleHost (lit "/wd") 1 [lit "--sysroot=" ++ lit "a\nb"]
      = some (Slice.mk [lit "--sysroot=a\nb"]) ∧
    scrubCmdlineRtags exampleHost (lit "/wd") 1 [lit "--sysroot=" ++ lit "a\nb"]
      ≠ some (Slice.mk [lit "-isysroot", makeAbsolutePath exampleHost (lit "/wd") (lit "a\nb")]) := by
  decide

/-! ## The rtags log entry -/

theorem unescapeQuotes_append_newline (s : Str) :
    ∃ t, unescapeQuotes (s ++ ['\n']) = t ++ ['\n'] := by
  induction s using unescapeQuotes.induct with
  | case1 => exact ⟨[], rfl⟩
  | case2 c =>
    refine ⟨[c], ?_⟩
    simp [unescapeQuotes]
  | case3 c d rest hcd ih =>
    obtain ⟨t, ht⟩ := ih
    refine ⟨'"' :: t, ?_⟩
    simp only [List.cons_append]
    cases hrest : rest ++ ['\n'] with
    | nil => simp at hrest
    | cons x xs =>
      rw [unescapeQuotes]
      simp only [hcd, and_self, if_true]
      rw [← hrest, ht]
  | case4 c d rest hcd ih =>
    obtain ⟨t, ht⟩ := ih
    refine ⟨c :: t, ?_⟩
    simp only [List.cons_append] at ht ⊢
    rw [unescapeQuotes, if_neg hcd, ht]

theorem buildRtagsLogentry_length_pos (h : Host) (fuel : Nat) (wdir execName : Str)
    (args : List Str) (entry : Str)
    (he : buildRtagsLogentry h fuel wdir execName args = some entry) : 0 < entry.length := by
  unfold buildRtagsLogentry at he
  split at he
  · exact absurd he (by simp)
  · rename_i r _
    simp only [Option.some.injEq] at he
    have hnl : lit "\n" = ['\n'] := rfl
    obtain ⟨t, ht⟩ := unescapeQuotes_append_newline
      (execName ++ lit " " ++ (lit " ").intercalate r.elems)
    rw [← he, buildLogentry, hnl, ht]
    simp

/-- C6 fails on the code.  The entry built by `buildRtagsLogentry` always
holds the executable name, a space and a line feed, so it is never empty
and the guard `len(logentry) > 0` of `Command.Run` always holds: for the
suppressed vector `-E foo.c`, and for the empty vector, the entry is
`/usr/bin/gcc ⏎` and is written to the rtags log file. -/
theorem rtags_log_written_when_suppressed :
    (∀ (h : Host) (fuel : Nat) (wdir execName : Str) (args : List Str) (entry : Str),
      buildRtagsLogentry h fuel wdir execName args = some entry → 0 < entry.length) ∧
    scrubCmdlineRtags exampleHost (lit "/wd") 1 [lit "-E", lit "foo.c"] = some Slice.nil ∧
    buildRtagsLogentry exampleHost 1 (lit "/wd") (lit "/usr/bin/gcc") [lit "-E", lit "foo.c"]
      = some (lit "/usr/bin/gcc \n") ∧
    Command.Run exampleHost 1 exampleCmd exampleEnv [lit "-E", lit "foo.c"]
      = some ⟨[Effect.writeLogfile (lit "/log/da39a3ee") (lit "/usr/bin/gcc \n"),
          Effect.execCommand (lit "/usr/bin/gcc") [lit "-E", lit "foo.c"]
            [lit "HOME=/home/u", lit "PATH=/opt/pear:/usr/bin"]], none⟩ ∧
    scrubCmdlineRtags exampleHost (lit "/wd") 1 [] = some (Slice.mk []) ∧
    Command.Run exampleHost 1 exampleCmd exampleEnv []
      = some ⟨[Effect.writeLogfile (lit "/log/da39a3ee") (lit "/usr/bin/gcc \n"),
          Effect.execCommand (lit "/usr/bin/gcc") []
            [lit "HOME=/home/u", lit "PATH=/opt/pear:/usr/bin"]], none⟩ := by
  refine ⟨buildRtagsLogentry_length_pos, by decide, by decide, by decide, by decide,
    by decide⟩

/-! ## Split-form `--sysroot`, unmatched tokens and dependency flags -/

theorem scrubStep_sysroot (h : Host) (recur : Nat → List Str → Option (Slice × Nat))
    (wdir : Str) {held : Nat} :
    scrubStep h recur wdir ScrubState.stateInitial held (lit "--sysroot")
      = ScrubStep.next ScrubState.stateInitial [lit "-isysroot"] held := rfl

/-- A token that is not `-E` and matches neither the scrub grammar nor the
delete list is emitted unchanged; one that matches the delete list only is
dropped. -/
theorem scrubStep_unmatched (h : Host) (recur : Nat → List Str → Option (Slice × Nat))
    (wdir t : Str) (hE : t ≠ lit "-E") (hre : rtagsScrubRegexp t = none) {held : Nat} :
    scrubStep h recur wdir ScrubState.stateInitial held t
      = ScrubStep.next ScrubState.stateInitial (if rtagsFilterRegexp t then [] else [t])
          held := by
  unfold scrubStep
  by_cases hf : rtagsFilterRegexp t = true
  · simp [hE, hre, hf]
  · simp [hE, hre, hf]

theorem scrubCmdlineRtagsFrom_cons_next (h : Host) (wdir : Str) (fuel held : Nat) (t : Str)
    (rest em : List Str)
    (hstep : ∀ recur held, scrubStep h recur wdir ScrubState.stateInitial held t
      = ScrubStep.next ScrubState.stateInitial em held) :
    scrubCmdlineRtagsFrom h wdir fuel held (t :: rest)
      = (scrubCmdlineRtagsFrom h wdir fuel held rest).map (prependHeld em) := by
  cases fuel with
  | zero => rfl
  | succ n =>
    simp only [scrubCmdlineRtagsFrom]
    rw [scrubLoop_cons, hstep]
    simp only [List.nil_append]
    exact scrubLoop_acc h _ wdir rest ScrubState.stateInitial em held

theorem scrubCmdlineRtags_cons_next (h : Host) (wdir : Str) (fuel : Nat) (t : Str)
    (rest em : List Str)
    (hstep : ∀ recur held, scrubStep h recur wdir ScrubState.stateInitial held t
      = ScrubStep.next ScrubState.stateInitial em held) :
    scrubCmdlineRtags h wdir fuel (t :: rest)
      = (scrubCmdlineRtags h wdir fuel rest).map (Slice.prepend em) := by
  unfold scrubCmdlineRtags
  rw [scrubCmdlineRtagsFrom_cons_next h wdir fuel 0 t rest em hstep, map_fst_prependHeld]

/-- C11, as the code has it: a split-form `--sysroot` is rewritten to
`-isysroot` and the scan goes on in the initial state, so the token after it
is scanned like any other token: the result is `-isysroot` followed by the
scrub of the rest (`nil` when that scrub is `nil`).  The next token appears
verbatim when it is not `-E` and matches neither the scrub grammar nor the
delete list. -/
theorem scrub_split_sysroot (h : Host) (wdir : Str) (fuel : Nat) (rest : List Str) (v : Str)
    (hE : v ≠ lit "-E") (hre : rtagsScrubRegexp v = none)
    (hfil : rtagsFilterRegexp v = false) :
    scrubCmdlineRtags h wdir fuel (lit "--sysroot" :: rest)
      = (scrubCmdlineRtags h wdir fuel rest).map (Slice.prepend [lit "-isysroot"]) ∧
    scrubCmdlineRtags h wdir (fuel + 1) [lit "--sysroot", v]
      = some (Slice.mk [lit "-isysroot", v]) := by
  have hmain : ∀ rest, scrubCmdlineRtags h wdir fuel (lit "--sysroot" :: rest)
      = (scrubCmdlineRtags h wdir fuel rest).map (Slice.prepend [lit "-isysroot"]) :=
    fun rest => scrubCmdlineRtags_cons_next h wdir fuel _ rest _
      (fun recur _ => scrubStep_sysroot h recur wdir)
  refine ⟨hmain rest, ?_⟩
  rw [scrubCmdlineRtags_cons_next h wdir (fuel + 1) _ [v] _
      (fun recur _ => scrubStep_sysroot h recur wdir),
    scrubCmdlineRtags_cons_next h wdir (fuel + 1) v [] _
      (fun recur _ => scrubStep_unmatched h recur wdir v hE hre)]
  simp [hfil, scrubCmdlineRtags, scrubCmdlineRtagsFrom, scrubLoop, Slice.prepend]

theorem scrub_split_sysroot_witness :
    lit "/opt/sdk" ≠ lit "-E" ∧ rtagsScrubRegexp (lit "/opt/sdk") = none ∧
    rtagsFilterRegexp (lit "/opt/sdk") = false ∧
    scrubCmdlineRtags exampleHost (lit "/wd") 1 [lit "--sysroot", lit "/opt/sdk"]
      = some (Slice.mk [lit "-isysroot", lit "/opt/sdk"]) :=
  ⟨by decide, by decide, by decide,
    (scrub_split_sysroot exampleHost (lit "/wd") 0 [] (lit "/opt/sdk") (by decide) (by decide)
      (by decide)).2⟩

/-- C11 as stated fails: the token after a split-form `--sysroot` is scanned
in the initial state, so a source file name is made absolute, `-E`
suppresses the whole scrub, and a split-form `-o` is dropped. -/
theorem scrub_split_sysroot_counterexample :
    scrubCmdlineRtags exampleHost (lit "/wd") 1 [lit "--sysroot", lit "foo.c"]
      = some (Slice.mk [lit "-isysroot", lit "/wd/foo.c"]) ∧
    scrubCmdlineRtags exampleHost (lit "/wd") 1 [lit "--sysroot", lit "foo.c"]
      ≠ some (Slice.mk [lit "-isysroot", lit "foo.c"]) ∧
    scrubCmdlineRtags exampleHost (lit "/wd") 1 [lit "--sysroot", lit "-E"] = some Slice.nil ∧
    scrubCmdlineRtags exampleHost (lit "/wd") 1 [lit "--sysroot", lit "-o"]
      = some (Slice.mk [lit "-isysroot"]) := by
  decide

theorem rtagsFilterRegexp_iff (t : Str) :
    rtagsFilterRegexp t = true ↔ ∃ p ∈ rtagsFilterPrefixes, ∃ s, t = p ++ s := by
  simp only [rtagsFilterRegexp, List.any_eq_true, Option.isSome_iff_exists,
    afterLiteral_eq_some]

theorem rtagsScrubRegexp_eq_none_iff (t : Str) :
    rtagsScrubRegexp t = none ↔
      t ∉ singleArgFlags ∧ matchCompoundArg compoundArgFlags t = none ∧
        matchFileArg t = false ∧ matchRspFileArg t = none := by
  unfold rtagsScrubRegexp
  by_cases hs : t ∈ singleArgFlags
  · simp [hs]
  · cases hc : matchCompoundArg compoundArgFlags t with
    | some fv => simp [hs]
    | none =>
      by_cases hfile : matchFileArg t = true
      · simp [hs, hfile]
      · cases hr : matchRspFileArg t with
        | some path => simp [hs, hfile]
        | none => simp [hs, hfile]

theorem scrubLoop_unmatched (h : Host) (recur : Nat → List Str → Option (Slice × Nat))
    (wdir : Str) (held : Nat) (args : List Str)
    (hargs : ∀ t ∈ args, t ≠ lit "-E" ∧ rtagsScrubRegexp t = none) :
    ∀ acc, scrubLoop h recur wdir ScrubState.stateInitial acc held args
      = some (Slice.mk (acc ++ args.filter (fun t => !rtagsFilterRegexp t)), held) := by
  induction args with
  | nil => intro acc; simp [scrubLoop]
  | cons t args ih =>
    intro acc
    have ht := hargs t (by simp)
    rw [scrubLoop_cons, scrubStep_unmatched h recur wdir t ht.1 ht.2]
    simp only
    rw [ih (fun a ha => hargs a (by simp [ha]))]
    by_cases hf : rtagsFilterRegexp t = true
    · simp [hf, List.filter]
    · simp [hf, List.filter]

/-- C12: a token met in the initial state that is not `-E` and matches no
alternative of the scrub grammar is dropped when it begins with one of the
three prefixes of the delete list and is emitted unchanged otherwise; for a
vector made only of such tokens the scrub is the vector without the tokens
of the delete list, in order. -/
theorem scrub_passes_unmatched_tokens (h : Host) (wdir : Str) (fuel : Nat) (t : Str)
    (rest args : List Str) (ht : t ≠ lit "-E" ∧ rtagsScrubRegexp t = none)
    (hargs : ∀ a ∈ args, a ≠ lit "-E" ∧ rtagsScrubRegexp a = none) :
    scrubCmdlineRtags h wdir fuel (t :: rest)
      = (scrubCmdlineRtags h wdir fuel rest).map
          (Slice.prepend (if rtagsFilterRegexp t then [] else [t])) ∧
    scrubCmdlineRtags h wdir (fuel + 1) args
      = some (Slice.mk (args.filter (fun a => !rtagsFilterRegexp a))) ∧
    (∀ a : Str, rtagsFilterRegexp a = true ↔ ∃ p ∈ rtagsFilterPrefixes, ∃ s, a = p ++ s) ∧
    (∀ a : Str, rtagsScrubRegexp a = none ↔
      a ∉ singleArgFlags ∧ matchCompoundArg compoundArgFlags a = none ∧
        matchFileArg a = false ∧ matchRspFileArg a = none) ∧
    scrubCmdlineRtags h wdir (fuel + 1) [lit "-Wall", lit "-falign-functions=16", lit "-DX=1"]
      = some (Slice.mk [lit "-Wall", lit "-DX=1"]) := by
  refine ⟨?_, ?_, rtagsFilterRegexp_iff, rtagsScrubRegexp_eq_none_iff, rfl⟩
  · exact scrubCmdlineRtags_cons_next h wdir fuel t rest _
      (fun recur _ => scrubStep_unmatched h recur wdir t ht.1 ht.2)
  · rw [scrubCmdlineRtags_succ, scrubLoop_unmatched h _ wdir 0 args hargs []]
    rfl

theorem scrub_passes_unmatched_tokens_witness :
    (lit "-fdebug-prefix-map=/a=/b" ≠ lit "-E" ∧
      rtagsScrubRegexp (lit "-fdebug-prefix-map=/a=/b") = none) ∧
    (∀ a ∈ [lit "-O2", lit "-fvar-tracking-assignments", lit "-std=c11", lit "main.o"],
      a ≠ lit "-E" ∧ rtagsScrubRegexp a = none) ∧
    scrubCmdlineRtags exampleHost (lit "/wd") 1 [lit "-fdebug-prefix-map=/a=/b", lit "-g"]
      = some (Slice.mk [lit "-g"]) ∧
    scrubCmdlineRtags exampleHost (lit "/wd") 1
        [lit "-O2", lit "-fvar-tracking-assignments", lit "-std=c11", lit "main.o"]
      = some (Slice.mk [lit "-O2", lit "-std=c11", lit "main.o"]) :=
  ⟨by decide, by decide,
    (scrub_passes_unmatched_tokens exampleHost (lit "/wd") 1 (lit "-fdebug-prefix-map=/a=/b")
      [lit "-g"] [lit "-O2", lit "-fvar-tracking-assignments", lit "-std=c11", lit "main.o"]
      (by decide) (by decide)).1.trans (by decide),
    (scrub_passes_unmatched_tokens exampleHost (lit "/wd") 0 (lit "-fdebug-prefix-map=/a=/b")
      [lit "-g"] [lit "-O2", lit "-fvar-tracking-assignments", lit "-std=c11", lit "main.o"]
      (by decide) (by decide)).2.1.trans (by decide)⟩

theorem scrubStep_dependencyFlag (h : Host) (recur : Nat → List Str → Option (Slice × Nat))
    (wdir f : Str) (hf : f ∈ dependencyFlags) {held : Nat} :
    scrubStep h recur wdir ScrubState.stateInitial held f
      = ScrubStep.next ScrubState.stateInitial [] held := by
  simp only [dependencyFlags, List.mem_cons, List.mem_singleton, List.not_mem_nil,
    or_false] at hf
  rcases hf with rfl | rfl | rfl | rfl | rfl | rfl <;> rfl

theorem rtagsScrubRegexp_dependencyFlag (f : Str) (hf : f ∈ dependencyFlags) :
    rtagsScrubRegexp f = some ⟨f, [], [], [], []⟩ := by
  simp only [dependencyFlags, List.mem_cons, List.mem_singleton, List.not_mem_nil,
    or_false] at hf
  rcases hf with rfl | rfl | rfl | rfl | rfl | rfl <;> rfl

/-- C20: each of the standalone flags `-M`, `-MD`, `-MG`, `-MM`, `-MMD`,
`-MP` matches the scrub grammar as a single flag but no case of the flag
dispatch, so the flag is dropped and the scan goes on in the initial state:
the scrub of the flag followed by a vector is the scrub of the vector.  The
token after the flag is not consumed: `-MD -E` is suppressed and
`-MD foo.c` gives `/wd/foo.c`. -/
theorem scrub_drops_dependency_flags (h : Host) (wdir : Str) (fuel : Nat) (f : Str)
    (rest : List Str) (hf : f ∈ dependencyFlags) :
    scrubCmdlineRtags h wdir fuel (f :: rest) = scrubCmdlineRtags h wdir fuel rest ∧
    rtagsScrubRegexp f = some ⟨f, [], [], [], []⟩ ∧
    scrubCmdlineRtags h wdir (fuel + 1) [f, lit "-E"] = some Slice.nil ∧
    scrubCmdlineRtags h (lit "/wd") (fuel + 1) [lit "-MD", lit "foo.c"]
      = some (Slice.mk [lit "/wd/foo.c"]) := by
  have hmain : ∀ fuel rest, scrubCmdlineRtags h wdir fuel (f :: rest)
      = scrubCmdlineRtags h wdir fuel rest := by
    intro fuel rest
    rw [scrubCmdlineRtags_cons_next h wdir fuel f rest []
      (fun recur _ => scrubStep_dependencyFlag h recur wdir f hf)]
    cases scrubCmdlineRtags h wdir fuel rest with
    | none => rfl
    | some r => simp [Slice.prepend_nil_list]
  refine ⟨hmain fuel rest, rtagsScrubRegexp_dependencyFlag f hf, ?_, rfl⟩
  rw [hmain]
  rfl

theorem scrub_drops_dependency_flags_witness :
    lit "-MMD" ∈ dependencyFlags ∧
    scrubCmdlineRtags exampleHost (lit "/wd") 1 [lit "-MMD", lit "-MF", lit "dep.d", lit "a.c"]
      = scrubCmdlineRtags exampleHost (lit "/wd") 1 [lit "-MF", lit "dep.d", lit "a.c"] ∧
    scrubCmdlineRtags exampleHost (lit "/wd") 1 [lit "-MF", lit "dep.d", lit "a.c"]
      = some (Slice.mk [lit "/wd/a.c"]) :=
  ⟨by decide,
    (scrub_drops_dependency_flags exampleHost (lit "/wd") 1 (lit "-MMD")
      [lit "-MF", lit "dep.d", lit "a.c"] (by decide)).1, by decide⟩

/-! ## `prependEnvPath` and `updateLogfileEnv` -/

/-- C18: when the environment list has an entry that starts with `PATH=`,
`prependEnvPath` replaces the first such entry `PATH=p` in place by
`PATH=dir:p` (by `PATH=dir` when `p` is empty) and leaves every other entry
as it is and where it is; when it has none, `PATH=dir` is appended.
`PATH=/usr/bin` with `/opt/pear` gives `PATH=/opt/pear:/usr/bin`. -/
theorem prependEnvPath_spec (env : List Str) (dir : Str) :
    (∀ pre p post, env = pre ++ (lit "PATH=" ++ p) :: post →
      (∀ e ∈ pre, ∀ q, e ≠ lit "PATH=" ++ q) →
      prependEnvPath env dir
        = pre ++ (if p ≠ [] then lit "PATH=" ++ dir ++ lit ":" ++ p
            else lit "PATH=" ++ dir) :: post) ∧
    ((∀ e ∈ env, ∀ q, e ≠ lit "PATH=" ++ q) →
      prependEnvPath env dir = env ++ [lit "PATH=" ++ dir]) ∧
    prependEnvPath [lit "HOME=/home/u", lit "PATH=/usr/bin", lit "PATH=/bin"] (lit "/opt/pear")
      = [lit "HOME=/home/u", lit "PATH=/opt/pear:/usr/bin", lit "PATH=/bin"] := by
  have hnone : ∀ e : Str, (∀ q, e ≠ lit "PATH=" ++ q) → afterLiteral (lit "PATH=") e = none := by
    intro e he
    cases hlit : afterLiteral (lit "PATH=") e with
    | none => rfl
    | some q => exact absurd ((afterLiteral_eq_some _ _ _).1 hlit) (he q)
  refine ⟨?_, ?_, by decide⟩
  · intro pre p post henv hpre
    subst henv
    induction pre with
    | nil =>
      have hlit : afterLiteral (lit "PATH=") (lit "PATH=" ++ p) = some p :=
        (afterLiteral_eq_some _ _ _).2 rfl
      simp only [List.nil_append, prependEnvPath, hlit]
      by_cases hp : p = []
      · simp [hp]
      · simp [hp]
    | cons e pre ih =>
      have he := hnone e (hpre e (by simp))
      simp only [List.cons_append, prependEnvPath, he, List.append_eq]
      rw [ih (fun a ha => hpre a (by simp [ha]))]
  · intro henv
    induction env with
    | nil => simp [prependEnvPath]
    | cons e env ih =>
      have he := hnone e (henv e (by simp))
      simp only [List.cons_append, prependEnvPath, he]
      rw [ih (fun a ha => henv a (by simp [ha]))]

/-- C19: after `updateLogfileEnv(env, args, e)` the key `.sha1` holds the
hex digest of `e`, the key `.input` holds the input of
`getCmdlineInputOutput(args)` made absolute against the value of `.wdir`
when that input is not empty and the digest otherwise, the key `.output`
likewise for the output, and every other key keeps its value. -/
theorem updateLogfileEnv_spec (h : Host) (env : Environment) (args : List Str) (e : Str) :
    (updateLogfileEnv h env args e).Get (lit ".sha1") = h.sha1Hex e ∧
    (updateLogfileEnv h env args e).Get (lit ".input")
      = (if (getCmdlineInputOutput args).1 ≠ [] then
          makeAbsolutePath h (env.Get (lit ".wdir")) (getCmdlineInputOutput args).1
        else h.sha1Hex e) ∧
    (updateLogfileEnv h env args e).Get (lit ".output")
      = (if (getCmdlineInputOutput args).2 ≠ [] then
          makeAbsolutePath h (env.Get (lit ".wdir")) (getCmdlineInputOutput args).2
        else h.sha1Hex e) ∧
    (∀ k : Str, k ≠ lit ".sha1" → k ≠ lit ".input" → k ≠ lit ".output" →
      (updateLogfileEnv h env args e).Get k = env.Get k) ∧
    (updateLogfileEnv exampleHost exampleEnv [lit "-c", lit "foo.c"] (lit "gcc -c foo.c\n")).Get
      (lit ".output") = lit "/wd/foo.c.o" := by
  have h1 : (lit ".sha1" = lit ".output") = False := eq_false (by decide)
  have h2 : (lit ".sha1" = lit ".input") = False := eq_false (by decide)
  have h3 : (lit ".input" = lit ".output") = False := eq_false (by decide)
  have h4 : (lit ".wdir" = lit ".sha1") = False := eq_false (by decide)
  refine ⟨?_, ?_, ?_, ?_, by decide⟩
  · simp only [updateLogfileEnv, Environment.Set, Environment.Get, h1, h2, if_false, if_true]
  · simp only [updateLogfileEnv, Environment.Set, Environment.Get, h3, h4, if_false, if_true,
      makeInputOutputPath]
    split <;> simp_all
  · simp only [updateLogfileEnv, Environment.Set, Environment.Get, h4, if_false, if_true,
      makeInputOutputPath]
    split <;> simp_all
  · intro k hk1 hk2 hk3
    simp only [updateLogfileEnv, Environment.Set, Environment.Get, hk1, hk2, hk3, if_false]

/-! ## The merge step of `parseCommand` -/

theorem mergeCommandEntry_apply (h : Host) (env : Environment) (cmdTmp : Command)
    (table : CommandTable) (raw n : Str) :
    mergeCommandEntry h env cmdTmp table raw n
      = if env.Expand h raw = n then mergeInto n (table n) cmdTmp else table n := by
  unfold mergeCommandEntry mergeInto
  by_cases hn : env.Expand h raw = n
  · subst hn
    cases htab : table (env.Expand h raw) <;> simp
  · have hn2 : ¬ n = env.Expand h raw := fun h0 => hn h0.symm
    simp [hn, hn2]

theorem parseCommandMerge_apply (h : Host) (env : Environment) (cmdTmp : Command)
    (cmdNames : List Str) (n : Str) :
    ∀ table : CommandTable,
      parseCommandMerge h env table cmdNames cmdTmp n
        = ((cmdNames.filter (fun raw => decide (env.Expand h raw = n))).map
            (fun _ => cmdTmp)).foldl (mergeInto n) (table n) := by
  induction cmdNames with
  | nil => intro table; rfl
  | cons raw names ih =>
    intro table
    have hstep : parseCommandMerge h env table (raw :: names) cmdTmp
        = parseCommandMerge h env (mergeCommandEntry h env cmdTmp table raw) names cmdTmp := rfl
    rw [hstep, ih, mergeCommandEntry_apply]
    by_cases hn : env.Expand h raw = n
    · simp [List.filter, hn]
    · simp [List.filter, hn]

theorem mergeEntries_apply (h : Host) (entries : List CommandEntry) (n : Str) :
    ∀ table : CommandTable,
      mergeEntries h table entries n
        = (applicationsTo h n entries).foldl (mergeInto n) (table n) := by
  induction entries with
  | nil => intro table; rfl
  | cons e entries ih =>
    intro table
    have hstep : mergeEntries h table (e :: entries)
        = mergeEntries h (parseCommandMerge h e.env table e.cmdNames e.cmdTmp) entries := rfl
    rw [hstep, ih, parseCommandMerge_apply]
    simp [applicationsTo, List.foldl_append]

theorem foldl_mergeInto (n : Str) (apps : List Command) :
    ∀ o : Option Command,
      apps.foldl (mergeInto n) o
        = if apps = [] then o else some (apps.foldl mergeCommand (o.getD (freshCommand n))) := by
  induction apps with
  | nil => intro o; rfl
  | cons a apps ih =>
    intro o
    rw [List.foldl_cons, ih]
    by_cases happs : apps = []
    · simp [happs, mergeInto]
    · simp [happs, mergeInto]

theorem lastNonEmptyOr_cons (d a : Str) (l : List Str) :
    lastNonEmptyOr d (a :: l) = lastNonEmptyOr (setString d a) l := by
  unfold lastNonEmptyOr setString
  by_cases ha : a = []
  · simp [List.filter, ha]
  · simp only [List.filter, ha, ne_eq, not_false_eq_true, decide_True, if_true]
    exact getLast?_getD_cons a d _

theorem foldl_mergeCommand (apps : List Command) :
    ∀ c : Command,
      apps.foldl mergeCommand c
        = ⟨c.name, lastNonEmptyOr c.exec (apps.map Command.exec),
            lastNonEmptyOr c.logfile (apps.map Command.logfile),
            lastNonEmptyOr c.rtags_logfile (apps.map Command.rtags_logfile),
            c.append ++ (apps.map Command.append).flatten,
            c.prepend ++ (apps.map Command.prepend).flatten,
            c.filterOut ++ (apps.map Command.filterOut).flatten⟩ := by
  induction apps with
  | nil => intro c; simp [lastNonEmptyOr]
  | cons a apps ih =>
    intro c
    rw [List.foldl_cons, ih]
    simp [mergeCommand, lastNonEmptyOr_cons]

/-- C17: after the merge steps of a sequence of command entries, from the
empty map, the command of a name has each of `exec`, `logfile` and
`rtags_logfile` equal to the last non-empty value among the entries applied
to that name (empty when there is none) and each of `append`, `prepend` and
`filterOut` equal to the concatenation of the lists of these entries in
declaration order; a name no entry applies to has no command.  `append -a`
then `append -b` merge to `-a -b`, and a later empty `exec` keeps the
earlier one. -/
theorem parseCommand_merge (h : Host) (entries : List CommandEntry) (n : Str) :
    mergeEntries h emptyCommandTable entries n
      = (if applicationsTo h n entries = [] then none
         else some ⟨n,
          lastNonEmpty ((applicationsTo h n entries).map Command.exec),
          lastNonEmpty ((applicationsTo h n entries).map Command.logfile),
          lastNonEmpty ((applicationsTo h n entries).map Command.rtags_logfile),
          ((applicationsTo h n entries).map Command.append).flatten,
          ((applicationsTo h n entries).map Command.prepend).flatten,
          ((applicationsTo h n entries).map Command.filterOut).flatten⟩) ∧
    applicationsTo exampleHost (lit "gcc") exampleEntries
      = exampleEntries.map CommandEntry.cmdTmp ∧
    mergeEntries exampleHost emptyCommandTable exampleEntries (lit "gcc")
      = some ⟨lit "gcc", lit "/usr/bin/gcc", [], [], [lit "-a", lit "-b"], [], []⟩ := by
  refine ⟨?_, by decide, by decide⟩
  rw [mergeEntries_apply, foldl_mergeInto]
  by_cases happs : applicationsTo h n entries = []
  · simp [happs, emptyCommandTable]
  · simp [happs, emptyCommandTable, foldl_mergeCommand, freshCommand, lastNonEmpty]

/-! ## Response files -/

theorem matchStarDotRsp_iff (p : Str) :
    matchStarDotRsp p = true ↔ ∃ stem, p = stem ++ lit ".rsp" ∧ '\n' ∉ stem := by
  induction p with
  | nil =>
    simp only [matchStarDotRsp, Bool.false_eq_true, false_iff, not_exists, not_and]
    intro stem hstem
    have := congrArg List.length hstem
    simp [lit] at this
  | cons c rest ih =>
    simp only [matchStarDotRsp, Bool.or_eq_true, Bool.and_eq_true, decide_eq_true_eq, ih]
    constructor
    · rintro (⟨hc, hrest⟩ | ⟨hc, stem, hs, hstem⟩)
      · exact ⟨[], by simp [hc, hrest, lit], by simp⟩
      · refine ⟨c :: stem, by simp [hs], ?_⟩
        simp only [List.mem_cons, not_or]
        exact ⟨fun hcn => hc hcn.symm, hstem⟩
    · rintro ⟨stem, hs, hstem⟩
      cases stem with
      | nil =>
        have hs2 : c :: rest = '.' :: lit "rsp" := by simpa [lit] using hs
        simp only [List.cons.injEq] at hs2
        exact Or.inl ⟨hs2.1, hs2.2⟩
      | cons x stem =>
        simp only [List.cons_append, List.cons.injEq] at hs
        simp only [List.mem_cons, not_or] at hstem
        exact Or.inr ⟨fun hcn => hstem.1 (hs.1 ▸ hcn).symm, stem, hs.2, hstem.2⟩

theorem matchRspFileArg_iff (t p : Str) :
    matchRspFileArg t = some p ↔
      t = '@' :: p ∧ ∃ stem, p = stem ++ lit ".rsp" ∧ '\n' ∉ stem := by
  rw [← matchStarDotRsp_iff]
  cases t with
  | nil => simp [matchRspFileArg]
  | cons c rest =>
    by_cases hc : c = '@'
    · subst hc
      by_cases hm : matchStarDotRsp rest = true
      · simp only [matchRspFileArg, hm, if_true, Option.some.injEq, List.cons.injEq, true_and]
        constructor
        · intro hp
          exact ⟨hp, hp ▸ hm⟩
        · intro hp
          exact hp.1
      · simp only [matchRspFileArg, hm, Bool.false_eq_true, if_false, List.cons.injEq,
          true_and]
        constructor
        · intro hno
          exact absurd hno (by simp)
        · rintro ⟨hp, hp2⟩
          exact absurd (hp ▸ hp2) hm
    · constructor
      · intro hsome
        unfold matchRspFileArg at hsome
        split at hsome
        · rename_i heq
          simp only [List.cons.injEq] at heq
          exact absurd heq.1 hc
        · exact absurd hsome (by simp)
      · rintro ⟨hp, -⟩
        simp only [List.cons.injEq] at hp
        exact absurd hp.1 hc

theorem matchStarDotExt_of_rsp (p : Str) (hp : matchStarDotRsp p = true) :
    matchStarDotExt p = false := by
  induction p with
  | nil => rfl
  | cons c rest ih =>
    simp only [matchStarDotRsp, Bool.or_eq_true, Bool.and_eq_true, decide_eq_true_eq] at hp
    have hboth : rest ∉ sourceExts ∧ matchStarDotExt rest = false := by
      rcases hp with ⟨-, hrest⟩ | ⟨-, hrest⟩
      · rw [hrest]
        exact ⟨by decide, by decide⟩
      · refine ⟨fun hmem => ?_, ih hrest⟩
        simp only [sourceExts, List.mem_cons, List.mem_singleton, List.not_mem_nil,
          or_false] at hmem
        rcases hmem with rfl | rfl | rfl | rfl | rfl | rfl | rfl | rfl | rfl | rfl | rfl |
          rfl | rfl | rfl <;> exact absurd hrest (by decide)
    simp [matchStarDotExt, hboth.1, hboth.2]

/-- A response-file reference matches the last alternative of
`rtagsScrubRegexp` only. -/
theorem rtagsScrubRegexp_rsp (t p : Str) (href : matchRspFileArg t = some p) :
    rtagsScrubRegexp t = some ⟨[], [], [], [], p⟩ ∧ p ≠ [] ∧ t ≠ lit "-E" := by
  obtain ⟨ht, stem, hp, hstem⟩ := (matchRspFileArg_iff t p).1 href
  have hm : matchStarDotRsp p = true := (matchStarDotRsp_iff p).2 ⟨stem, hp, hstem⟩
  have hext := matchStarDotExt_of_rsp p hm
  have hne : p ≠ [] := by
    intro h0
    rw [h0] at hm
    simp [matchStarDotRsp] at hm
  subst ht
  refine ⟨?_, hne, by simp [lit]⟩
  have hsingle : ('@' :: p) ∉ singleArgFlags := by simp [singleArgFlags, lit]
  have hcomp : matchCompoundArg compoundArgFlags ('@' :: p) = none := by
    simp [compoundArgFlags, matchCompoundArg, afterLiteral, lit]
  have hfile : matchFileArg ('@' :: p) = false := by simp [matchFileArg, hext]
  simp [rtagsScrubRegexp, hsingle, hcomp, hfile, href]

theorem readRspFile_ok (h : Host) (held : Nat) (p content : Str) (hfree : held < h.openLimit)
    (hopen : h.openFile p = none) (hread : h.readAll p = .ok content) :
    readRspFile h held p = (.ok (fieldsLoop [] content), held + 1) := by
  simp [readRspFile, Nat.not_le.2 hfree, hopen, hread]

theorem readRspFile_limit (h : Host) (held : Nat) (p : Str) (hfull : h.openLimit ≤ held) :
    readRspFile h held p = (.error (h.openLimitError p), held) := by
  simp [readRspFile, hfull]

theorem readRspFile_openError (h : Host) (held : Nat) (p err : Str)
    (hfree : held < h.openLimit) (hopen : h.openFile p = some err) :
    readRspFile h held p = (.error err, held) := by
  simp [readRspFile, Nat.not_le.2 hfree, hopen]

theorem readRspFile_readError (h : Host) (held : Nat) (p err : Str)
    (hfree : held < h.openLimit) (hopen : h.openFile p = none)
    (hread : h.readAll p = .error err) :
    readRspFile h held p = (.error err, held + 1) := by
  simp [readRspFile, Nat.not_le.2 hfree, hopen, hread]

/-- The call of `readRspFile` closes no file. -/
theorem readRspFile_held_le (h : Host) (held : Nat) (p : Str) :
    held ≤ (readRspFile h held p).2 := by
  by_cases hfull : h.openLimit ≤ held
  · rw [readRspFile_limit h held p hfull]
  · have hfree : held < h.openLimit := Nat.not_le.1 hfull
    cases hopen : h.openFile p with
    | some err => rw [readRspFile_openError h held p err hfree hopen]
    | none =>
      cases hread : h.readAll p with
      | ok content =>
        rw [readRspFile_ok h held p content hfree hopen hread]
        exact Nat.le_succ held
      | error err =>
        rw [readRspFile_readError h held p err hfree hopen hread]
        exact Nat.le_succ held

/-- The call of `readRspFile` gives arguments only when it opened the file:
the process could still open one, and holds one more afterwards. -/
theorem readRspFile_ok_inv (h : Host) (held : Nat) (p : Str) (rspArgs : List Str)
    (held1 : Nat) (hread : readRspFile h held p = (.ok rspArgs, held1)) :
    held < h.openLimit ∧ held1 = held + 1 ∧ h.openFile p = none ∧
      ∃ content, h.readAll p = .ok content ∧ rspArgs = fieldsLoop [] content := by
  by_cases hfull : h.openLimit ≤ held
  · rw [readRspFile_limit h held p hfull] at hread
    simp at hread
  · have hfree : held < h.openLimit := Nat.not_le.1 hfull
    cases hopen : h.openFile p with
    | some err =>
      rw [readRspFile_openError h held p err hfree hopen] at hread
      simp at hread
    | none =>
      cases hrd : h.readAll p with
      | ok content =>
        rw [readRspFile_ok h held p content hfree hopen hrd] at hread
        simp only [Prod.mk.injEq, Except.ok.injEq] at hread
        exact ⟨hfree, hread.2.symm, rfl, content, rfl, hread.1.symm⟩
      | error err =>
        rw [readRspFile_readError h held p err hfree hopen hrd] at hread
        simp at hread

/-- One iteration in the initial state on a response-file reference. -/
theorem scrubStep_rsp (h : Host) (recur : Nat → List Str → Option (Slice × Nat))
    (wdir t p : Str) (held : Nat) (href : matchRspFileArg t = some p) :
    scrubStep h recur wdir ScrubState.stateInitial held t =
      match readRspFile h held p with
      | (.error err, held1) => ScrubStep.next ScrubState.stateInitial [scrubErrorToken err] held1
      | (.ok rspArgs, held1) =>
        match recur held1 rspArgs with
        | none => ScrubStep.diverge
        | some r => ScrubStep.next ScrubState.stateInitial r.1.elems r.2 := by
  obtain ⟨hre, hne, hE⟩ := rtagsScrubRegexp_rsp t p href
  have hflag : scrubFlag h wdir ⟨[], [], [], [], p⟩ [] = ([], ScrubState.stateInitial) := by
    simp [scrubFlag, lit]
  simp [scrubStep, hre, hne, hE, hflag]

theorem scrubStep_rsp_ok (h : Host) (recur : Nat → List Str → Option (Slice × Nat))
    (wdir t p : Str) (held held1 : Nat) (rspArgs : List Str) (r : Slice × Nat)
    (href : matchRspFileArg t = some p) (hread : readRspFile h held p = (.ok rspArgs, held1))
    (hrec : recur held1 rspArgs = some r) :
    scrubStep h recur wdir ScrubState.stateInitial held t
      = ScrubStep.next ScrubState.stateInitial r.1.elems r.2 := by
  rw [scrubStep_rsp h recur wdir t p held href, hread]
  simp [hrec]

theorem scrubStep_rsp_error (h : Host) (recur : Nat → List Str → Option (Slice × Nat))
    (wdir t p err : Str) (held held1 : Nat) (href : matchRspFileArg t = some p)
    (hread : readRspFile h held p = (.error err, held1)) :
    scrubStep h recur wdir ScrubState.stateInitial held t
      = ScrubStep.next ScrubState.stateInitial [scrubErrorToken err] held1 := by
  rw [scrubStep_rsp h recur wdir t p held href, hread]

theorem rtagsScrubRegexp_rspGroup (t : Str) (m : ScrubMatch)
    (hre : rtagsScrubRegexp t = some m) (hno : matchRspFileArg t = none) :
    m.rspFileArgGroup2 = [] := by
  unfold rtagsScrubRegexp at hre
  rw [hno] at hre
  by_cases h1 : t ∈ singleArgFlags
  · simp only [h1, if_true, Option.some.injEq] at hre
    rw [← hre]
  · cases hc : matchCompoundArg compoundArgFlags t with
    | some fv =>
      simp only [h1, hc, if_false, Option.some.injEq] at hre
      rw [← hre]
    | none =>
      by_cases h2 : matchFileArg t = true
      · simp only [h1, hc, h2, if_true, if_false, Option.some.injEq] at hre
        rw [← hre]
      · simp [h1, hc, h2] at hre

/-- One iteration of the loop either returns `nil`, or goes on without
opening a file nor calling the scrub of a response file, or is in the
initial state on a response-file reference. -/
theorem scrubStep_cases (h : Host) (wdir : Str) (st : ScrubState) (t : Str) :
    (∀ recur held, scrubStep h recur wdir st held t = ScrubStep.abort) ∨
    (∃ st1 out, ∀ recur held,
      scrubStep h recur wdir st held t = ScrubStep.next st1 out held) ∨
    (∃ p, st = ScrubState.stateInitial ∧ matchRspFileArg t = some p) := by
  cases st with
  | stateDropNextArg =>
    exact Or.inr (Or.inl ⟨_, _, fun recur _ => scrubStep_dropNext h recur wdir t⟩)
  | stateMakeNextArgRelative =>
    exact Or.inr (Or.inl ⟨_, _, fun recur _ => scrubStep_makeNext h recur wdir t⟩)
  | stateInitial =>
    cases hm : matchRspFileArg t with
    | some p => exact Or.inr (Or.inr ⟨p, rfl, rfl⟩)
    | none =>
      by_cases hE : t = lit "-E"
      · subst hE
        exact Or.inl (fun recur _ => scrubStep_E h recur wdir)
      · right
        left
        cases hre : rtagsScrubRegexp t with
        | none => exact ⟨_, _, fun recur _ => scrubStep_unmatched h recur wdir t hE hre⟩
        | some m =>
          by_cases h5 : m.fileArgGroup = []
          · have h6 : m.rspFileArgGroup2 = [] := rtagsScrubRegexp_rspGroup t m hre hm
            refine ⟨(scrubFlag h wdir m []).2, (scrubFlag h wdir m []).1, fun recur held => ?_⟩
            simp [scrubStep, hE, hre, h5, h6]
          · refine ⟨ScrubState.stateInitial, [makeAbsolutePath h wdir m.fileArgGroup],
              fun recur held => ?_⟩
            simp [scrubStep, hE, hre, h5]

/-- One iteration of the loop closes no file, when the scrub of a response
file closes none. -/
theorem scrubStep_held_le (h : Host) (recur : Nat → List Str → Option (Slice × Nat))
    (wdir : Str) (st : ScrubState) (held : Nat) (t : Str) (st1 : ScrubState)
    (out : List Str) (held1 : Nat)
    (hmono : ∀ hd a r, recur hd a = some r → hd ≤ r.2)
    (hstep : scrubStep h recur wdir st held t = ScrubStep.next st1 out held1) :
    held ≤ held1 := by
  rcases scrubStep_cases h wdir st t with hab | ⟨st2, out2, h2⟩ | ⟨p, hst, href⟩
  · rw [hab] at hstep
    cases hstep
  · rw [h2] at hstep
    simp only [ScrubStep.next.injEq] at hstep
    exact le_of_eq hstep.2.2
  · subst hst
    rw [scrubStep_rsp h recur wdir t p held href] at hstep
    have hle := readRspFile_held_le h held p
    cases hread : readRspFile h held p with
    | mk res hd =>
      rw [hread] at hstep hle
      cases res with
      | error err =>
        simp only [ScrubStep.next.injEq] at hstep
        exact hstep.2.2 ▸ hle
      | ok rspArgs =>
        simp only at hstep
        cases hrec : recur hd rspArgs with
        | none =>
          rw [hrec] at hstep
          cases hstep
        | some r =>
          rw [hrec] at hstep
          simp only [ScrubStep.next.injEq] at hstep
          exact hstep.2.2 ▸ le_trans hle (hmono _ _ _ hrec)

theorem scrubLoop_held_le (h : Host) (recur : Nat → List Str → Option (Slice × Nat))
    (wdir : Str) (hmono : ∀ hd a r, recur hd a = some r → hd ≤ r.2) (args : List Str) :
    ∀ (st : ScrubState) (acc : List Str) (held : Nat) (r : Slice × Nat),
      scrubLoop h recur wdir st acc held args = some r → held ≤ r.2 := by
  induction args with
  | nil =>
    intro st acc held r hr
    simp only [scrubLoop, Option.some.injEq] at hr
    rw [← hr]
  | cons t args ih =>
    intro st acc held r hr
    rw [scrubLoop_cons] at hr
    cases hstep : scrubStep h recur wdir st held t with
    | abort =>
      rw [hstep] at hr
      simp only [Option.some.injEq] at hr
      rw [← hr]
    | diverge =>
      rw [hstep] at hr
      cases hr
    | next st1 out held1 =>
      rw [hstep] at hr
      exact le_trans (scrubStep_held_le h recur wdir st held t st1 out held1 hmono hstep)
        (ih st1 _ held1 r hr)

/-- The scrub closes no file: it holds at least as many open files when it
returns as when it was called. -/
theorem scrubCmdlineRtagsFrom_held_le (h : Host) (wdir : Str) (fuel : Nat) :
    ∀ (held : Nat) (args : List Str) (r : Slice × Nat),
      scrubCmdlineRtagsFrom h wdir fuel held args = some r → held ≤ r.2 := by
  induction fuel with
  | zero =>
    intro held args r hr
    cases hr
  | succ n ih =>
    intro held args r hr
    exact scrubLoop_held_le h _ wdir ih args ScrubState.stateInitial [] held r hr

theorem scrubStep_ne_diverge (h : Host) (recur : Nat → List Str → Option (Slice × Nat))
    (wdir : Str) (st : ScrubState) (held : Nat) (t : Str)
    (hret : ∀ a, held < h.openLimit → ∃ r, recur (held + 1) a = some r) :
    scrubStep h recur wdir st held t ≠ ScrubStep.diverge := by
  rcases scrubStep_cases h wdir st t with hab | ⟨st2, out2, h2⟩ | ⟨p, hst, href⟩
  · rw [hab]
    simp
  · rw [h2]
    simp
  · subst hst
    rw [scrubStep_rsp h recur wdir t p held href]
    cases hread : readRspFile h held p with
    | mk res hd =>
      cases res with
      | error err => simp
      | ok rspArgs =>
        obtain ⟨hfree, hhd, -, -⟩ := readRspFile_ok_inv h held p rspArgs hd hread
        obtain ⟨r, hr⟩ := hret rspArgs hfree
        subst hhd
        simp [hr]

theorem scrubLoop_returns (h : Host) (recur : Nat → List Str → Option (Slice × Nat))
    (wdir : Str) (lo : Nat) (hmono : ∀ hd a r, recur hd a = some r → hd ≤ r.2)
    (hret : ∀ hd a, lo ≤ hd → hd < h.openLimit → ∃ r, recur (hd + 1) a = some r)
    (args : List Str) :
    ∀ (st : ScrubState) (acc : List Str) (held : Nat), lo ≤ held →
      ∃ r, scrubLoop h recur wdir st acc held args = some r := by
  induction args with
  | nil =>
    intro st acc held _
    exact ⟨(Slice.mk acc, held), by simp [scrubLoop]⟩
  | cons t args ih =>
    intro st acc held hlo
    rw [scrubLoop_cons]
    cases hstep : scrubStep h recur wdir st held t with
    | abort => exact ⟨_, rfl⟩
    | diverge =>
      exact absurd hstep
        (scrubStep_ne_diverge h recur wdir st held t (fun a hfree => hret held a hlo hfree))
    | next st1 out held1 =>
      exact ih st1 _ held1
        (le_trans hlo (scrubStep_held_le h recur wdir st held t st1 out held1 hmono hstep))

/-- The scrub returns when the bound on the depth of the calls is above the
number of files that the process can still open: every nested call holds
one more file open, and a response file that cannot be opened is not
scrubbed. -/
theorem scrubCmdlineRtagsFrom_returns (h : Host) (wdir : Str) (fuel : Nat) :
    ∀ (held : Nat) (args : List Str), h.openLimit - held < fuel →
      ∃ r, scrubCmdlineRtagsFrom h wdir fuel held args = some r := by
  induction fuel with
  | zero =>
    intro held args hf
    exact absurd hf (Nat.not_lt_zero _)
  | succ n ih =>
    intro held args hf
    exact scrubLoop_returns h _ wdir held (scrubCmdlineRtagsFrom_held_le h wdir n)
      (fun hd a hlo hfree => ih (hd + 1) a (by omega)) args ScrubState.stateInitial [] held
      (le_refl held)

theorem scrubStep_recur_mono (h : Host) (recur recur2 : Nat → List Str → Option (Slice × Nat))
    (wdir : Str) (st : ScrubState) (held : Nat) (t : Str)
    (hsub : ∀ hd a r, recur hd a = some r → recur2 hd a = some r)
    (hnd : scrubStep h recur wdir st held t ≠ ScrubStep.diverge) :
    scrubStep h recur2 wdir st held t = scrubStep h recur wdir st held t := by
  rcases scrubStep_cases h wdir st t with hab | ⟨st2, out2, h2⟩ | ⟨p, hst, href⟩
  · rw [hab, hab]
  · rw [h2, h2]
  · subst hst
    rw [scrubStep_rsp h recur wdir t p held href] at hnd ⊢
    rw [scrubStep_rsp h recur2 wdir t p held href]
    cases hread : readRspFile h held p with
    | mk res hd =>
      rw [hread] at hnd
      cases res with
      | error err => rfl
      | ok rspArgs =>
        simp only at hnd ⊢
        cases hrec : recur hd rspArgs with
        | none =>
          rw [hrec] at hnd
          exact absurd rfl hnd
        | some r => rw [hsub _ _ _ hrec]

theorem scrubLoop_recur_mono (h : Host) (recur recur2 : Nat → List Str → Option (Slice × Nat))
    (wdir : Str) (hsub : ∀ hd a r, recur hd a = some r → recur2 hd a = some r)
    (args : List Str) :
    ∀ (st : ScrubState) (acc : List Str) (held : Nat) (r : Slice × Nat),
      scrubLoop h recur wdir st acc held args = some r →
      scrubLoop h recur2 wdir st acc held args = some r := by
  induction args with
  | nil =>
    intro st acc held r hr
    simpa [scrubLoop] using hr
  | cons t args ih =>
    intro st acc held r hr
    rw [scrubLoop_cons] at hr ⊢
    have hnd : scrubStep h recur wdir st held t ≠ ScrubStep.diverge := by
      intro hd
      rw [hd] at hr
      cases hr
    rw [scrubStep_recur_mono h recur recur2 wdir st held t hsub hnd]
    cases hstep : scrubStep h recur wdir st held t with
    | abort =>
      rw [hstep] at hr
      exact hr
    | diverge => exact absurd hstep hnd
    | next st1 out held1 =>
      rw [hstep] at hr
      exact ih st1 _ held1 r hr

/-- A result of the scrub does not depend on the bound on the depth of the
calls: a larger bound gives the same result. -/
theorem scrubCmdlineRtagsFrom_fuel_succ (h : Host) (wdir : Str) (fuel : Nat) :
    ∀ (held : Nat) (args : List Str) (r : Slice × Nat),
      scrubCmdlineRtagsFrom h wdir fuel held args = some r →
      scrubCmdlineRtagsFrom h wdir (fuel + 1) held args = some r := by
  induction fuel with
  | zero =>
    intro held args r hr
    cases hr
  | succ n ih =>
    intro held args r hr
    exact scrubLoop_recur_mono h _ _ wdir ih args ScrubState.stateInitial [] held r hr

/-- C14, as the code has it: a token `@path` whose path ends in `.rsp`, with
no line feed before that suffix, is a response-file reference, and no other
token is.  `readRspFile` does not close the file it opens, so the scrub is
followed with the number `held` of files it holds open (`scrubCmdlineRtags`
is the case `held = 0`), under a bound on the depth of the calls that is
at least the number of files the process can still open.  Met in the
initial state, when `readRspFile` gives the white-space-separated fields of
the file, the scrub of these fields returns, its tokens (none when it is
empty or `nil`) stand in place of the reference, and the rest of the vector
is scrubbed after them; when `readRspFile` gives an error, the one token
`-rtags-scrub-error "<error text>"` stands in place of the reference and the
rest is scrubbed after it.  `readRspFile` gives the fields when the process
can still open a file and the file is opened and read. -/
theorem scrub_response_file (h : Host) (wdir : Str) (fuel held : Nat) (t p : Str)
    (rest : List Str) (href : matchRspFileArg t = some p)
    (hfuel : h.openLimit - held ≤ fuel) :
    (∀ rspArgs held1, readRspFile h held p = (.ok rspArgs, held1) →
      ∃ r out,
        scrubCmdlineRtagsFrom h wdir fuel held1 rspArgs = some r ∧
        scrubCmdlineRtagsFrom h wdir (fuel + 1) r.2 rest = some out ∧
        scrubCmdlineRtagsFrom h wdir (fuel + 1) held (t :: rest)
          = some (prependHeld r.1.elems out)) ∧
    (∀ err held1, readRspFile h held p = (.error err, held1) →
      ∃ out,
        scrubCmdlineRtagsFrom h wdir (fuel + 1) held1 rest = some out ∧
        scrubCmdlineRtagsFrom h wdir (fuel + 1) held (t :: rest)
          = some (prependHeld [lit "-rtags-scrub-error \"" ++ err ++ lit "\""] out)) ∧
    (∀ content, held < h.openLimit → h.openFile p = none → h.readAll p = .ok content →
      readRspFile h held p = (.ok (fieldsLoop [] content), held + 1)) ∧
    (∀ a q : Str, matchRspFileArg a = some q ↔
      a = '@' :: q ∧ ∃ stem, q = stem ++ lit ".rsp" ∧ '\n' ∉ stem) := by
  refine ⟨fun rspArgs held1 hread => ?_, fun err held1 hread => ?_,
    fun content hfree hopen hrd => readRspFile_ok h held p content hfree hopen hrd,
    matchRspFileArg_iff⟩
  · obtain ⟨hfree, hhd, -, -⟩ := readRspFile_ok_inv h held p rspArgs held1 hread
    subst hhd
    obtain ⟨r, hr⟩ := scrubCmdlineRtagsFrom_returns h wdir fuel (held + 1) rspArgs (by omega)
    have hle := scrubCmdlineRtagsFrom_held_le h wdir fuel _ _ _ hr
    obtain ⟨out, hout⟩ := scrubCmdlineRtagsFrom_returns h wdir (fuel + 1) r.2 rest (by omega)
    refine ⟨r, out, hr, hout, ?_⟩
    simp only [scrubCmdlineRtagsFrom] at hout ⊢
    rw [scrubLoop_cons, scrubStep_rsp_ok h _ wdir t p held (held + 1) rspArgs r href hread hr]
    simp only [List.nil_append]
    rw [scrubLoop_acc, hout]
    rfl
  · have hle : held ≤ held1 := by
      have := readRspFile_held_le h held p
      rw [hread] at this
      exact this
    obtain ⟨out, hout⟩ := scrubCmdlineRtagsFrom_returns h wdir (fuel + 1) held1 rest (by omega)
    refine ⟨out, hout, ?_⟩
    simp only [scrubCmdlineRtagsFrom] at hout ⊢
    rw [scrubLoop_cons, scrubStep_rsp_error h _ wdir t p err held held1 href hread]
    simp only [List.nil_append]
    rw [scrubLoop_acc, hout]
    rfl

theorem scrub_response_file_witness :
    matchRspFileArg (lit "@args.rsp") = some (lit "args.rsp") ∧
    rspHost.openLimit - 0 ≤ 4 ∧
    readRspFile rspHost 0 (lit "args.rsp") = (.ok [lit "-Ifoo", lit "-DX=1"], 1) ∧
    (∃ r out,
      scrubCmdlineRtagsFrom rspHost (lit "/wd") 4 1 [lit "-Ifoo", lit "-DX=1"] = some r ∧
      scrubCmdlineRtagsFrom rspHost (lit "/wd") (4 + 1) r.2 [lit "bar.c"] = some out ∧
      scrubCmdlineRtagsFrom rspHost (lit "/wd") (4 + 1) 0 [lit "@args.rsp", lit "bar.c"]
        = some (prependHeld r.1.elems out)) ∧
    scrubCmdlineRtags rspHost (lit "/wd") 5 [lit "@args.rsp", lit "bar.c"]
      = some (Slice.mk [lit "-I/wd/foo", lit "-DX=1", lit "/wd/bar.c"]) ∧
    scrubCmdlineRtags rspHost (lit "/wd") 5 [lit "@pre.rsp", lit "bar.c"]
      = some (Slice.mk [lit "/wd/bar.c"]) ∧
    scrubCmdlineRtags rspHost (lit "/wd") 5 [lit "@gone.rsp", lit "bar.c"]
      = some (Slice.mk [lit "-rtags-scrub-error \"open gone.rsp: no such file or directory\"",
          lit "/wd/bar.c"]) ∧
    scrubCmdlineRtags rspHost (lit "/wd") 5 [lit "@dir.rsp", lit "bar.c"]
      = some (Slice.mk [lit "-rtags-scrub-error \"read dir.rsp: is a directory\"",
          lit "/wd/bar.c"]) ∧
    scrubCmdlineRtags rspHost (lit "/wd") 5 [lit "@loop.rsp", lit "bar.c"]
      = some (Slice.mk [lit "-rtags-scrub-error \"open loop.rsp: too many open files\"",
          lit "/wd/bar.c"]) :=
  ⟨by decide, by decide, rfl,
    (scrub_response_file rspHost (lit "/wd") 4 0 (lit "@args.rsp") (lit "args.rsp")
      [lit "bar.c"] (by decide) (by decide)).1 [lit "-Ifoo", lit "-DX=1"] 1 rfl,
    by decide, by decide, by decide, by decide, by decide⟩

/-- C14 as stated fails: a token `@path` whose path does not end in `.rsp` is
no response-file reference for the code.  The file `args.txt` can be opened
and read and holds `-DX=1`, yet `@args.txt` is passed through as it is
instead of being replaced by `-DX=1`; and `@defs.c`, whose file cannot be
opened, is taken for a source file and made absolute instead of being
replaced by a diagnostic token. -/
theorem scrub_response_file_counterexample :
    rspHost.openFile (lit "args.txt") = none ∧
    rspHost.readAll (lit "args.txt") = .ok (lit "-DX=1") ∧
    scrubCmdlineRtags rspHost (lit "/wd") 5 [lit "-DX=1"] = some (Slice.mk [lit "-DX=1"]) ∧
    scrubCmdlineRtags rspHost (lit "/wd") 5 [lit "@args.txt", lit "bar.c"]
      = some (Slice.mk [lit "@args.txt", lit "/wd/bar.c"]) ∧
    scrubCmdlineRtags rspHost (lit "/wd") 5 [lit "@args.txt", lit "bar.c"]
      ≠ some (Slice.mk [lit "-DX=1", lit "/wd/bar.c"]) ∧
    rspHost.openFile (lit "defs.c") = some (lit "open defs.c: no such file or directory") ∧
    scrubCmdlineRtags rspHost (lit "/wd") 5 [lit "@defs.c"]
      = some (Slice.mk [lit "/wd/@defs.c"]) := by
  refine ⟨rfl, rfl, by decide, by decide, by decide, rfl, by decide⟩

/-! ## `Environment.Expand` -/

theorem matchEnvRefClose_spec (s body after : Str)
    (hm : matchEnvRefClose s = some (body, after)) :
    s = body ++ ')' :: after ∧ ')' ∉ body ∧ '\n' ∉ body := by
  induction s generalizing body with
  | nil => simp [matchEnvRefClose] at hm
  | cons c rest ih =>
    unfold matchEnvRefClose at hm
    by_cases hc : c = ')'
    · simp only [hc, if_true, Option.some.injEq, Prod.mk.injEq] at hm
      obtain ⟨hb, ha⟩ := hm
      subst hb ha
      simp [hc]
    · by_cases hn : c = '\n'
      · simp [hc, hn] at hm
      · simp only [hc, hn, if_false] at hm
        cases hrec : matchEnvRefClose rest with
        | none => simp [hrec] at hm
        | some ba =>
          obtain ⟨b, a⟩ := ba
          simp only [hrec, Option.some.injEq, Prod.mk.injEq] at hm
          obtain ⟨hb, ha⟩ := hm
          subst hb ha
          obtain ⟨h1, h2, h3⟩ := ih b hrec
          refine ⟨by simp [h1], ?_, ?_⟩
          · simp only [List.mem_cons, not_or]
            exact ⟨fun h0 => hc h0.symm, h2⟩
          · simp only [List.mem_cons, not_or]
            exact ⟨fun h0 => hn h0.symm, h3⟩

/-- A match of `envExpandRegexp` is a sigil, an opening parenthesis, a
non-empty name without line feed and a closing parenthesis; `refName` gives
the name back. -/
theorem matchEnvRef_spec (s m after : Str) (hm : matchEnvRef s = some (m, after)) :
    s = m ++ after ∧
    ∃ sigil name, m = sigil :: '(' :: (name ++ [')']) ∧ (sigil = '$' ∨ sigil = '@') ∧
      name ≠ [] ∧ '\n' ∉ name ∧ refName m = name := by
  unfold matchEnvRef at hm
  split at hm
  · rename_i sigil c rest
    split at hm
    · rename_i hcond
      cases hrec : matchEnvRefClose rest with
      | none => simp [hrec] at hm
      | some ba =>
        obtain ⟨b, a⟩ := ba
        simp only [hrec, Option.some.injEq, Prod.mk.injEq] at hm
        obtain ⟨hb, ha⟩ := hm
        subst hb ha
        obtain ⟨h1, -, h3⟩ := matchEnvRefClose_spec rest b a hrec
        refine ⟨by simp [h1], sigil, c :: b, by simp, hcond.1, by simp, ?_, ?_⟩
        · simp only [List.mem_cons, not_or]
          exact ⟨fun h0 => hcond.2 h0.symm, h3⟩
        · simp [refName]
    · exact absurd hm (by simp)
  · exact absurd hm (by simp)

theorem matchEnvRef_after_length (s m after : Str) (hm : matchEnvRef s = some (m, after)) :
    after.length < s.length := by
  obtain ⟨hs, sigil, name, hmm, -, -, -, -⟩ := matchEnvRef_spec s m after hm
  rw [hs, hmm]
  simp
  omega

theorem envRefPieces_flatten (fuel : Nat) :
    ∀ s : Str, s.length ≤ fuel → ((envRefPieces fuel s).map Prod.snd).flatten = s := by
  induction fuel with
  | zero =>
    intro s hs
    have : s = [] := List.length_eq_zero.1 (Nat.le_zero.1 hs)
    subst this
    rfl
  | succ n ih =>
    intro s hs
    cases s with
    | nil => rfl
    | cons c cs =>
      unfold envRefPieces
      cases hm : matchEnvRef (c :: cs) with
      | none =>
        simp only [List.map_cons, List.flatten_cons, List.singleton_append]
        rw [ih cs (by simpa using hs)]
      | some ma =>
        obtain ⟨m, after⟩ := ma
        have hlen := matchEnvRef_after_length _ _ _ hm
        have hs2 := (matchEnvRef_spec _ _ _ hm).1
        simp only [List.map_cons, List.flatten_cons]
        rw [ih after (by simp at hs hlen; omega), ← hs2]

theorem replaceAllEnvRefs_pieces (f : Str → Str) (fuel : Nat) :
    ∀ s : Str, s.length ≤ fuel →
      replaceAllEnvRefs f fuel s
        = ((envRefPieces fuel s).map (fun p => if p.1 = true then f p.2 else p.2)).flatten := by
  induction fuel with
  | zero =>
    intro s hs
    have : s = [] := List.length_eq_zero.1 (Nat.le_zero.1 hs)
    subst this
    rfl
  | succ n ih =>
    intro s hs
    cases s with
    | nil => rfl
    | cons c cs =>
      unfold envRefPieces replaceAllEnvRefs
      cases hm : matchEnvRef (c :: cs) with
      | none =>
        simp only [List.map_cons, List.flatten_cons, Bool.false_eq_true, if_false,
          List.singleton_append]
        rw [ih cs (by simpa using hs)]
      | some ma =>
        obtain ⟨m, after⟩ := ma
        have hlen := matchEnvRef_after_length _ _ _ hm
        simp only [List.map_cons, List.flatten_cons, if_true]
        rw [ih after (by simp at hs hlen; omega)]

theorem expandRef_unset (h : Host) (env : Environment) (m : Str)
    (hunset : env.Get (refName m) = []) : expandRef h env m = m := by
  simp only [refName] at hunset
  simp [expandRef, hunset]

theorem envRefPieces_shape (fuel : Nat) :
    ∀ s : Str, ∀ p ∈ envRefPieces fuel s,
      (p.1 = true → ∃ sigil name, p.2 = sigil :: '(' :: (name ++ [')']) ∧
        (sigil = '$' ∨ sigil = '@') ∧ name ≠ [] ∧ '\n' ∉ name ∧ refName p.2 = name) ∧
      (p.1 = false → ∃ c, p.2 = [c]) := by
  induction fuel with
  | zero => intro s p hp; simp [envRefPieces] at hp
  | succ n ih =>
    intro s p hp
    cases s with
    | nil => simp [envRefPieces] at hp
    | cons c cs =>
      unfold envRefPieces at hp
      cases hm : matchEnvRef (c :: cs) with
      | none =>
        simp only [hm, List.mem_cons] at hp
        rcases hp with rfl | hp
        · exact ⟨fun h0 => absurd h0 (by simp), fun _ => ⟨c, rfl⟩⟩
        · exact ih cs p hp
      | some ma =>
        obtain ⟨m, after⟩ := ma
        simp only [hm, List.mem_cons] at hp
        rcases hp with rfl | hp
        · exact ⟨fun _ => (matchEnvRef_spec _ _ _ hm).2, fun h0 => absurd h0 (by simp)⟩
        · exact ih after p hp

/-- C15: `Expand` is total; it splits the text into the matches of
`envExpandRegexp` (a sigil `$` or `@`, a parenthesised non-empty name without
line feed) and the runes outside them, copies these runes unchanged, and
leaves verbatim every match whose name reads as the empty string in the
environment.  When no name referenced in the text is set, the text comes
back unchanged; `Expand("$(X)")` is `$(X)` when `X` is not set. -/
theorem expand_leaves_unset_references :
    (∀ (h : Host) (env : Environment) (s : Str),
      ((envRefPieces s.length s).map Prod.snd).flatten = s ∧
      env.Expand h s = ((envRefPieces s.length s).map (fun p =>
        if p.1 = true ∧ env.Get (refName p.2) ≠ [] then expandRef h env p.2
        else p.2)).flatten) ∧
    (∀ (s : Str), ∀ p ∈ envRefPieces s.length s,
      (p.1 = true → ∃ sigil name, p.2 = sigil :: '(' :: (name ++ [')']) ∧
        (sigil = '$' ∨ sigil = '@') ∧ name ≠ [] ∧ '\n' ∉ name ∧ refName p.2 = name) ∧
      (p.1 = false → ∃ c, p.2 = [c])) ∧
    (∀ (h : Host) (env : Environment) (s : Str),
      (∀ p ∈ envRefPieces s.length s, p.1 = true → env.Get (refName p.2) = []) →
      env.Expand h s = s) ∧
    (∀ (h : Host) (env : Environment), env.Get (lit "X") = [] →
      env.Expand h (lit "$(X)") = lit "$(X)") ∧
    exampleEnv.Expand exampleHost (lit "-DCC=$(CC) $(UNSET)/@(ALSO_UNSET)")
      = lit "-DCC=/usr/bin/gcc $(UNSET)/@(ALSO_UNSET)" := by
  have hexp : ∀ (h : Host) (env : Environment) (s : Str),
      env.Expand h s = ((envRefPieces s.length s).map (fun p =>
        if p.1 = true ∧ env.Get (refName p.2) ≠ [] then expandRef h env p.2
        else p.2)).flatten := by
    intro h env s
    rw [Environment.Expand, replaceAllEnvRefs_pieces _ _ s (Nat.le_refl _)]
    congr 1
    apply List.map_congr_left
    intro p _
    by_cases hp : p.1 = true
    · by_cases hv : env.Get (refName p.2) = []
      · simp [hp, hv, expandRef_unset h env p.2 hv]
      · simp [hp, hv]
    · simp [hp]
  have hall : ∀ (h : Host) (env : Environment) (s : Str),
      (∀ p ∈ envRefPieces s.length s, p.1 = true → env.Get (refName p.2) = []) →
      env.Expand h s = s := by
    intro h env s hunset
    rw [hexp]
    conv_rhs => rw [← envRefPieces_flatten s.length s (Nat.le_refl _)]
    congr 1
    apply List.map_congr_left
    intro p hp
    by_cases hp1 : p.1 = true
    · simp [hunset p hp hp1]
    · simp [hp1]
  refine ⟨fun h env s => ⟨envRefPieces_flatten _ s (Nat.le_refl _), hexp h env s⟩,
    fun s => envRefPieces_shape _ s, hall, ?_, by decide⟩
  intro h env hX
  apply hall
  intro p hp _
  have hpieces : envRefPieces (lit "$(X)").length (lit "$(X)") = [(true, lit "$(X)")] := by
    decide
  rw [hpieces] at hp
  simp only [List.mem_singleton] at hp
  subst hp
  exact hX

/-! ## `filepath.Clean` on rooted paths -/

theorem splitSlash_no_slash (s : Str) : ∀ e ∈ splitSlash s, '/' ∉ e := by
  induction s with
  | nil => simp [splitSlash]
  | cons c cs ih =>
    intro e he
    unfold splitSlash at he
    by_cases hc : c = '/'
    · simp only [hc, if_true, List.mem_cons] at he
      rcases he with rfl | he
      · simp
      · exact ih e he
    · simp only [hc, if_false] at he
      cases hsp : splitSlash cs with
      | nil =>
        simp only [hsp, List.mem_singleton] at he
        subst he
        simp [Ne.symm hc]
      | cons x xs =>
        simp only [hsp, List.mem_cons] at he
        rcases he with rfl | he
        · have hx := ih x (by simp [hsp])
          simp only [List.mem_cons, not_or]
          exact ⟨Ne.symm hc, hx⟩
        · exact ih e (by simp [hsp, he])

theorem splitSlash_of_no_slash (e : Str) (he : '/' ∉ e) : splitSlash e = [e] := by
  induction e with
  | nil => rfl
  | cons c cs ih =>
    simp only [List.mem_cons, not_or] at he
    have hc : ¬ c = '/' := fun h0 => he.1 h0.symm
    simp [splitSlash, hc, ih he.2]

theorem splitSlash_append_slash (e r : Str) (he : '/' ∉ e) :
    splitSlash (e ++ '/' :: r) = e :: splitSlash r := by
  induction e with
  | nil => simp [splitSlash]
  | cons c cs ih =>
    simp only [List.mem_cons, not_or] at he
    have hc : ¬ c = '/' := fun h0 => he.1 h0.symm
    simp [splitSlash, hc, ih he.2]

theorem intercalate_cons_cons (sep e e2 : Str) (es : List Str) :
    sep.intercalate (e :: e2 :: es) = e ++ sep ++ sep.intercalate (e2 :: es) := by
  simp [List.intercalate, List.intersperse]

theorem splitSlash_intercalate (out : List Str) (hout : ∀ e ∈ out, '/' ∉ e)
    (hne : out ≠ []) : splitSlash (['/'].intercalate out) = out := by
  induction out with
  | nil => exact absurd rfl hne
  | cons e es ih =>
    cases es with
    | nil =>
      have : ['/'].intercalate [e] = e := by simp [List.intercalate, List.intersperse]
      rw [this, splitSlash_of_no_slash e (hout e (by simp))]
    | cons e2 es =>
      rw [intercalate_cons_cons, List.append_assoc, List.singleton_append,
        splitSlash_append_slash e _ (hout e (by simp)),
        ih (fun a ha => hout a (by simp [ha])) (by simp)]

theorem cleanStep_real (rooted : Bool) (st : Nat × List Str) (e : Str) (he : isRealElem e) :
    cleanStep rooted st e = (st.1, st.2 ++ [e]) := by
  obtain ⟨h1, h2, h3, -⟩ := he
  simp [cleanStep, h1, h2, h3]

theorem foldl_cleanStep_real (rooted : Bool) (l : List Str) (hl : ∀ e ∈ l, isRealElem e) :
    ∀ st : Nat × List Str, l.foldl (cleanStep rooted) st = (st.1, st.2 ++ l) := by
  induction l with
  | nil => intro st; simp
  | cons e l ih =>
    intro st
    rw [List.foldl_cons, cleanStep_real rooted st e (hl e (by simp)),
      ih (fun a ha => hl a (by simp [ha]))]
    simp

theorem cleanStep_rooted_inv (st : Nat × List Str) (elem : Str) (helem : '/' ∉ elem)
    (h0 : st.1 = 0) (hreal : ∀ e ∈ st.2, isRealElem e) :
    (cleanStep true st elem).1 = 0 ∧ ∀ e ∈ (cleanStep true st elem).2, isRealElem e := by
  obtain ⟨k, l⟩ := st
  simp only at h0 hreal
  subst h0
  unfold cleanStep
  by_cases h1 : elem = []
  · rw [if_pos h1]
    exact ⟨rfl, hreal⟩
  · rw [if_neg h1]
    by_cases h2 : elem = ['.']
    · rw [if_pos h2]
      exact ⟨rfl, hreal⟩
    · rw [if_neg h2]
      by_cases h3 : elem = ['.', '.']
      · rw [if_pos h3]
        by_cases h4 : (0, l).1 < (0, l).2.length
        · rw [if_pos h4]
          exact ⟨rfl, fun e he => hreal e (List.mem_of_mem_dropLast he)⟩
        · rw [if_neg h4]
          exact ⟨rfl, hreal⟩
      · rw [if_neg h3]
        refine ⟨rfl, fun e he => ?_⟩
        rcases List.mem_append.1 he with he | he
        · exact hreal e he
        · rw [List.mem_singleton.1 he]
          exact ⟨h1, h2, h3, helem⟩

theorem foldl_cleanStep_rooted_inv (l : List Str) (hl : ∀ e ∈ l, '/' ∉ e) :
    ∀ st : Nat × List Str, st.1 = 0 → (∀ e ∈ st.2, isRealElem e) →
      (l.foldl (cleanStep true) st).1 = 0 ∧
        ∀ e ∈ (l.foldl (cleanStep true) st).2, isRealElem e := by
  induction l with
  | nil => intro st h0 hreal; exact ⟨h0, hreal⟩
  | cons x l ih =>
    intro st h0 hreal
    obtain ⟨h1, h2⟩ := cleanStep_rooted_inv st x (hl x (by simp)) h0 hreal
    exact ih (fun a ha => hl a (by simp [ha])) _ h1 h2

/-- The result of `filepath.Clean` on a rooted path: a slash followed by real
elements joined by slashes. -/
theorem filepathClean_rooted_form (p : Str) :
    ∃ out : List Str, (∀ e ∈ out, isRealElem e) ∧
      filepathClean ('/' :: p) = '/' :: ['/'].intercalate out := by
  refine ⟨((splitSlash ('/' :: p)).foldl (cleanStep true) (0, [])).2, ?_, ?_⟩
  · exact (foldl_cleanStep_rooted_inv _ (splitSlash_no_slash _) (0, []) rfl (by simp)).2
  · simp [filepathClean, filepathIsAbs]

theorem filepathClean_of_real (out : List Str) (hout : ∀ e ∈ out, isRealElem e) :
    filepathClean ('/' :: ['/'].intercalate out) = '/' :: ['/'].intercalate out := by
  have hsplit : splitSlash ('/' :: ['/'].intercalate out)
      = [] :: splitSlash (['/'].intercalate out) := by
    simp [splitSlash]
  have hfold : ((splitSlash ('/' :: ['/'].intercalate out)).foldl (cleanStep true) (0, [])).2
      = out := by
    rw [hsplit, List.foldl_cons]
    have h0 : cleanStep true (0, []) [] = (0, []) := by simp [cleanStep]
    rw [h0]
    cases out with
    | nil =>
      have : ['/'].intercalate ([] : List Str) = [] := by simp [List.intercalate]
      rw [this]
      simp [splitSlash, cleanStep]
    | cons e es =>
      rw [splitSlash_intercalate _ (fun a ha => (hout a ha).2.2.2) (by simp),
        foldl_cleanStep_real true _ hout]
      simp
  simp only [filepathClean, filepathIsAbs, if_true, hfold]
  simp

/-- `filepath.Clean` is idempotent on rooted paths. -/
theorem filepathClean_idem_rooted (p : Str) :
    filepathClean (filepathClean ('/' :: p)) = filepathClean ('/' :: p) := by
  obtain ⟨out, hout, hform⟩ := filepathClean_rooted_form p
  rw [hform, filepathClean_of_real out hout]

/-! ## The two sigils of `Expand` -/

theorem matchEnvRefClose_of_clean (b after : Str) (h1 : ')' ∉ b) (h2 : '\n' ∉ b) :
    matchEnvRefClose (b ++ ')' :: after) = some (b, after) := by
  induction b with
  | nil => simp [matchEnvRefClose]
  | cons c b ih =>
    simp only [List.mem_cons, not_or] at h1 h2
    have hc1 : ¬ c = ')' := fun h0 => h1.1 h0.symm
    have hc2 : ¬ c = '\n' := fun h0 => h2.1 h0.symm
    simp [matchEnvRefClose, hc1, hc2, ih h1.2 h2.2]

theorem matchEnvRef_whole (sigil : Char) (n : Str) (hs : sigil = '$' ∨ sigil = '@')
    (hn : n ≠ []) (hnl : '\n' ∉ n) (hp : ')' ∉ n) :
    matchEnvRef (sigil :: '(' :: (n ++ [')'])) = some (sigil :: '(' :: (n ++ [')']), []) := by
  obtain ⟨c, b, rfl⟩ := List.exists_cons_of_ne_nil hn
  simp only [List.mem_cons, not_or] at hnl hp
  have hc : c ≠ '\n' := fun h0 => hnl.1 h0.symm
  simp only [List.cons_append, matchEnvRef, hs, hc, ne_eq, not_false_eq_true, and_self,
    if_true, matchEnvRefClose_of_clean b [] hp.2 hnl.2]

theorem replaceAllEnvRefs_nil (f : Str → Str) (k : Nat) : replaceAllEnvRefs f k [] = [] := by
  cases k <;> rfl

theorem refName_whole (sigil : Char) (n : Str) :
    refName (sigil :: '(' :: (n ++ [')'])) = n := by
  simp [refName]

theorem expandRef_eq (h : Host) (env : Environment) (m : Str) :
    expandRef h env m
      = if env.Get (refName m) = [] then m
        else if m.head? = some '@' ∧ filepathIsAbs (env.Get (refName m)) = false then
          match filepathAbs h.getwd
            (filepathJoin (env.Get (lit ".cdir")) (env.Get (refName m))) with
          | some t => t
          | none => env.Get (refName m)
        else env.Get (refName m) := rfl

theorem expand_single_ref (h : Host) (env : Environment) (sigil : Char) (n : Str)
    (hs : sigil = '$' ∨ sigil = '@') (hn : n ≠ []) (hnl : '\n' ∉ n) (hp : ')' ∉ n) :
    env.Expand h (sigil :: '(' :: (n ++ [')']))
      = expandRef h env (sigil :: '(' :: (n ++ [')'])) := by
  simp only [Environment.Expand, List.length_cons, replaceAllEnvRefs,
    matchEnvRef_whole sigil n hs hn hnl hp, replaceAllEnvRefs_nil, List.append_nil]

theorem filepathJoin_of_abs (d v : Str) (hd : filepathIsAbs d = true) :
    filepathJoin d v = filepathClean (d ++ lit "/" ++ v) ∧
    filepathIsAbs (filepathJoin d v) = true ∧
    filepathClean (filepathJoin d v) = filepathJoin d v := by
  cases d with
  | nil => simp [filepathIsAbs] at hd
  | cons c w =>
    have hc : c = '/' := by
      by_contra hne
      simp [filepathIsAbs, hne] at hd
    subst hc
    have hj : filepathJoin ('/' :: w) v = filepathClean ('/' :: (w ++ '/' :: v)) := by
      simp [filepathJoin]
    refine ⟨by rw [hj]; simp [lit], ?_, ?_⟩
    · rw [hj]
      exact filepathClean_rooted _
    · rw [hj]
      exact filepathClean_idem_rooted _

/-- C16: when the name `n` (not empty, without line feed or closing
parenthesis, such as `X`) has the non-empty value `v` and `.cdir` is an
absolute directory `d`, `Expand("@(n)")` is `v` when `v` is absolute and
`filepath.Join(d, v)`, the cleaned `d/v`, when `v` is relative, whereas
`Expand("$(n)")` is `v` in both cases. -/
theorem expand_path_sigil (h : Host) (env : Environment) (n : Str) (hn : n ≠ [])
    (hnl : '\n' ∉ n) (hp : ')' ∉ n) (hv : env.Get n ≠ [])
    (hd : filepathIsAbs (env.Get (lit ".cdir")) = true) :
    env.Expand h (lit "@(" ++ n ++ lit ")")
      = (if filepathIsAbs (env.Get n) = true then env.Get n
         else filepathJoin (env.Get (lit ".cdir")) (env.Get n)) ∧
    env.Expand h (lit "$(" ++ n ++ lit ")") = env.Get n ∧
    filepathJoin (env.Get (lit ".cdir")) (env.Get n)
      = filepathClean (env.Get (lit ".cdir") ++ lit "/" ++ env.Get n) := by
  have hat : lit "@(" ++ n ++ lit ")" = '@' :: '(' :: (n ++ [')']) := rfl
  have hdollar : lit "$(" ++ n ++ lit ")" = '$' :: '(' :: (n ++ [')']) := rfl
  obtain ⟨hj1, hj2, hj3⟩ := filepathJoin_of_abs (env.Get (lit ".cdir")) (env.Get n) hd
  refine ⟨?_, ?_, hj1⟩
  · rw [hat, expand_single_ref h env '@' n (Or.inr rfl) hn hnl hp, expandRef_eq,
      refName_whole]
    simp only [hv, if_false, List.head?_cons, true_and]
    by_cases habs : filepathIsAbs (env.Get n) = true
    · simp [habs]
    · simp only [Bool.not_eq_true] at habs
      simp [habs, filepathAbs, hj2, hj3]
  · rw [hdollar, expand_single_ref h env '$' n (Or.inl rfl) hn hnl hp, expandRef_eq,
      refName_whole]
    simp [hv]

theorem expand_path_sigil_witness :
    lit "X" ≠ [] ∧ '\n' ∉ lit "X" ∧ ')' ∉ lit "X" ∧ examplePathEnv.Get (lit "X") ≠ [] ∧
    filepathIsAbs (examplePathEnv.Get (lit ".cdir")) = true ∧
    examplePathEnv.Expand exampleHost (lit "@(X)") = lit "/opt/pear/sub/dir" ∧
    examplePathEnv.Expand exampleHost (lit "$(X)") = lit "sub/dir" ∧
    examplePathEnv.Expand exampleHost (lit "@(ABS)") = lit "/usr/lib" :=
  ⟨by decide, by decide, by decide, by decide, by decide,
    (expand_path_sigil exampleHost examplePathEnv (lit "X") (by decide) (by decide)
      (by decide) (by decide) (by decide)).1.trans (by decide),
    (expand_path_sigil exampleHost examplePathEnv (lit "X") (by decide) (by decide)
      (by decide) (by decide) (by decide)).2.1.trans (by decide),
    by decide⟩

/-! ## Idempotence of the scrub -/

theorem isStableBlock_nil (h : Host) (wdir : Str) : isStableBlock h wdir [] := by
  intro recur acc held rest
  simp

theorem isStableBlock_of_step (h : Host) (wdir t : Str)
    (hstep : ∀ recur held, scrubStep h recur wdir ScrubState.stateInitial held t
      = ScrubStep.next ScrubState.stateInitial [t] held) : isStableBlock h wdir [t] := by
  intro recur acc held rest
  rw [List.singleton_append, scrubLoop_cons, hstep]

theorem isStableBlock_append (h : Host) (wdir : Str) (a b : List Str)
    (ha : isStableBlock h wdir a) (hb : isStableBlock h wdir b) :
    isStableBlock h wdir (a ++ b) := by
  intro recur acc held rest
  rw [List.append_assoc, ha, hb, List.append_assoc]

theorem filepathIsAbs_iff (s : Str) : filepathIsAbs s = true ↔ ∃ p, s = '/' :: p := by
  cases s with
  | nil => simp [filepathIsAbs]
  | cons c cs =>
    by_cases hc : c = '/'
    · subst hc
      simp [filepathIsAbs]
    · constructor
      · intro habs
        simp [filepathIsAbs, hc] at habs
      · rintro ⟨p, hp⟩
        simp only [List.cons.injEq] at hp
        exact absurd hp.1 hc

theorem filepathIsAbs_eq_false_of_ne (c : Char) (cs : Str) (hc : c ≠ '/') :
    filepathIsAbs (c :: cs) = false := by
  cases hb : filepathIsAbs (c :: cs) with
  | false => rfl
  | true =>
    obtain ⟨p, hp⟩ := (filepathIsAbs_iff _).1 hb
    simp only [List.cons.injEq] at hp
    exact absurd hp.1 hc

/-- Against an absolute directory `makeAbsolutePath` gives a rooted path. -/
theorem makeAbsolutePath_rooted (h : Host) (wdir x : Str) (hwd : filepathIsAbs wdir = true) :
    ∃ p, makeAbsolutePath h wdir x = '/' :: p := by
  cases hx : filepathIsAbs x with
  | true =>
    rw [makeAbsolutePath_of_abs h wdir x hx]
    exact (filepathIsAbs_iff x).1 hx
  | false =>
    rw [makeAbsolutePath_of_rel h wdir x hx hwd]
    obtain ⟨-, hj, -⟩ := filepathJoin_of_abs wdir x hwd
    obtain ⟨q, hq⟩ := (filepathIsAbs_iff _).1 hj
    rw [hq]
    exact (filepathIsAbs_iff _).1 (filepathClean_rooted q)

/-- A token that starts with a slash is emitted as it is. -/
theorem scrubStep_slash (h : Host) (recur : Nat → List Str → Option (Slice × Nat))
    (wdir p : Str) {held : Nat} :
    scrubStep h recur wdir ScrubState.stateInitial held ('/' :: p)
      = ScrubStep.next ScrubState.stateInitial ['/' :: p] held := by
  have hE : ('/' :: p) ≠ lit "-E" := by simp [lit]
  have habs : makeAbsolutePath h wdir ('/' :: p) = '/' :: p :=
    makeAbsolutePath_of_abs h wdir _ rfl
  by_cases hfile : matchFileArg ('/' :: p) = true
  · have hre : rtagsScrubRegexp ('/' :: p) = some ⟨[], [], [], '/' :: p, []⟩ := by
      simp [rtagsScrubRegexp, singleArgFlags, compoundArgFlags, matchCompoundArg, afterLiteral,
        lit, hfile]
    simp [scrubStep, hE, hre, habs]
  · have hre : rtagsScrubRegexp ('/' :: p) = none := by
      simp [rtagsScrubRegexp, singleArgFlags, compoundArgFlags, matchCompoundArg, afterLiteral,
        lit, hfile, matchRspFileArg]
    have hfil : rtagsFilterRegexp ('/' :: p) = false := by
      simp [rtagsFilterRegexp, rtagsFilterPrefixes, afterLiteral, lit]
    rw [scrubStep_unmatched h recur wdir _ hE hre]
    simp [hfil]

/-- A token `-I` followed by a rooted path is emitted as it is. -/
theorem scrubStep_I_slash (h : Host) (recur : Nat → List Str → Option (Slice × Nat))
    (wdir p : Str) {held : Nat} :
    scrubStep h recur wdir ScrubState.stateInitial held (lit "-I" ++ '/' :: p)
      = ScrubStep.next ScrubState.stateInitial [lit "-I" ++ '/' :: p] held := by
  by_cases hnl : '\n' ∈ ('/' :: p)
  · have hdot : dotMatchesAll ('/' :: p) = false := by
      cases hd : dotMatchesAll ('/' :: p) with
      | false => rfl
      | true => exact absurd hnl ((dotMatchesAll_iff _).1 hd)
    have htok : lit "-I" ++ '/' :: p = '-' :: 'I' :: '/' :: p := rfl
    have hE : lit "-I" ++ '/' :: p ≠ lit "-E" := by simp [lit]
    have hre : rtagsScrubRegexp (lit "-I" ++ '/' :: p) = none := by
      rw [htok]
      simp [rtagsScrubRegexp, singleArgFlags, compoundArgFlags, matchCompoundArg, afterLiteral,
        lit, hdot, matchFileArg, matchRspFileArg]
    have hfil : rtagsFilterRegexp (lit "-I" ++ '/' :: p) = false := by
      rw [htok]
      simp [rtagsFilterRegexp, rtagsFilterPrefixes, afterLiteral, lit]
    rw [scrubStep_unmatched h recur wdir _ hE hre]
    simp [hfil]
  · rw [scrubStep_compound_I h recur wdir ('/' :: p) (by simp) hnl,
      makeAbsolutePath_of_abs h wdir ('/' :: p) rfl]

theorem scrubStep_isysroot (h : Host) (recur : Nat → List Str → Option (Slice × Nat))
    (wdir : Str) {held : Nat} :
    scrubStep h recur wdir ScrubState.stateInitial held (lit "-isysroot")
      = ScrubStep.next ScrubState.stateInitial [lit "-isysroot"] held := rfl

theorem matchCompoundArg_spec (fs : List Str) (t f v : Str)
    (hm : matchCompoundArg fs t = some (f, v)) :
    f ∈ fs ∧ t = f ++ v ∧ v ≠ [] ∧ '\n' ∉ v := by
  induction fs with
  | nil => simp [matchCompoundArg] at hm
  | cons g fs ih =>
    unfold matchCompoundArg at hm
    split at hm
    · rename_i w hw
      split at hm
      · rename_i hcond
        simp only [Option.some.injEq, Prod.mk.injEq] at hm
        obtain ⟨hg, hwv⟩ := hm
        subst hg hwv
        exact ⟨by simp, (afterLiteral_eq_some _ _ _).1 hw, hcond.1,
          (dotMatchesAll_iff _).1 hcond.2⟩
      · obtain ⟨h1, h2⟩ := ih hm
        exact ⟨by simp [h1], h2⟩
    · obtain ⟨h1, h2⟩ := ih hm
      exact ⟨by simp [h1], h2⟩

theorem isStableBlock_slash (h : Host) (wdir p : Str) : isStableBlock h wdir ['/' :: p] :=
  isStableBlock_of_step h wdir _ (fun recur _ => scrubStep_slash h recur wdir p)

theorem isStableBlock_abs (h : Host) (wdir x : Str) (hwd : filepathIsAbs wdir = true) :
    isStableBlock h wdir [makeAbsolutePath h wdir x] := by
  obtain ⟨p, hp⟩ := makeAbsolutePath_rooted h wdir x hwd
  rw [hp]
  exact isStableBlock_slash h wdir p

theorem isStableBlock_isysroot (h : Host) (wdir : Str) :
    isStableBlock h wdir [lit "-isysroot"] :=
  isStableBlock_of_step h wdir _ (fun recur _ => scrubStep_isysroot h recur wdir)

/-- What one iteration in the initial state does to a token that is no
response-file reference, when the working directory is absolute: it
returns `nil`, or drops the token and the next one, or keeps an include flag
whose value comes next, or emits a run of tokens that a second scrub leaves
as it is. -/
theorem scrubStep_initial_classify (h : Host) (recur : Nat → List Str → Option (Slice × Nat))
    (wdir t : Str) (held : Nat) (hwd : filepathIsAbs wdir = true)
    (hrsp : isRspReference t = false) :
    scrubStep h recur wdir ScrubState.stateInitial held t = ScrubStep.abort ∨
    scrubStep h recur wdir ScrubState.stateInitial held t
      = ScrubStep.next ScrubState.stateDropNextArg [] held ∨
    (t ∈ absValueFlags ∧ scrubStep h recur wdir ScrubState.stateInitial held t
      = ScrubStep.next ScrubState.stateMakeNextArgRelative [t] held) ∨
    ∃ em, scrubStep h recur wdir ScrubState.stateInitial held t
      = ScrubStep.next ScrubState.stateInitial em held ∧ isStableBlock h wdir em := by
  by_cases hE : t = lit "-E"
  · subst hE
    exact Or.inl (scrubStep_E h recur wdir)
  · by_cases hs : t ∈ singleArgFlags
    · simp only [singleArgFlags, List.mem_cons, List.mem_singleton, List.not_mem_nil,
        or_false] at hs
      rcases hs with rfl | rfl | rfl | rfl | rfl | rfl | rfl | rfl | rfl | rfl | rfl | rfl | rfl
      · exact Or.inr (Or.inr (Or.inr ⟨_, scrubStep_sysroot h recur wdir,
          isStableBlock_isysroot h wdir⟩))
      · exact Or.inr (Or.inr (Or.inl ⟨by decide, rfl⟩))
      · exact Or.inr (Or.inl rfl)
      · exact Or.inr (Or.inr (Or.inl ⟨by decide, rfl⟩))
      · exact Or.inr (Or.inr (Or.inr ⟨[], rfl, isStableBlock_nil h wdir⟩))
      · exact Or.inr (Or.inr (Or.inr ⟨[], rfl, isStableBlock_nil h wdir⟩))
      · exact Or.inr (Or.inr (Or.inr ⟨[], rfl, isStableBlock_nil h wdir⟩))
      · exact Or.inr (Or.inr (Or.inr ⟨[], rfl, isStableBlock_nil h wdir⟩))
      · exact Or.inr (Or.inr (Or.inr ⟨[], rfl, isStableBlock_nil h wdir⟩))
      · exact Or.inr (Or.inr (Or.inr ⟨[], rfl, isStableBlock_nil h wdir⟩))
      · exact Or.inr (Or.inl rfl)
      · exact Or.inr (Or.inl rfl)
      · exact Or.inr (Or.inl rfl)
    · right; right; right
      cases hc : matchCompoundArg compoundArgFlags t with
      | some fv =>
        obtain ⟨f, v⟩ := fv
        obtain ⟨hf, ht, hv, hnl⟩ := matchCompoundArg_spec _ _ _ _ hc
        subst ht
        simp only [compoundArgFlags, List.mem_cons, List.mem_singleton, List.not_mem_nil,
          or_false] at hf
        rcases hf with rfl | rfl | rfl | rfl | rfl | rfl
        · refine ⟨_, scrubStep_compound_sysroot h recur wdir v hv hnl, ?_⟩
          exact isStableBlock_append h wdir [lit "-isysroot"] [makeAbsolutePath h wdir v]
            (isStableBlock_isysroot h wdir) (isStableBlock_abs h wdir v hwd)
        · exact ⟨[], scrubStep_compound_drop h recur wdir _ v (by decide) hv hnl,
            isStableBlock_nil h wdir⟩
        · refine ⟨_, scrubStep_compound_I h recur wdir v hv hnl, ?_⟩
          obtain ⟨p, hp⟩ := makeAbsolutePath_rooted h wdir v hwd
          rw [hp]
          exact isStableBlock_of_step h wdir _ (fun recur2 _ => scrubStep_I_slash h recur2 wdir p)
        · exact ⟨[], scrubStep_compound_drop h recur wdir _ v (by decide) hv hnl,
            isStableBlock_nil h wdir⟩
        · exact ⟨[], scrubStep_compound_drop h recur wdir _ v (by decide) hv hnl,
            isStableBlock_nil h wdir⟩
        · exact ⟨[], scrubStep_compound_drop h recur wdir _ v (by decide) hv hnl,
            isStableBlock_nil h wdir⟩
      | none =>
        by_cases hfile : matchFileArg t = true
        · have hne : t ≠ [] := by
            intro h0
            rw [h0] at hfile
            simp [matchFileArg] at hfile
          have hre : rtagsScrubRegexp t = some ⟨[], [], [], t, []⟩ := by
            simp [rtagsScrubRegexp, hs, hc, hfile]
          refine ⟨[makeAbsolutePath h wdir t], ?_, isStableBlock_abs h wdir t hwd⟩
          simp [scrubStep, hE, hre, hne]
        · have hno : matchRspFileArg t = none := by
            simpa [isRspReference] using hrsp
          have hre : rtagsScrubRegexp t = none :=
            (rtagsScrubRegexp_eq_none_iff t).2 ⟨hs, hc, by simpa using hfile, hno⟩
          refine ⟨_, scrubStep_unmatched h recur wdir t hE hre, ?_⟩
          by_cases hfil : rtagsFilterRegexp t = true
          · simp only [hfil, if_true]
            exact isStableBlock_nil h wdir
          · simp only [hfil, Bool.false_eq_true, if_false]
            refine isStableBlock_of_step h wdir t (fun recur2 held2 => ?_)
            rw [scrubStep_unmatched h recur2 wdir t hE hre]
            simp [hfil]

theorem scrubLoop_some_mk_of_prepend (r : Option Slice) (em out : List Str)
    (hr : r.map (Slice.prepend em) = some (Slice.mk out)) :
    ∃ out2, r = some (Slice.mk out2) ∧ out = em ++ out2 := by
  cases r with
  | none => simp at hr
  | some s =>
    cases s with
    | nil => simp [Slice.prepend] at hr
    | mk l =>
      simp only [Option.map_some', Slice.prepend, Option.some.injEq, Slice.mk.injEq] at hr
      exact ⟨l, rfl, hr.symm⟩

/-- The second scrub leaves the result of the first as it is, from each
state of the scan. -/
theorem scrubLoop_idempotent (h : Host)
    (recur recur2 : Nat → List Str → Option (Slice × Nat))
    (wdir : Str) (hwd : filepathIsAbs wdir = true) (args : List Str) :
    (∀ a ∈ args, isRspReference a = false) →
    ∀ (st : ScrubState) (out : List Str) (held held2 : Nat),
      (scrubLoop h recur wdir st [] held args).map Prod.fst = some (Slice.mk out) →
      scrubLoop h recur2 wdir
        (if st = ScrubState.stateMakeNextArgRelative then ScrubState.stateMakeNextArgRelative
          else ScrubState.stateInitial) [] held2 out = some (Slice.mk out, held2) := by
  induction args with
  | nil =>
    intro _ st out held held2 hout
    simp only [scrubLoop, Option.map_some', Option.some.injEq, Slice.mk.injEq] at hout
    subst hout
    simp [scrubLoop]
  | cons t rest ih =>
    intro hrsp st out held held2 hout
    have hrest : ∀ a ∈ rest, isRspReference a = false := fun a ha => hrsp a (by simp [ha])
    cases st with
    | stateDropNextArg =>
      rw [scrubLoop_cons, scrubStep_dropNext] at hout
      simp only [List.append_nil] at hout
      simpa using ih hrest ScrubState.stateInitial out held held2 hout
    | stateMakeNextArgRelative =>
      rw [scrubLoop_cons, scrubStep_makeNext] at hout
      simp only [List.nil_append] at hout
      rw [scrubLoop_acc, map_fst_prependHeld] at hout
      obtain ⟨out2, hout2, rfl⟩ := scrubLoop_some_mk_of_prepend _ _ _ hout
      have ih2 := ih hrest ScrubState.stateInitial out2 held held2 hout2
      simp only [reduceCtorEq, if_false] at ih2
      obtain ⟨p, hp⟩ := makeAbsolutePath_rooted h wdir t hwd
      simp only [if_true, List.singleton_append]
      rw [scrubLoop_cons, scrubStep_makeNext, hp, makeAbsolutePath_of_abs h wdir ('/' :: p) rfl]
      simp only [List.nil_append]
      rw [scrubLoop_acc, ih2]
      rfl
    | stateInitial =>
      simp only [reduceCtorEq, if_false]
      rw [scrubLoop_cons] at hout
      rcases scrubStep_initial_classify h recur wdir t held hwd (hrsp t (by simp)) with
        hab | hdrop | ⟨hflag, hmake⟩ | ⟨em, hnext, hstable⟩
      · rw [hab] at hout
        exact absurd hout (by simp)
      · rw [hdrop] at hout
        simp only [List.append_nil] at hout
        simpa using ih hrest ScrubState.stateDropNextArg out held held2 hout
      · rw [hmake] at hout
        simp only [List.nil_append] at hout
        rw [scrubLoop_acc, map_fst_prependHeld] at hout
        obtain ⟨out2, hout2, rfl⟩ := scrubLoop_some_mk_of_prepend _ _ _ hout
        have ih2 := ih hrest ScrubState.stateMakeNextArgRelative out2 held held2 hout2
        simp only [if_true] at ih2
        rw [List.singleton_append, scrubLoop_cons, scrubStep_absFlag h recur2 wdir t hflag]
        simp only [List.nil_append]
        rw [scrubLoop_acc, ih2]
        rfl
      · rw [hnext] at hout
        simp only [List.nil_append] at hout
        rw [scrubLoop_acc, map_fst_prependHeld] at hout
        obtain ⟨out2, hout2, rfl⟩ := scrubLoop_some_mk_of_prepend _ _ _ hout
        have ih2 := ih hrest ScrubState.stateInitial out2 held held2 hout2
        simp only [reduceCtorEq, if_false] at ih2
        rw [hstable recur2 [] held2 out2, List.nil_append, scrubLoop_acc, ih2]
        rfl

/-- C13: for an absolute working directory and a vector free of
response-file references whose scrub is not suppressed, scrubbing the
result again gives the same result: the second pass is not suppressed and
changes nothing. -/
theorem scrub_idempotent (h : Host) (wdir : Str) (fuel fuel2 : Nat) (args out : List Str)
    (hwd : filepathIsAbs wdir = true) (hrsp : ∀ a ∈ args, isRspReference a = false)
    (hout : scrubCmdlineRtags h wdir (fuel + 1) args = some (Slice.mk out)) :
    scrubCmdlineRtags h wdir (fuel2 + 1) out = some (Slice.mk out) := by
  have hloop := scrubLoop_idempotent h (scrubCmdlineRtagsFrom h wdir fuel)
    (scrubCmdlineRtagsFrom h wdir fuel2) wdir hwd args hrsp ScrubState.stateInitial out 0 0 hout
  simp only [reduceCtorEq, if_false] at hloop
  rw [scrubCmdlineRtags_succ, hloop]
  rfl

theorem scrub_idempotent_witness :
    filepathIsAbs (lit "/wd") = true ∧
    (∀ a ∈ [lit "-Ifoo", lit "-I", lit "../inc", lit "--sysroot=sdk", lit "-o", lit "x.o",
        lit "-Wall", lit "-MD", lit "-falign-functions=4", lit "src/foo.c", lit "--sysroot",
        lit "-isystem"], isRspReference a = false) ∧
    scrubCmdlineRtags exampleHost (lit "/wd") 1
      [lit "-Ifoo", lit "-I", lit "../inc", lit "--sysroot=sdk", lit "-o", lit "x.o",
        lit "-Wall", lit "-MD", lit "-falign-functions=4", lit "src/foo.c", lit "--sysroot",
        lit "-isystem"]
      = some (Slice.mk [lit "-I/wd/foo", lit "-I", lit "/inc", lit "-isysroot", lit "/wd/sdk",
          lit "-Wall", lit "/wd/src/foo.c", lit "-isysroot", lit "-isystem"]) ∧
    scrubCmdlineRtags exampleHost (lit "/wd") 1
      [lit "-I/wd/foo", lit "-I", lit "/inc", lit "-isysroot", lit "/wd/sdk",
          lit "-Wall", lit "/wd/src/foo.c", lit "-isysroot", lit "-isystem"]
      = some (Slice.mk [lit "-I/wd/foo", lit "-I", lit "/inc", lit "-isysroot", lit "/wd/sdk",
          lit "-Wall", lit "/wd/src/foo.c", lit "-isysroot", lit "-isystem"]) :=
  ⟨by decide, by decide, by decide,
    scrub_idempotent exampleHost (lit "/wd") 0 0
      [lit "-Ifoo", lit "-I", lit "../inc", lit "--sysroot=sdk", lit "-o", lit "x.o",
        lit "-Wall", lit "-MD", lit "-falign-functions=4", lit "src/foo.c", lit "--sysroot",
        lit "-isystem"] _ (by decide) (by decide) (by decide)⟩

end Pear
